import Mathlib

/-!
# DIAMOND `sorted_list` and `BufferedSource::read`: a shallow embedding

The definitions below follow `src/data/sorted_list.h` and, at the end of the
definitions, `BufferedSource::read` of `src/util/io/buffered_source.cpp`.  Pointers into the
shared entry buffer `data_` are modelled as indices (`Nat`) into a
`List entry`; a store outside the buffer makes the operation fail (`none`).
Sizes and indices (`size_t`, `unsigned`) count objects held in memory and are
modelled as `Nat`; the 8-bit fill counters of the write buffer are reduced
modulo 256 explicitly.  A location (`Loc`, `Packed_loc`) is a `Nat`; the
conversions between the two belong to the external type `Packed_loc`.

Code that the header uses but that lives in other files of the repository
(`Const::seedp`, `seedp_range`, `seed_partition`, `seed_partition_offset`,
`shape`, `Sequence_set`) is collected in the record `Ext` and taken as a
parameter.  Reads and calls that a claim speaks about are recorded by trace
functions that mirror the loop they belong to (`count_reads`, `next_trace`,
`build_seqp.events`, `random_access_reads`).
-/

namespace Diamond

/-! ## Data model -/

/-- The packed pair `sorted_list::entry`; `operator<` compares the key only. -/
structure entry where
  key : Nat
  value : Nat
deriving DecidableEq, Repr

/-- The default constructor `entry()` value-initialises both members. -/
instance : Inhabited entry := ⟨⟨0, 0⟩⟩

/-- The comparison `entry::operator<`. -/
def entry.lt (a b : entry) : Bool := decide (a.key < b.key)

/-- External collaborators of `sorted_list`, taken as parameters. -/
structure Ext where
  /-- The constant `Const::seedp`, the number of partitions. -/
  seedp : Nat
  /-- The predicate `seedp_range::contains`. -/
  contains : Nat → Bool
  /-- The function `seed_partition` on packed seeds. -/
  seed_partition : Nat → Nat
  /-- The function `seed_partition_offset` on packed seeds. -/
  seed_partition_offset : Nat → Nat
  /-- The member `shape::length_`. -/
  length_ : Nat
  /-- The call `sh.set_seed(key, &seq[j])`: the packed seed when it succeeds. -/
  set_seed : List Nat → Nat → Option Nat
  /-- The call `seqs.position(i, j)`. -/
  position : Nat → Nat → Nat
  /-- The sequence `seqs[i]` of the `Sequence_set`, as its list of letters. -/
  seqs : Nat → List Nat

/-- A seed histogram `shape_histogram`: one row of counts per chunk. -/
abbrev shape_histogram := List (List Nat)

/-- The count `hst[c][p]`. -/
def hst_at (hst : shape_histogram) (c p : Nat) : Nat := (hst.getD c []).getD p 0

/-- Modelled from the spec: the helper `partition_size(hst, p)` of
`seed_histogram.h` is not among the source files; section 4.1 gives the width
of an active partition as the sum over chunks of `PartitionCounts[.][p]`. -/
def partition_size (hst : shape_histogram) (p : Nat) : Nat :=
  (hst.map (fun row => row.getD p 0)).sum

/-! ## `Limits` and the region pointers -/

/-- The width that the constructor of `Limits` adds for partition `i`. -/
def Limits.width (X : Ext) (hst : shape_histogram) (i : Nat) : Nat :=
  if X.contains i then partition_size hst i else 0

/-- One iteration of the loop in the constructor `Limits(hst, range)`. -/
def Limits.step (X : Ext) (hst : shape_histogram) (lim : List Nat) (i : Nat) : List Nat :=
  lim ++ [lim.getD i 0 + (if X.contains i then partition_size hst i else 0)]

/-- The constructor `Limits(hst, range)`: `push_back(0)` and one `push_back` per partition. -/
def Limits (X : Ext) (hst : shape_histogram) : List Nat :=
  (List.range X.seedp).foldl (Limits.step X hst) [0]

/-- The index of `ptr_begin(i)` and `cptr_begin(i)`, that is `&data_[limits_[i]]`. -/
def ptr_begin (limits : List Nat) (i : Nat) : Nat := limits.getD i 0

/-- The index of `ptr_end(i)` and `cptr_end(i)`, that is `&data_[limits_[i+1]]`. -/
def ptr_end (limits : List Nat) (i : Nat) : Nat := limits.getD (i + 1) 0

/-- The entries stored at the indices `[b, e)` of the buffer. -/
def region (data : List entry) (b e : Nat) : List entry := (data.take e).drop b

/-- A store of the entries `src` to the buffer indices `dst, dst + 1, ...`; it
fails when it would run past the end of the buffer. -/
def store (data : List entry) (dst : Nat) (src : List entry) : Option (List entry) :=
  if dst + src.length ≤ data.length then
    some (data.take dst ++ src ++ data.drop (dst + src.length))
  else none

/-! ## The sort phase: `Sort_context` -/

/-- The order used by `std::sort`: `a` may stand before `b` unless `b < a`. -/
def entry.le (a b : entry) : Prop := entry.lt b a = false

instance : DecidableRel entry.le := fun a b => inferInstanceAs (Decidable (entry.lt b a = false))

instance : IsTotal entry entry.le :=
  ⟨fun a b => by simp only [entry.le, entry.lt, decide_eq_false_iff_not]; omega⟩

instance : IsTrans entry entry.le :=
  ⟨fun a b c => by simp only [entry.le, entry.lt, decide_eq_false_iff_not]; omega⟩

/-- The library call `std::sort(first, last)` on a range of entries.  Its
contract is a rearrangement of the range that is ordered by `operator<`; the
order among entries of equal key is unspecified, and this embedding fixes it to
that of an insertion sort. -/
def std_sort (l : List entry) : List entry := l.insertionSort entry.le

/-- The job `Sort_context::operator()(thread_id, seedp)`:
`std::sort(sl.ptr_begin(seedp), sl.ptr_end(seedp))`.  It fails when the two
pointers do not delimit a range inside the buffer. -/
def Sort_context.call (limits : List Nat) (data : List entry) (p : Nat) : Option (List entry) :=
  if ptr_begin limits p ≤ ptr_end limits p ∧ ptr_end limits p ≤ data.length then
    some (data.take (ptr_begin limits p)
      ++ std_sort (region data (ptr_begin limits p) (ptr_end limits p))
      ++ data.drop (ptr_end limits p))
  else none

/-- The sort phase `launch_scheduled_thread_pool(sort_context, Const::seedp, ...)`
with the jobs taken one after the other in the order `order`. -/
def sort_phase (limits : List Nat) : List Nat → List entry → Option (List entry)
  | [], data => some data
  | p :: rest, data => (Sort_context.call limits data p).bind (sort_phase limits rest)

/-! ## `build_iterators` -/

/-- The row `iterators[i]` computed from `iterators[i - 1]` and `hst[i - 1]`. -/
def build_iterators.step (X : Ext) (hst : shape_histogram) (its : List (List Nat)) (i : Nat) :
    List (List Nat) :=
  its ++ [(List.range X.seedp).map
    (fun j => (its.getD (i - 1) []).getD j 0 + hst_at hst (i - 1) j)]

/-- The function `build_iterators(hst)`.  The vector has `hst.size()` rows, so
the stores to `iterators[0]` are out of bounds for an empty histogram. -/
def build_iterators (X : Ext) (limits : List Nat) (hst : shape_histogram) :
    Option (List (List Nat)) :=
  if hst.length = 0 then none
  else some ((List.range' 1 (hst.length - 1)).foldl (build_iterators.step X hst)
    [(List.range X.seedp).map (fun i => ptr_begin limits i)])

/-- The cursor `iterators[c][p]`. -/
def cursor_at (its : List (List Nat)) (c p : Nat) : Nat := (its.getD c []).getD p 0

/-! ## Grouped iteration: `Iterator_base` -/

/-- The read `(data_ + k)->key`. -/
def key_at (data : List entry) (k : Nat) : Nat := (data.getD k default).key

/-- The read `(data_ + k)->value`. -/
def value_at (data : List entry) (k : Nat) : Nat := (data.getD k default).value

/-- The state of `Iterator_base`: the pointers `i` and `end` and the bucket size `n`. -/
structure Iterator_base where
  i : Nat
  end_ : Nat
  n : Nat
deriving DecidableEq, Repr

/-- The loop `while(k < end && (k++)->key == i->key) ++n;` of `count()`.  The
first argument bounds the number of iterations; `count` passes `end - i`,
which the loop cannot exceed because `k` starts at `i` and grows by one. -/
def Iterator_base.count_loop (data : List entry) (i end_ : Nat) : Nat → Nat → Nat → Nat
  | 0, _, n => n
  | fuel + 1, k, n =>
    if k < end_ ∧ key_at data k = key_at data i then
      Iterator_base.count_loop data i end_ fuel (k + 1) (n + 1)
    else n

/-- The member `count()`, with `k` starting at `i` and `n` at 0. -/
def Iterator_base.count (data : List entry) (i end_ : Nat) : Nat :=
  Iterator_base.count_loop data i end_ (end_ - i) i 0

/-- The buffer indices dereferenced by the loop of `count()`: each iteration
whose test `k < end` succeeds reads the keys at `k` and at `i`. -/
def Iterator_base.count_reads_loop (data : List entry) (i end_ : Nat) : Nat → Nat → List Nat
  | 0, _ => []
  | fuel + 1, k =>
    if k < end_ then
      k :: i :: (if key_at data k = key_at data i then
        Iterator_base.count_reads_loop data i end_ fuel (k + 1) else [])
    else []

/-- The buffer indices dereferenced by `count()`. -/
def Iterator_base.count_reads (data : List entry) (i end_ : Nat) : List Nat :=
  Iterator_base.count_reads_loop data i end_ (end_ - i) i

/-- The constructor `Iterator_base(i, end)`, which sets `n (count())`. -/
def Iterator_base.init (data : List entry) (i end_ : Nat) : Iterator_base :=
  { i := i, end_ := end_, n := Iterator_base.count data i end_ }

/-- The member `operator++`: `i += n; n = count();`. -/
def Iterator_base.inc (data : List entry) (it : Iterator_base) : Iterator_base :=
  { i := it.i + it.n, end_ := it.end_, n := Iterator_base.count data (it.i + it.n) it.end_ }

/-- The member `operator[]`: the value of the `k`-th entry of the bucket. -/
def Iterator_base.subscript (data : List entry) (it : Iterator_base) (k : Nat) : Nat :=
  value_at data (it.i + k)

/-- The member `get(k)`: the pointer `i + k`. -/
def Iterator_base.get (it : Iterator_base) (k : Nat) : Nat := it.i + k

/-- The member `at_end()`: `i >= end`. -/
def Iterator_base.at_end (it : Iterator_base) : Bool := decide (it.i ≥ it.end_)

/-- The member `key()`: `i->key`. -/
def Iterator_base.key (data : List entry) (it : Iterator_base) : Nat := key_at data it.i

/-- The accessor `get_partition_cbegin(p)`. -/
def get_partition_cbegin (data : List entry) (limits : List Nat) (p : Nat) : Iterator_base :=
  Iterator_base.init data (ptr_begin limits p) (ptr_end limits p)

/-- The accessor `get_partition_begin(p)`. -/
def get_partition_begin (data : List entry) (limits : List Nat) (p : Nat) : Iterator_base :=
  Iterator_base.init data (ptr_begin limits p) (ptr_end limits p)

/-- The buffer indices dereferenced while `get_partition_cbegin(p)` or
`get_partition_begin(p)` constructs its iterator. -/
def get_partition_begin_reads (data : List entry) (limits : List Nat) (p : Nat) : List Nat :=
  Iterator_base.count_reads data (ptr_begin limits p) (ptr_end limits p)

/-- The driver `for (it = Iterator_base(begin, end); !it.at_end(); ++it)`: the
iterator states visited, or `none` when the step budget runs out first. -/
def Iterator_base.visit (data : List entry) : Nat → Iterator_base → Option (List Iterator_base)
  | 0, _ => none
  | fuel + 1, it =>
    if it.at_end then some []
    else (Iterator_base.visit data fuel (it.inc data)).map (fun rest => it :: rest)

/-- The list `bs` is the succession of iterator states met from position `b`
to the end `e` of a region: each state sits where the preceding bucket ended
and caches the `count()` of its position. -/
def Bucketing (data : List entry) (e : Nat) : Nat → List Iterator_base → Prop
  | b, [] => e ≤ b
  | b, it :: rest =>
    b < e ∧ it.i = b ∧ it.end_ = e ∧ it.n = Iterator_base.count data b e ∧
      Bucketing data e (b + it.n) rest

/-- The keys of the region `[b, e)` are non-decreasing from first to last. -/
def region_sorted (data : List entry) (b e : Nat) : Prop :=
  ∀ x y, b ≤ x → x ≤ y → y < e → key_at data x ≤ key_at data y

/-- Some entry of the region `[b, e)` carries the key `k`. -/
def has_key (data : List entry) (b e k : Nat) : Prop :=
  ∃ x, b ≤ x ∧ x < e ∧ key_at data x = k

/-! ## `Merge_iterator` -/

/-- The state of `Merge_iterator`: the two grouped iterators `i` and `j`. -/
structure Merge_iterator where
  i : Iterator_base
  j : Iterator_base
deriving DecidableEq, Repr

/-- The member `next()`, with `i` running over the buffer `A` and `j` over the
buffer `B`.  The first argument bounds the number of loop iterations; the
result is the returned flag and the state on return, or `none` when the bound
is reached first. -/
def Merge_iterator.next (A B : List entry) : Nat → Merge_iterator → Option (Bool × Merge_iterator)
  | 0, _ => none
  | fuel + 1, m =>
    if m.i.at_end = false ∧ m.j.at_end = false then
      if m.i.key A < m.j.key B then
        Merge_iterator.next A B fuel { m with i := m.i.inc A }
      else if m.j.key B < m.i.key A then
        Merge_iterator.next A B fuel { m with j := m.j.inc B }
      else some (true, m)
    else some (false, m)

/-- The member `operator++`: `++i; ++j;`. -/
def Merge_iterator.inc (A B : List entry) (m : Merge_iterator) : Merge_iterator :=
  { i := m.i.inc A, j := m.j.inc B }

/-- The protocol `while (m.next()) { report m.i.key(); ++m; }`: the keys
reported, or `none` when the step budget runs out first. -/
def Merge_iterator.report (A B : List entry) : Nat → Merge_iterator → Option (List Nat)
  | 0, _ => none
  | fuel + 1, m =>
    match Merge_iterator.next A B (fuel + 1) m with
    | none => none
    | some (false, _) => some []
    | some (true, m1) =>
      (Merge_iterator.report A B fuel (m1.inc A B)).map (fun ks => m1.i.key A :: ks)

/-! ## `Random_access_iterator` -/

/-- The state of `Random_access_iterator`. -/
structure Random_access_iterator where
  i : Nat
  end_ : Nat
  key_ : Nat
deriving DecidableEq, Repr

/-- The constructor `Random_access_iterator(i, end)`.  It sets
`key_(i ? i->key : 0)`; a pointer `data_ + k` into the buffer is not null, so
the key at `i` is read. -/
def Random_access_iterator.init (data : List entry) (i end_ : Nat) : Random_access_iterator :=
  { i := i, end_ := end_, key_ := key_at data i }

/-- The member `operator++`: `++i`. -/
def Random_access_iterator.inc (r : Random_access_iterator) : Random_access_iterator :=
  { r with i := r.i + 1 }

/-- The member `operator*`: `i->value`. -/
def Random_access_iterator.deref (data : List entry) (r : Random_access_iterator) : Nat :=
  value_at data r.i

/-- The member `good()`: `i < end && i->key == key_`. -/
def Random_access_iterator.good (data : List entry) (r : Random_access_iterator) : Bool :=
  decide (r.i < r.end_ ∧ key_at data r.i = r.key_)

/-- The member `key()`: the remembered `key_`. -/
def Random_access_iterator.key (r : Random_access_iterator) : Nat := r.key_

/-- The function `iterator_offset(i, p)`: `i.i - cptr_begin(p)`. -/
def iterator_offset (limits : List Nat) (g : Iterator_base) (p : Nat) : Nat :=
  g.i - ptr_begin limits p

/-- The function `random_access(p, offset)`. -/
def random_access (data : List entry) (limits : List Nat) (p offset : Nat) :
    Random_access_iterator :=
  Random_access_iterator.init data (ptr_begin limits p + offset) (ptr_end limits p)

/-! ## The build phase: `buffered_iterator`, `build_seqp`, `Build_context` -/

/-- The constant `buffered_iterator::BUFFER_SIZE`. -/
def BUFFER_SIZE : Nat := 16

/-- The state of `buffered_iterator`: the cursors `ptr[p]`, the write buffers
`buf[p][k]` and the 8-bit fill counters `n[p]`, one of each per partition. -/
structure buffered_iterator where
  ptr : Nat → Nat
  buf : Nat → Nat → entry
  n : Nat → Nat

/-- The shared buffer together with the write buffers of the running job. -/
abbrev build_state := List entry × buffered_iterator

/-- The constructor `buffered_iterator(ptr)`: the counters are zeroed, the
cursors copied; the entries of `buf` are default-constructed. -/
def buffered_iterator.init (ptr : Nat → Nat) : buffered_iterator :=
  { ptr := ptr, buf := fun _ _ => default, n := fun _ => 0 }

/-- The iterator after `ptr[p] += n[p]; n[p] = 0;`. -/
def buffered_iterator.flushed (it : buffered_iterator) (p : Nat) : buffered_iterator :=
  { it with
    ptr := Function.update it.ptr p (it.ptr p + it.n p)
    n := Function.update it.n p 0 }

/-- The member `flush(p)`: `memcpy(ptr[p], buf[p], n[p] * sizeof(entry));
ptr[p] += n[p]; n[p] = 0;`. -/
def buffered_iterator.flush_p (st : build_state) (p : Nat) : Option build_state :=
  match store st.1 (st.2.ptr p) ((List.range (st.2.n p)).map (st.2.buf p)) with
  | none => none
  | some data1 => some (data1, st.2.flushed p)

/-- The iterator after `buf[p][n[p]++] = e;` with the 8-bit counter `n[p]`. -/
def buffered_iterator.put (it : buffered_iterator) (p : Nat) (e : entry) : buffered_iterator :=
  { it with
    buf := Function.update it.buf p (Function.update (it.buf p) (it.n p) e)
    n := Function.update it.n p ((it.n p + 1) % 256) }

/-- The member `push(key, value, range)`.  It fails when `p` is not an index of
the arrays or when the assertion `n[p] < BUFFER_SIZE` does not hold. -/
def buffered_iterator.push (X : Ext) (st : build_state) (key value : Nat) : Option build_state :=
  if X.contains (X.seed_partition key) then
    if X.seed_partition key < X.seedp ∧ st.2.n (X.seed_partition key) < BUFFER_SIZE then
      if (st.2.put (X.seed_partition key) ⟨X.seed_partition_offset key, value⟩).n
          (X.seed_partition key) = BUFFER_SIZE then
        buffered_iterator.flush_p
          (st.1, st.2.put (X.seed_partition key) ⟨X.seed_partition_offset key, value⟩)
          (X.seed_partition key)
      else
        some (st.1, st.2.put (X.seed_partition key) ⟨X.seed_partition_offset key, value⟩)
    else none
  else some st

/-- The loop of the member `flush()` over the partitions `ps`. -/
def buffered_iterator.flush_loop : List Nat → build_state → Option build_state
  | [], st => some st
  | p :: ps, st =>
    if 0 < st.2.n p then
      (buffered_iterator.flush_p st p).bind (buffered_iterator.flush_loop ps)
    else buffered_iterator.flush_loop ps st

/-- The member `flush()`: `for (p = 0; p < Const::seedp; ++p) if (n[p] > 0) flush(p);`. -/
def buffered_iterator.flush (X : Ext) (st : build_state) : Option build_state :=
  buffered_iterator.flush_loop (List.range X.seedp) st

/-- The inner loop of `build_seqp` over the window positions `js` of sequence `i`. -/
def build_seqp.window_loop (X : Ext) (i : Nat) : List Nat → build_state → Option build_state
  | [], st => some st
  | j :: js, st =>
    match X.set_seed (X.seqs i) j with
    | some key =>
      (buffered_iterator.push X st key (X.position i j)).bind (build_seqp.window_loop X i js)
    | none => build_seqp.window_loop X i js st

/-- The outer loop of `build_seqp` over the sequences `is`; a sequence shorter
than the shape is skipped. -/
def build_seqp.seq_loop (X : Ext) : List Nat → build_state → Option build_state
  | [], st => some st
  | i :: is, st =>
    if (X.seqs i).length < X.length_ then build_seqp.seq_loop X is st
    else
      (build_seqp.window_loop X i (List.range ((X.seqs i).length - X.length_ + 1)) st).bind
        (build_seqp.seq_loop X is)

/-- The function `build_seqp(seqs, begin, end, ptr, sh, range)` acting on the
shared buffer `data`. -/
def build_seqp (X : Ext) (begin_ end_ : Nat) (ptr : Nat → Nat) (data : List entry) :
    Option (List entry) :=
  ((build_seqp.seq_loop X (List.range' begin_ (end_ - begin_))
      (data, buffered_iterator.init ptr)).bind (buffered_iterator.flush X)).map Prod.fst

/-- The job `Build_context::operator()(thread_id, seqp)`. -/
def Build_context.call (X : Ext) (seq_partition : List Nat) (iterators : List (List Nat))
    (data : List entry) (seqp : Nat) : Option (List entry) :=
  build_seqp X (seq_partition.getD seqp 0) (seq_partition.getD (seqp + 1) 0)
    (fun p => cursor_at iterators seqp p) data

/-- The jobs of the build phase taken one after the other in the order `order`. -/
def build_jobs (X : Ext) (seq_partition : List Nat) (iterators : List (List Nat)) :
    List Nat → List entry → Option (List entry)
  | [], data => some data
  | c :: rest, data =>
    (Build_context.call X seq_partition iterators data c).bind
      (build_jobs X seq_partition iterators rest)

/-- The build phase of the constructor of `sorted_list`: `limits_ (hst, range)`,
`build_iterators(hst)` and one job per chunk, the jobs taken in the order `order`. -/
def build_phase (X : Ext) (hst : shape_histogram) (seq_partition : List Nat)
    (order : List Nat) (data : List entry) : Option (List entry) :=
  (build_iterators X (Limits X hst) hst).bind
    (fun its => build_jobs X seq_partition its order data)

/-! ## The seeds of a chunk, as the claims describe them -/

/-- The valid seeds of sequence `i`: for every window position `j` on which
`set_seed` succeeds, the packed seed and `seqs.position(i, j)`. -/
def window_seeds (X : Ext) (i : Nat) : List (Nat × Nat) :=
  if (X.seqs i).length < X.length_ then []
  else (List.range ((X.seqs i).length - X.length_ + 1)).filterMap
    (fun j => (X.set_seed (X.seqs i) j).map (fun key => (key, X.position i j)))

/-- The valid seeds of the sequences `[begin_, end_)`. -/
def range_seeds (X : Ext) (begin_ end_ : Nat) : List (Nat × Nat) :=
  (List.range' begin_ (end_ - begin_)).flatMap (window_seeds X)

/-- The entry `(seed_partition_offset(key), value)` of a seed. -/
def seed_entry (X : Ext) (kv : Nat × Nat) : entry := ⟨X.seed_partition_offset kv.1, kv.2⟩

/-- The entries of the seeds in `seeds` whose partition is `p`. -/
def partition_entries (X : Ext) (seeds : List (Nat × Nat)) (p : Nat) : List entry :=
  (seeds.filter (fun kv => decide (X.seed_partition kv.1 = p))).map (seed_entry X)

/-- The entries of the valid seeds of chunk `c` whose partition is `p`. -/
def chunk_entries (X : Ext) (seq_partition : List Nat) (c p : Nat) : List entry :=
  partition_entries X
    (range_seeds X (seq_partition.getD c 0) (seq_partition.getD (c + 1) 0)) p

/-- The entries of the valid seeds of all chunks whose partition is `p`. -/
def all_entries (X : Ext) (seq_partition : List Nat) (p : Nat) : List entry :=
  (List.range (seq_partition.length - 1)).flatMap (fun c => chunk_entries X seq_partition c p)

/-- A sequence of `push` calls, one per seed of the list. -/
def push_list (X : Ext) : List (Nat × Nat) → build_state → Option build_state
  | [], st => some st
  | kv :: ps, st => (buffered_iterator.push X st kv.1 kv.2).bind (push_list X ps)

/-- The entries waiting in the write buffer of partition `p`. -/
def buffered_iterator.pending (it : buffered_iterator) (p : Nat) : List entry :=
  (List.range (it.n p)).map (it.buf p)

/-- The number of entries of the region `[b, e)` that carry the key `k`. -/
def key_count (data : List entry) (b e k : Nat) : Nat :=
  ((List.range' b (e - b)).filter (fun x => decide (key_at data x = k))).length

/-- The states in which the loop test of `Merge_iterator::next()` is evaluated,
from the state of the call to the state on return. -/
def Merge_iterator.next_trace (A B : List entry) :
    Nat → Merge_iterator → Option (List Merge_iterator)
  | 0, _ => none
  | fuel + 1, m =>
    if m.i.at_end = false ∧ m.j.at_end = false then
      if m.i.key A < m.j.key B then
        (Merge_iterator.next_trace A B fuel { m with i := m.i.inc A }).map (fun t => m :: t)
      else if m.j.key B < m.i.key A then
        (Merge_iterator.next_trace A B fuel { m with j := m.j.inc B }).map (fun t => m :: t)
      else some [m]
    else some [m]

/-- One loop step of `next()` from state `s` to state `t`: the iterator with
the smaller key, and only that one, has moved by `operator++` past its
non-empty current bucket. -/
def Merge_iterator.advances (A B : List entry) (s t : Merge_iterator) : Prop :=
  (s.i.key A < s.j.key B ∧ t.j = s.j ∧ t.i = s.i.inc A ∧
    s.i.n = Iterator_base.count A s.i.i s.i.end_ ∧ 0 < s.i.n ∧ t.i.i = s.i.i + s.i.n) ∨
  (s.j.key B < s.i.key A ∧ t.i = s.i ∧ t.j = s.j.inc B ∧
    s.j.n = Iterator_base.count B s.j.i s.j.end_ ∧ 0 < s.j.n ∧ t.j.i = s.j.i + s.j.n)

/-- The protocol `while (m.next()) { ...; ++m; }`: the states in which `next()`
returned true, or `none` when the step budget runs out first. -/
def Merge_iterator.matches (A B : List entry) :
    Nat → Merge_iterator → Option (List Merge_iterator)
  | 0, _ => none
  | fuel + 1, m =>
    match Merge_iterator.next A B (fuel + 1) m with
    | none => none
    | some (false, _) => some []
    | some (true, m1) =>
      (Merge_iterator.matches A B fuel (m1.inc A B)).map (fun ms => m1 :: ms)

/-- Position `i` of the region `[b, e)` is a bucket boundary: every key before
`i` is smaller than every key from `i` on. -/
def bucket_boundary (data : List entry) (b e i : Nat) : Prop :=
  b ≤ i ∧ ∀ x y, b ≤ x → x < i → i ≤ y → y < e → key_at data x < key_at data y

/-- What a job of `build_seqp` does besides moving entries: a call
`sh.set_seed(key, &seq[j])` on sequence `i`, or a call `it->push(key, value, range)`. -/
inductive build_event where
  | call (i j : Nat)
  | push (key value : Nat)
deriving DecidableEq, Repr

/-- The calls made by the inner loop of `build_seqp` over the window positions
`js` of sequence `i`, in the order in which they are made. -/
def build_seqp.window_events (X : Ext) (i : Nat) : List Nat → List build_event
  | [] => []
  | j :: js =>
    match X.set_seed (X.seqs i) j with
    | some key =>
      build_event.call i j :: build_event.push key (X.position i j)
        :: build_seqp.window_events X i js
    | none => build_event.call i j :: build_seqp.window_events X i js

/-- The calls made by the outer loop of `build_seqp` over the sequences `is`. -/
def build_seqp.seq_events (X : Ext) : List Nat → List build_event
  | [] => []
  | i :: is =>
    if (X.seqs i).length < X.length_ then build_seqp.seq_events X is
    else
      build_seqp.window_events X i (List.range ((X.seqs i).length - X.length_ + 1))
        ++ build_seqp.seq_events X is

/-- The calls made by `build_seqp(seqs, begin, end, ...)` before its final `flush()`. -/
def build_seqp.events (X : Ext) (begin_ end_ : Nat) : List build_event :=
  build_seqp.seq_events X (List.range' begin_ (end_ - begin_))

/-- The arguments `(key, value)` of the `push` calls of a list of events. -/
def pushes_of (es : List build_event) : List (Nat × Nat) :=
  es.filterMap (fun e => match e with
    | build_event.push key value => some (key, value)
    | build_event.call _ _ => none)

/-- The positions `(i, j)` of the `set_seed` calls of a list of events. -/
def calls_of (es : List build_event) : List (Nat × Nat) :=
  es.filterMap (fun e => match e with
    | build_event.call i j => some (i, j)
    | build_event.push _ _ => none)

/-- The buffer indices whose key the constructor `Random_access_iterator(i, end)`
reads: `key_(i ? i->key : 0)` dereferences `i` whenever it is not null, and a
pointer `data_ + k` into the buffer is not null; `end` plays no part. -/
def Random_access_iterator.init_reads (i : Nat) : List Nat := [i]

/-- The buffer indices whose key `random_access(p, offset)` reads. -/
def random_access_reads (limits : List Nat) (p offset : Nat) : List Nat :=
  Random_access_iterator.init_reads (ptr_begin limits p + offset)

/-! ## `BufferedSource::read` (`src/util/io/buffered_source.cpp`) -/

/-- The state of a `BufferedSource`: the buffered bytes not yet delivered
(`avail_` is their number) and the blocks that the following calls of `fetch()`
will obtain from the underlying source. -/
structure BufferedSource where
  buf : List Nat
  src : List (List Nat)
deriving DecidableEq, Repr

/-- The member `avail_`. -/
def BufferedSource.avail_ (s : BufferedSource) : Nat := s.buf.length

/-- The bytes of the stream that have not been delivered yet. -/
def BufferedSource.remaining (s : BufferedSource) : List Nat := s.buf ++ s.src.flatten

/-- Modelled from the spec: the member `pop` is defined in `buffered_source.h`,
which is not among the source files; `pop(ptr, n)` delivers the next `n`
buffered bytes and decreases `avail_` by `n`. -/
def BufferedSource.pop (s : BufferedSource) (n : Nat) : List Nat × BufferedSource :=
  (s.buf.take n, { s with buf := s.buf.drop n })

/-- Modelled from the spec: the member `fetch` is defined in `buffered_source.h`,
which is not among the source files; `fetch()` refills the buffer with the next
block of the underlying source, or leaves `avail_ = 0` when the source is
exhausted. -/
def BufferedSource.fetch (s : BufferedSource) : BufferedSource :=
  match s.src with
  | [] => { buf := [], src := [] }
  | c :: cs => { buf := c, src := cs }

/-- The statement `if (avail_ == 0) fetch();`. -/
def BufferedSource.refill (s : BufferedSource) : BufferedSource :=
  if s.avail_ = 0 then s.fetch else s

/-- The `do { ... } while (count > 0 && avail_ > 0)` loop of `read`, with the
bytes written to `ptr` so far in `out`.  The first argument bounds the number
of iterations. -/
def BufferedSource.read_loop :
    Nat → BufferedSource → Nat → List Nat → Nat → Option (Nat × List Nat × BufferedSource)
  | 0, _, _, _, _ => none
  | fuel + 1, s, count, out, total =>
    if 0 < count - min count s.avail_ ∧
        0 < (s.pop (min count s.avail_)).2.refill.avail_ then
      BufferedSource.read_loop fuel (s.pop (min count s.avail_)).2.refill
        (count - min count s.avail_)
        (out ++ (s.pop (min count s.avail_)).1)
        (total + min count s.avail_)
    else
      some (total + min count s.avail_, out ++ (s.pop (min count s.avail_)).1,
        (s.pop (min count s.avail_)).2.refill)

/-- The member `read(ptr, count)`: the value returned, the bytes written to
`ptr` and the state afterwards. -/
def BufferedSource.read (fuel : Nat) (s : BufferedSource) (count : Nat) :
    Option (Nat × List Nat × BufferedSource) :=
  if count ≤ s.avail_ then some (count, (s.pop count).1, (s.pop count).2)
  else BufferedSource.read_loop fuel s count [] 0

/-! ## Concrete instances used by the examples -/

/-- Four partitions, all of them active; a packed seed `s` has partition
`s % 4` and offset `s / 4`; a window of one letter is its own seed. -/
def ex4 : Ext where
  seedp := 4
  contains := fun p => decide (p < 4)
  seed_partition := fun s => s % 4
  seed_partition_offset := fun s => s / 4
  length_ := 1
  set_seed := fun seq j => seq.get? j
  position := fun i j => 100 * i + j
  seqs := fun i => [[4, 2], [16], [16, 13, 3], [27, 15]].getD i []

/-- Four partitions of which only 1 and 2 are active. -/
def ex4mid : Ext := { ex4 with contains := fun p => decide (1 ≤ p ∧ p < 3) }

/-- The histogram of the example in section 8 of the specification. -/
def hstEx : shape_histogram := [[2, 0, 1, 0], [1, 1, 0, 3]]

/-- A buffer of five entries with the keys 5, 5, 2, 9, 2. -/
def dataEx : List entry := [⟨5, 10⟩, ⟨5, 11⟩, ⟨2, 12⟩, ⟨9, 13⟩, ⟨2, 14⟩]

/-- A buffer laid out by the table `[0,3,4,5,8]` of `hstEx`, each region sorted. -/
def dataEx8 : List entry :=
  [⟨1, 20⟩, ⟨4, 21⟩, ⟨4, 22⟩, ⟨7, 23⟩, ⟨0, 24⟩, ⟨3, 25⟩, ⟨3, 26⟩, ⟨6, 27⟩]

/-- The region A of the merge example, keys 1, 3, 3, 7. -/
def mergeA : List entry := [⟨1, 0⟩, ⟨3, 1⟩, ⟨3, 2⟩, ⟨7, 3⟩]

/-- The region B of the merge example, keys 2, 3, 7, 7. -/
def mergeB : List entry := [⟨2, 0⟩, ⟨3, 1⟩, ⟨7, 2⟩, ⟨7, 3⟩]

/-- The buffer `dataEx8` before the sort phase. -/
def dataEx8u : List entry :=
  [⟨4, 21⟩, ⟨1, 20⟩, ⟨4, 22⟩, ⟨7, 23⟩, ⟨0, 24⟩, ⟨6, 27⟩, ⟨3, 25⟩, ⟨3, 26⟩]

/-- The chunk boundaries of the build example: two chunks of two sequences. -/
def seqPartEx : List Nat := [0, 2, 4]

/-- One sequence of twenty letters 4, all of whose seeds fall into partition 0. -/
def exLong : Ext := { ex4 with seqs := fun i => if i = 0 then List.replicate 20 4 else [] }

/-- The buffer `dataEx` after sorting: keys 2, 2, 5, 5, 9. -/
def dataExSorted : List entry := [⟨2, 12⟩, ⟨2, 14⟩, ⟨5, 10⟩, ⟨5, 11⟩, ⟨9, 13⟩]

/-- A source with three buffered bytes and two more blocks to fetch. -/
def sourceEx : BufferedSource := { buf := [1, 2, 3], src := [[4, 5], [6, 7, 8, 9]] }

/-! # Theorems -/

/-! ## Facts about `Limits` and `build_iterators` -/

theorem partition_size_eq_sum (hst : shape_histogram) (p : Nat) :
    partition_size hst p = ∑ c in Finset.range hst.length, hst_at hst c p := by
  unfold partition_size
  induction hst using List.reverseRecOn with
  | nil => simp
  | append_singleton l a ih =>
    rw [List.map_append, List.sum_append, ih, List.length_append, List.length_singleton,
      Finset.sum_range_succ]
    congr 1
    · apply Finset.sum_congr rfl
      intro c hc
      have hc' : c < l.length := Finset.mem_range.mp hc
      simp [hst_at, List.getD_eq_getElem?_getD, List.getElem?_append_left hc']
    · simp [hst_at, List.getD_eq_getElem?_getD]

theorem Limits_fold_eq (X : Ext) (hst : shape_histogram) (n : Nat) :
    (List.range n).foldl (Limits.step X hst) [0]
      = (List.range (n + 1)).map (fun k => ∑ i in Finset.range k, Limits.width X hst i) := by
  induction n with
  | zero => simp [List.range_succ]
  | succ n ih =>
    rw [List.range_succ, List.foldl_append, ih, @List.range_succ (n + 1), List.map_append]
    simp only [List.foldl_cons, List.foldl_nil, Limits.step, List.map_cons, List.map_nil]
    congr 2
    rw [Finset.sum_range_succ]
    simp [List.getD_eq_getElem?_getD, Limits.width]

theorem Limits_eq (X : Ext) (hst : shape_histogram) :
    Limits X hst
      = (List.range (X.seedp + 1)).map (fun k => ∑ i in Finset.range k, Limits.width X hst i) :=
  Limits_fold_eq X hst X.seedp

theorem Limits_getD (X : Ext) (hst : shape_histogram) (k : Nat) (hk : k ≤ X.seedp) :
    (Limits X hst).getD k 0 = ∑ i in Finset.range k, Limits.width X hst i := by
  rw [Limits_eq]
  have : k < X.seedp + 1 := by omega
  simp [List.getD_eq_getElem?_getD, List.getElem?_range, this]

theorem Limits_mono (X : Ext) (hst : shape_histogram) (a b : Nat) (hab : a ≤ b)
    (hb : b ≤ X.seedp) : (Limits X hst).getD a 0 ≤ (Limits X hst).getD b 0 := by
  rw [Limits_getD X hst a (by omega), Limits_getD X hst b hb]
  exact Finset.sum_le_sum_of_subset (Finset.range_mono hab)

theorem Limits_length (X : Ext) (hst : shape_histogram) :
    (Limits X hst).length = X.seedp + 1 := by
  rw [Limits_eq]; simp

theorem Limits_succ (X : Ext) (hst : shape_histogram) (p : Nat) (hp : p < X.seedp) :
    ptr_end (Limits X hst) p = ptr_begin (Limits X hst) p + Limits.width X hst p := by
  unfold ptr_end ptr_begin
  rw [Limits_getD X hst (p + 1) (by omega), Limits_getD X hst p (by omega),
    Finset.sum_range_succ]

theorem build_iterators_fold_eq (X : Ext) (limits : List Nat) (hst : shape_histogram) (m : Nat) :
    (List.range' 1 m).foldl (build_iterators.step X hst)
        [(List.range X.seedp).map (fun i => ptr_begin limits i)]
      = (List.range (m + 1)).map (fun c => (List.range X.seedp).map
          (fun p => ptr_begin limits p + ∑ k in Finset.range c, hst_at hst k p)) := by
  induction m with
  | zero => simp [List.range_succ]
  | succ m ih =>
    rw [List.range'_1_concat, List.foldl_append, ih, @List.range_succ (m + 1), List.map_append]
    simp only [List.foldl_cons, List.foldl_nil, build_iterators.step, List.map_cons,
      List.map_nil]
    congr 2
    apply List.map_congr_left
    intro p hp
    have hp' : p < X.seedp := List.mem_range.mp hp
    rw [Finset.sum_range_succ]
    simp [List.getD_eq_getElem?_getD, List.getElem?_range, hp', Nat.add_assoc]

theorem build_iterators_eq (X : Ext) (limits : List Nat) (hst : shape_histogram)
    (h : 0 < hst.length) :
    build_iterators X limits hst
      = some ((List.range hst.length).map (fun c => (List.range X.seedp).map
          (fun p => ptr_begin limits p + ∑ k in Finset.range c, hst_at hst k p))) := by
  unfold build_iterators
  rw [if_neg (by omega), build_iterators_fold_eq]
  have : hst.length - 1 + 1 = hst.length := by omega
  rw [this]

theorem cursor_at_map (X : Ext) (f : Nat → Nat → Nat) (n c p : Nat) (hc : c < n)
    (hp : p < X.seedp) :
    cursor_at ((List.range n).map (fun c => (List.range X.seedp).map (fun p => f c p))) c p
      = f c p := by
  simp [cursor_at, List.getD_eq_getElem?_getD, List.getElem?_range, hc, hp]

/-! ## C5 - C8: the offsets table and the per-job cursors -/

/-- C5: `Limits(hst, range)` has `Const::seedp + 1` elements, starts with 0, and
the width `Limits[p+1] - Limits[p]` of partition `p` is the sum of `hst[c][p]`
over all chunks when the range contains `p` and 0 otherwise. -/
theorem C5_offsets_table (X : Ext) (hst : shape_histogram) :
    (Limits X hst).length = X.seedp + 1 ∧
    (Limits X hst).head? = some 0 ∧
    ∀ p, p < X.seedp →
      ptr_end (Limits X hst) p - ptr_begin (Limits X hst) p
          = (if X.contains p then ∑ c in Finset.range hst.length, hst_at hst c p else 0) ∧
      ptr_end (Limits X hst) p
          = ptr_begin (Limits X hst) p
            + (if X.contains p then ∑ c in Finset.range hst.length, hst_at hst c p else 0) := by
  refine ⟨Limits_length X hst, ?_, ?_⟩
  · rw [Limits_eq, List.range_succ_eq_map]; simp
  · intro p hp
    have h := Limits_succ X hst p hp
    have hw : Limits.width X hst p
        = (if X.contains p then ∑ c in Finset.range hst.length, hst_at hst c p else 0) := by
      unfold Limits.width
      rw [partition_size_eq_sum]
    rw [hw] at h
    exact ⟨by omega, h⟩

/-- C5, the example of the specification: four partitions, all active, and the
counts `[2,0,1,0]`, `[1,1,0,3]` give the table `[0,3,4,5,8]`. -/
theorem C5_offsets_table_witness :
    Limits ex4 hstEx = [0, 3, 4, 5, 8] ∧
    (Limits ex4 hstEx).length = ex4.seedp + 1 ∧
    ptr_end (Limits ex4 hstEx) 0 - ptr_begin (Limits ex4 hstEx) 0
      = (if ex4.contains 0 then ∑ c in Finset.range hstEx.length, hst_at hstEx c 0 else 0) :=
  ⟨by decide, (C5_offsets_table ex4 hstEx).1,
    ((C5_offsets_table ex4 hstEx).2.2 0 (by decide)).1⟩

/-- C6: the last element `Limits[Const::seedp]` is the sum of the widths of the
active partitions, and it equals the sum of `hst[c][p]` over all chunks `c` and
all partitions `p` contained in the range. -/
theorem C6_capacity_invariant (X : Ext) (hst : shape_histogram) :
    (Limits X hst).getLast? = some ((Limits X hst).getD X.seedp 0) ∧
    (∑ p in (Finset.range X.seedp).filter (fun p => X.contains p = true),
        (ptr_end (Limits X hst) p - ptr_begin (Limits X hst) p))
      = (Limits X hst).getD X.seedp 0 ∧
    (Limits X hst).getD X.seedp 0
      = ∑ p in (Finset.range X.seedp).filter (fun p => X.contains p = true),
          ∑ c in Finset.range hst.length, hst_at hst c p := by
  have hlast : (Limits X hst).getD X.seedp 0
      = ∑ p in (Finset.range X.seedp).filter (fun p => X.contains p = true),
          ∑ c in Finset.range hst.length, hst_at hst c p := by
    rw [Limits_getD X hst X.seedp (le_refl _), Finset.sum_filter]
    apply Finset.sum_congr rfl
    intro p _
    unfold Limits.width
    rw [partition_size_eq_sum]
  refine ⟨?_, ?_, hlast⟩
  · rw [List.getLast?_eq_getElem?, Limits_length]
    simp only [Nat.add_sub_cancel]
    have hlt : X.seedp < (Limits X hst).length := by rw [Limits_length]; omega
    rw [List.getD_eq_getElem?_getD, List.getElem?_eq_getElem hlt]
    rfl
  · rw [hlast]
    apply Finset.sum_congr rfl
    intro p hp
    rw [Finset.mem_filter, Finset.mem_range] at hp
    have h := Limits_succ X hst p hp.1
    unfold Limits.width at h
    rw [if_pos hp.2, partition_size_eq_sum] at h
    omega

/-- C6 on the example tables: with all four partitions active the capacity is
8, with only the partitions 1 and 2 active it is 2. -/
theorem C6_capacity_invariant_witness :
    (Limits ex4 hstEx).getD 4 0 = 8 ∧ (Limits ex4mid hstEx).getD 4 0 = 2 ∧
    (Limits ex4mid hstEx).getD ex4mid.seedp 0
      = ∑ p in (Finset.range ex4mid.seedp).filter (fun p => ex4mid.contains p = true),
          ∑ c in Finset.range hstEx.length, hst_at hstEx c p :=
  ⟨by decide, by decide, (C6_capacity_invariant ex4mid hstEx).2.2⟩

/-- C7: `Limits` is non-decreasing, so for partitions `p < q` the region of `p`
ends no later than the region of `q` begins, and for `p ≠ q` no buffer index
lies in both `[Limits[p], Limits[p+1])` and `[Limits[q], Limits[q+1])`. -/
theorem C7_partition_disjointness (X : Ext) (hst : shape_histogram) :
    (∀ a b, a ≤ b → b ≤ X.seedp → (Limits X hst).getD a 0 ≤ (Limits X hst).getD b 0) ∧
    (∀ p q, p < q → q < X.seedp →
      ptr_end (Limits X hst) p ≤ ptr_begin (Limits X hst) q) ∧
    (∀ p q, p < X.seedp → q < X.seedp → p ≠ q → ∀ a,
      ¬ ((ptr_begin (Limits X hst) p ≤ a ∧ a < ptr_end (Limits X hst) p) ∧
         (ptr_begin (Limits X hst) q ≤ a ∧ a < ptr_end (Limits X hst) q))) := by
  have hmono := Limits_mono X hst
  have hlt : ∀ p q, p < q → q < X.seedp →
      ptr_end (Limits X hst) p ≤ ptr_begin (Limits X hst) q := by
    intro p q hpq hq
    exact hmono (p + 1) q (by omega) (by omega)
  refine ⟨hmono, hlt, ?_⟩
  intro p q hp hq hne a h
  rcases Nat.lt_or_gt_of_ne hne with hpq | hqp
  · have := hlt p q hpq hq
    omega
  · have := hlt q p hqp hp
    omega

/-- C7 on the example table `[0,3,4,5,8]`: index 3 belongs to partition 1 only. -/
theorem C7_partition_disjointness_witness :
    ptr_end (Limits ex4 hstEx) 0 ≤ ptr_begin (Limits ex4 hstEx) 1 ∧
    ¬ ((ptr_begin (Limits ex4 hstEx) 0 ≤ 3 ∧ 3 < ptr_end (Limits ex4 hstEx) 0) ∧
       (ptr_begin (Limits ex4 hstEx) 1 ≤ 3 ∧ 3 < ptr_end (Limits ex4 hstEx) 1)) :=
  ⟨(C7_partition_disjointness ex4 hstEx).2.1 0 1 (by decide) (by decide),
    (C7_partition_disjointness ex4 hstEx).2.2 0 1 (by decide) (by decide) (by decide) 3⟩

/-- C8: for a histogram with at least one chunk, `build_iterators(hst)` has one
row of cursors per chunk, and the cursor of chunk `c` and partition `p` is
`Limits[p]` plus the sum of `hst[k][p]` over the chunks `k < c`. -/
theorem C8_per_job_cursors (X : Ext) (hst : shape_histogram) (h : 0 < hst.length) :
    ∃ its, build_iterators X (Limits X hst) hst = some its ∧ its.length = hst.length ∧
      ∀ c p, c < hst.length → p < X.seedp →
        cursor_at its c p
          = (Limits X hst).getD p 0 + ∑ k in Finset.range c, hst_at hst k p := by
  refine ⟨_, build_iterators_eq X (Limits X hst) hst h, by simp, ?_⟩
  intro c p hc hp
  exact cursor_at_map X
    (fun c p => ptr_begin (Limits X hst) p + ∑ k in Finset.range c, hst_at hst k p)
    hst.length c p hc hp

/-- C8 on the example histogram: the cursors of the two jobs. -/
theorem C8_per_job_cursors_witness :
    build_iterators ex4 (Limits ex4 hstEx) hstEx = some [[0, 3, 4, 5], [2, 3, 5, 5]] ∧
    ∃ its, build_iterators ex4 (Limits ex4 hstEx) hstEx = some its ∧
      its.length = hstEx.length ∧
      ∀ c p, c < hstEx.length → p < ex4.seedp →
        cursor_at its c p
          = (Limits ex4 hstEx).getD p 0 + ∑ k in Finset.range c, hst_at hstEx k p :=
  ⟨by decide, C8_per_job_cursors ex4 hstEx (by decide)⟩

/-! ## The bucket size computed by `count()` -/

theorem count_loop_acc (data : List entry) (i e fuel k n : Nat) :
    Iterator_base.count_loop data i e fuel k n
      = n + Iterator_base.count_loop data i e fuel k 0 := by
  induction fuel generalizing k n with
  | zero => simp [Iterator_base.count_loop]
  | succ fuel ih =>
    unfold Iterator_base.count_loop
    split
    · rw [ih (k + 1) (n + 1), ih (k + 1) (0 + 1)]; omega
    · rfl

/-- What the loop of `count()` returns when its budget covers `end - k`: the
length `m` of the longest run of entries from `k` on, inside the region, that
carry the key found at `i`. -/
theorem count_loop_spec (data : List entry) (i e fuel k : Nat) (hf : e - k ≤ fuel) :
    (∀ j, j < Iterator_base.count_loop data i e fuel k 0 →
        k + j < e ∧ key_at data (k + j) = key_at data i) ∧
    ¬ (k + Iterator_base.count_loop data i e fuel k 0 < e ∧
        key_at data (k + Iterator_base.count_loop data i e fuel k 0) = key_at data i) := by
  induction fuel generalizing k with
  | zero =>
    simp only [Iterator_base.count_loop]
    refine ⟨fun j hj => absurd hj (Nat.not_lt_zero j), ?_⟩
    intro h
    omega
  | succ fuel ih =>
    unfold Iterator_base.count_loop
    split
    · rename_i hk
      rw [count_loop_acc]
      obtain ⟨h1, h2⟩ := ih (k + 1) (by omega)
      constructor
      · intro j hj
        rcases Nat.eq_zero_or_pos j with hj0 | hjpos
        · subst hj0; exact hk
        · have := h1 (j - 1) (by omega)
          have e1 : k + 1 + (j - 1) = k + j := by omega
          rwa [e1] at this
      · have e2 : k + (0 + 1 + Iterator_base.count_loop data i e fuel (k + 1) 0)
            = k + 1 + Iterator_base.count_loop data i e fuel (k + 1) 0 := by omega
        rw [e2]
        exact h2
    · rename_i hk
      refine ⟨fun j hj => absurd hj (Nat.not_lt_zero j), ?_⟩
      simpa using hk

/-- The run described by `count()`: every position `i + j` with `j < count()`
is inside the region and carries the key at `i`, and the position right after
the run is the end of the region or carries another key. -/
theorem count_spec (data : List entry) (i e : Nat) :
    (∀ j, j < Iterator_base.count data i e →
        i + j < e ∧ key_at data (i + j) = key_at data i) ∧
    ¬ (i + Iterator_base.count data i e < e ∧
        key_at data (i + Iterator_base.count data i e) = key_at data i) :=
  count_loop_spec data i e (e - i) i (le_refl _)

theorem count_pos (data : List entry) (i e : Nat) (h : i < e) :
    0 < Iterator_base.count data i e := by
  by_contra h0
  have h0' : Iterator_base.count data i e = 0 := by omega
  have := (count_spec data i e).2
  rw [h0'] at this
  exact this ⟨by omega, rfl⟩

theorem count_le (data : List entry) (i e : Nat) :
    i + Iterator_base.count data i e ≤ max i e := by
  by_contra h
  have hpos : 0 < Iterator_base.count data i e := by omega
  have := ((count_spec data i e).1 (Iterator_base.count data i e - 1) (by omega)).1
  omega

theorem count_eq_zero (data : List entry) (i e : Nat) (h : e ≤ i) :
    Iterator_base.count data i e = 0 := by
  have := count_le data i e
  have hm : max i e = i := max_eq_left h
  omega

/-! ## Iterating a region bucket by bucket -/

theorem visit_spec (data : List entry) (fuel : Nat) (it : Iterator_base)
    (hn : it.n = Iterator_base.count data it.i it.end_) (hf : it.end_ - it.i < fuel) :
    ∃ bs, Iterator_base.visit data fuel it = some bs ∧ Bucketing data it.end_ it.i bs := by
  induction fuel generalizing it with
  | zero => omega
  | succ fuel ih =>
    unfold Iterator_base.visit
    by_cases hend : it.at_end = true
    · rw [if_pos hend]
      refine ⟨[], rfl, ?_⟩
      simpa [Iterator_base.at_end, Bucketing] using hend
    · rw [if_neg hend]
      have hlt : it.i < it.end_ := by
        simpa [Iterator_base.at_end] using hend
      have hpos := count_pos data it.i it.end_ hlt
      obtain ⟨bs, hbs, hB⟩ := ih (it.inc data) rfl (by
        simp only [Iterator_base.inc]; omega)
      refine ⟨it :: bs, by rw [hbs]; rfl, ?_⟩
      exact ⟨hlt, rfl, rfl, hn, hB⟩

theorem visit_fuel (data : List entry) (f1 f2 : Nat) (it : Iterator_base)
    (hn : it.n = Iterator_base.count data it.i it.end_)
    (h1 : it.end_ - it.i < f1) (h2 : it.end_ - it.i < f2) :
    Iterator_base.visit data f1 it = Iterator_base.visit data f2 it := by
  induction f1 generalizing f2 it with
  | zero => omega
  | succ f1 ih =>
    cases f2 with
    | zero => omega
    | succ f2 =>
      unfold Iterator_base.visit
      by_cases hend : it.at_end = true
      · rw [if_pos hend, if_pos hend]
      · rw [if_neg hend, if_neg hend]
        have hlt : it.i < it.end_ := by
          simpa [Iterator_base.at_end] using hend
        have hpos := count_pos data it.i it.end_ hlt
        rw [ih f2 (it.inc data) rfl (by simp only [Iterator_base.inc]; omega)
          (by simp only [Iterator_base.inc]; omega)]

theorem Bucketing_sum (data : List entry) (e b : Nat) (bs : List Iterator_base)
    (h : Bucketing data e b bs) : (bs.map (fun it => it.n)).sum = e - b := by
  induction bs generalizing b with
  | nil => simp only [Bucketing] at h; simp; omega
  | cons it rest ih =>
    obtain ⟨hlt, _, _, hn, hrest⟩ := h
    have hle := count_le data b e
    rw [max_eq_right (Nat.le_of_lt hlt)] at hle
    rw [List.map_cons, List.sum_cons, ih _ hrest]
    omega

theorem Bucketing_mem (data : List entry) (e b : Nat) (bs : List Iterator_base)
    (h : Bucketing data e b bs) (it : Iterator_base) (hit : it ∈ bs) :
    b ≤ it.i ∧ it.i < e ∧ it.end_ = e ∧ it.n = Iterator_base.count data it.i e ∧
      0 < it.n ∧ it.i + it.n ≤ e := by
  induction bs generalizing b with
  | nil => cases hit
  | cons hd rest ih =>
    obtain ⟨hlt, hi, he, hn, hrest⟩ := h
    rcases List.mem_cons.mp hit with heq | hmem
    · subst heq
      have hle := count_le data b e
      rw [max_eq_right (Nat.le_of_lt hlt)] at hle
      have hpos := count_pos data b e hlt
      rw [hi]
      exact ⟨le_refl _, hlt, he, hn, by omega, by omega⟩
    · obtain ⟨h1, h2⟩ := ih _ hrest hmem
      exact ⟨by omega, h2⟩

theorem Bucketing_chain_pos (data : List entry) (e b : Nat) (bs : List Iterator_base)
    (h : Bucketing data e b bs) :
    List.Chain' (fun x y : Iterator_base => y.i = x.i + x.n) bs := by
  induction bs generalizing b with
  | nil => exact List.chain'_nil
  | cons it rest ih =>
    obtain ⟨_, hi, _, _, hrest⟩ := h
    cases rest with
    | nil => exact List.chain'_singleton _
    | cons it2 rest2 =>
      refine List.chain'_cons.mpr ⟨?_, ih _ hrest⟩
      rw [hrest.2.1, hi]

theorem Bucketing_chain_key (data : List entry) (e b : Nat) (bs : List Iterator_base)
    (h : Bucketing data e b bs) :
    List.Chain' (fun x y : Iterator_base => x.key data ≠ y.key data) bs := by
  induction bs generalizing b with
  | nil => exact List.chain'_nil
  | cons it rest ih =>
    obtain ⟨_, hi, _, hn, hrest⟩ := h
    cases rest with
    | nil => exact List.chain'_singleton _
    | cons it2 rest2 =>
      refine List.chain'_cons.mpr ⟨?_, ih _ hrest⟩
      have h2 := hrest.1
      have hi2 := hrest.2.1
      have hspec := (count_spec data b e).2
      intro hk
      apply hspec
      rw [← hn]
      refine ⟨h2, ?_⟩
      simp only [Iterator_base.key, hi, hi2] at hk
      exact hk.symm

theorem Bucketing_last (data : List entry) (e b : Nat) (bs : List Iterator_base)
    (h : Bucketing data e b bs) (it : Iterator_base) (hit : bs.getLast? = some it) :
    it.i + it.n = e := by
  induction bs generalizing b with
  | nil => cases hit
  | cons hd rest ih =>
    obtain ⟨hlt, hi, _, hn, hrest⟩ := h
    cases rest with
    | nil =>
      simp only [List.getLast?_singleton, Option.some.injEq] at hit
      subst hit
      have hle := count_le data b e
      rw [max_eq_right (Nat.le_of_lt hlt)] at hle
      simp only [Bucketing] at hrest
      omega
    | cons it2 rest2 =>
      rw [List.getLast?_cons_cons] at hit
      exact ih _ hrest hit

theorem Bucketing_cover (data : List entry) (e b : Nat) (bs : List Iterator_base)
    (h : Bucketing data e b bs) (a : Nat) (hb : b ≤ a) (ha : a < e) :
    ∃! it, it ∈ bs ∧ it.i ≤ a ∧ a < it.i + it.n := by
  induction bs generalizing b with
  | nil => simp only [Bucketing] at h; omega
  | cons hd rest ih =>
    have hall := h
    obtain ⟨hlt, hi, he, hn, hrest⟩ := h
    by_cases hin : a < b + hd.n
    · refine ⟨hd, ⟨List.mem_cons_self _ _, by omega, by omega⟩, ?_⟩
      rintro y ⟨hy, hy1, hy2⟩
      rcases List.mem_cons.mp hy with heq | hmem
      · exact heq
      · have := (Bucketing_mem data e _ rest hrest y hmem).1
        omega
    · obtain ⟨y, ⟨hy, hy1, hy2⟩, huniq⟩ := ih _ hrest (by omega)
      refine ⟨y, ⟨List.mem_cons_of_mem _ hy, hy1, hy2⟩, ?_⟩
      rintro z ⟨hz, hz1, hz2⟩
      rcases List.mem_cons.mp hz with heq | hmem
      · subst heq; omega
      · exact huniq z ⟨hmem, hz1, hz2⟩

/-- C4: for every buffer and every region `[b, e)`, iterating from
`Iterator_base(b, e)` with `operator++` until `at_end()` terminates within
`e - b` steps.  The buckets visited are consecutive (the first starts at `b`,
each next one where the previous ended, the last ends at `e`), non-empty, their
sizes sum to `e - b`, every index of the region lies in exactly one bucket, all
entries of a bucket carry the key returned by `key()`, and adjacent buckets
have different keys. -/
theorem C4_grouped_iteration_coverage (data : List entry) (b e : Nat) :
    ∃ bs, (∀ fuel, e - b < fuel →
        Iterator_base.visit data fuel (Iterator_base.init data b e) = some bs) ∧
      (∀ it, bs.head? = some it → it.i = b) ∧
      List.Chain' (fun x y : Iterator_base => y.i = x.i + x.n) bs ∧
      (∀ it, bs.getLast? = some it → it.i + it.n = e) ∧
      (bs.map (fun it => it.n)).sum = e - b ∧
      (∀ it, it ∈ bs → 0 < it.n ∧ b ≤ it.i ∧ it.i + it.n ≤ e ∧
        ∀ k, k < it.n → key_at data (it.i + k) = it.key data) ∧
      (∀ a, b ≤ a → a < e → ∃! it, it ∈ bs ∧ it.i ≤ a ∧ a < it.i + it.n) ∧
      List.Chain' (fun x y : Iterator_base => x.key data ≠ y.key data) bs := by
  obtain ⟨bs, hbs, hB⟩ := visit_spec data (e - b + 1) (Iterator_base.init data b e) rfl
    (by simp only [Iterator_base.init]; omega)
  have hB' : Bucketing data e b bs := hB
  refine ⟨bs, ?_, ?_, Bucketing_chain_pos data e b bs hB', Bucketing_last data e b bs hB',
    Bucketing_sum data e b bs hB', ?_, Bucketing_cover data e b bs hB',
    Bucketing_chain_key data e b bs hB'⟩
  · intro fuel hf
    rw [← hbs]
    exact visit_fuel data fuel (e - b + 1) (Iterator_base.init data b e) rfl
      (by simp only [Iterator_base.init]; omega) (by simp only [Iterator_base.init]; omega)
  · intro it hit
    cases bs with
    | nil => cases hit
    | cons hd rest =>
      simp only [List.head?_cons, Option.some.injEq] at hit
      subst hit
      exact hB'.2.1
  · intro it hit
    obtain ⟨h1, _, he, hn, hpos, hle⟩ := Bucketing_mem data e b bs hB' it hit
    refine ⟨hpos, h1, hle, ?_⟩
    intro k hk
    rw [hn] at hk
    exact ((count_spec data it.i e).1 k hk).2

/-- C4 on the unsorted keys 5, 5, 2, 9, 2: four buckets of sizes 2, 1, 1, 1. -/
theorem C4_grouped_iteration_coverage_witness :
    Iterator_base.visit dataEx 6 (Iterator_base.init dataEx 0 5)
      = some [⟨0, 5, 2⟩, ⟨2, 5, 1⟩, ⟨3, 5, 1⟩, ⟨4, 5, 1⟩] ∧
    ∃ bs, (∀ fuel, 5 - 0 < fuel →
        Iterator_base.visit dataEx fuel (Iterator_base.init dataEx 0 5) = some bs) ∧
      (bs.map (fun it => it.n)).sum = 5 - 0 :=
  ⟨by decide,
    (C4_grouped_iteration_coverage dataEx 0 5).imp (fun _ h => ⟨h.1, h.2.2.2.2.1⟩)⟩

/-! ## C9, C10: offset recovery and empty partitions -/

theorem iterate_inc_inv (data : List entry) (b e m : Nat) :
    ((Iterator_base.inc data)^[m] (Iterator_base.init data b e)).end_ = e ∧
    ((Iterator_base.inc data)^[m] (Iterator_base.init data b e)).n
      = Iterator_base.count data ((Iterator_base.inc data)^[m] (Iterator_base.init data b e)).i e ∧
    b ≤ ((Iterator_base.inc data)^[m] (Iterator_base.init data b e)).i := by
  induction m with
  | zero => exact ⟨rfl, rfl, le_refl _⟩
  | succ m ih =>
    rw [Function.iterate_succ_apply']
    obtain ⟨h1, _, h3⟩ := ih
    refine ⟨?_, ?_, ?_⟩
    · simp only [Iterator_base.inc, h1]
    · simp only [Iterator_base.inc, h1]
    · simp only [Iterator_base.inc]; omega

theorem iterate_ra_inc (r : Random_access_iterator) (k : Nat) :
    (Random_access_iterator.inc^[k] r) = { r with i := r.i + k } := by
  induction k with
  | zero => rfl
  | succ k ih =>
    rw [Function.iterate_succ_apply', ih]
    simp only [Random_access_iterator.inc, Nat.add_assoc]

/-- C9: let `g` be reached from `get_partition_cbegin(p)` by `m` steps of
`operator++` and not be at its end.  Then `r = random_access(p,
iterator_offset(g, p))` remembers the key of `g`; after `k < g.n` steps `r` is
`good()` and `*r` is `g[k]`; after `g.n` steps `good()` is false; and `g.n` is
at least 1. -/
theorem C9_offset_recovery (data : List entry) (limits : List Nat) (p m : Nat)
    (hend : ((Iterator_base.inc data)^[m] (get_partition_cbegin data limits p)).at_end = false) :
    (random_access data limits p
        (iterator_offset limits
          ((Iterator_base.inc data)^[m] (get_partition_cbegin data limits p)) p)).key
      = ((Iterator_base.inc data)^[m] (get_partition_cbegin data limits p)).key data ∧
    (∀ k, k < ((Iterator_base.inc data)^[m] (get_partition_cbegin data limits p)).n →
      (Random_access_iterator.inc^[k] (random_access data limits p
        (iterator_offset limits
          ((Iterator_base.inc data)^[m] (get_partition_cbegin data limits p)) p))).good data
        = true ∧
      (Random_access_iterator.inc^[k] (random_access data limits p
        (iterator_offset limits
          ((Iterator_base.inc data)^[m] (get_partition_cbegin data limits p)) p))).deref data
        = ((Iterator_base.inc data)^[m]
            (get_partition_cbegin data limits p)).subscript data k) ∧
    (Random_access_iterator.inc^[((Iterator_base.inc data)^[m]
        (get_partition_cbegin data limits p)).n] (random_access data limits p
        (iterator_offset limits
          ((Iterator_base.inc data)^[m] (get_partition_cbegin data limits p)) p))).good data
      = false ∧
    0 < ((Iterator_base.inc data)^[m] (get_partition_cbegin data limits p)).n := by
  unfold get_partition_cbegin at *
  obtain ⟨he, hn, hb⟩ := iterate_inc_inv data (ptr_begin limits p) (ptr_end limits p) m
  generalize (Iterator_base.inc data)^[m]
    (Iterator_base.init data (ptr_begin limits p) (ptr_end limits p)) = g at *
  have hoff : ptr_begin limits p + iterator_offset limits g p = g.i := by
    unfold iterator_offset; omega
  have hspec := count_spec data g.i (ptr_end limits p)
  rw [← hn] at hspec
  simp only [random_access, hoff, iterate_ra_inc]
  refine ⟨rfl, ?_, ?_, ?_⟩
  · intro k hk
    obtain ⟨h1, h2⟩ := hspec.1 k hk
    refine ⟨?_, rfl⟩
    simp [Random_access_iterator.good, Random_access_iterator.init, h1, h2]
  · have := hspec.2
    simpa [Random_access_iterator.good, Random_access_iterator.init] using this
  · rw [hn]
    apply count_pos
    simpa [Iterator_base.at_end, he] using hend

/-- C9 on the buffer `dataEx8` with the table `[0,3,4,5,8]`: the second bucket
of partition 0 (key 4, two entries) is recovered from offset 1. -/
theorem C9_offset_recovery_witness :
    ((Iterator_base.inc dataEx8)^[1]
      (get_partition_cbegin dataEx8 (Limits ex4 hstEx) 0)).at_end = false ∧
    iterator_offset (Limits ex4 hstEx)
      ((Iterator_base.inc dataEx8)^[1] (get_partition_cbegin dataEx8 (Limits ex4 hstEx) 0)) 0
      = 1 ∧
    (random_access dataEx8 (Limits ex4 hstEx) 0
        (iterator_offset (Limits ex4 hstEx)
          ((Iterator_base.inc dataEx8)^[1]
            (get_partition_cbegin dataEx8 (Limits ex4 hstEx) 0)) 0)).key
      = ((Iterator_base.inc dataEx8)^[1]
          (get_partition_cbegin dataEx8 (Limits ex4 hstEx) 0)).key dataEx8 :=
  ⟨by decide, by decide, (C9_offset_recovery dataEx8 (Limits ex4 hstEx) 0 1 (by decide)).1⟩

theorem count_reads_loop_nil (data : List entry) (i e fuel k : Nat) (h : e ≤ k) :
    Iterator_base.count_reads_loop data i e fuel k = [] := by
  cases fuel with
  | zero => rfl
  | succ fuel =>
    unfold Iterator_base.count_reads_loop
    rw [if_neg (by omega)]

/-- C10: when the region of partition `p` has width zero, which is the case
for every partition outside the active range, `get_partition_cbegin(p)` and
`get_partition_begin(p)` return an iterator with `at_end()` true and bucket
size 0, and constructing it dereferences no buffer index. -/
theorem C10_empty_partition (X : Ext) (hst : shape_histogram) (data : List entry) (p : Nat)
    (hp : p < X.seedp)
    (hw : ptr_begin (Limits X hst) p = ptr_end (Limits X hst) p ∨ X.contains p = false) :
    ptr_begin (Limits X hst) p = ptr_end (Limits X hst) p ∧
    (get_partition_cbegin data (Limits X hst) p).at_end = true ∧
    (get_partition_cbegin data (Limits X hst) p).n = 0 ∧
    (get_partition_begin data (Limits X hst) p).at_end = true ∧
    (get_partition_begin data (Limits X hst) p).n = 0 ∧
    get_partition_begin_reads data (Limits X hst) p = [] := by
  have hz : ptr_begin (Limits X hst) p = ptr_end (Limits X hst) p := by
    rcases hw with h | h
    · exact h
    · have := Limits_succ X hst p hp
      simp only [Limits.width, h] at this
      simpa using this.symm
  have hc := count_eq_zero data (ptr_begin (Limits X hst) p) (ptr_end (Limits X hst) p)
    (Nat.le_of_eq hz.symm)
  refine ⟨hz, ?_, hc, ?_, hc, ?_⟩
  · simp [get_partition_cbegin, Iterator_base.init, Iterator_base.at_end, hz]
  · simp [get_partition_begin, Iterator_base.init, Iterator_base.at_end, hz]
  · exact count_reads_loop_nil data _ _ _ _ (Nat.le_of_eq hz.symm)

/-- C10 on the example histogram with only the partitions 1 and 2 active:
partition 0 is outside the range, its iterator is at the end at once. -/
theorem C10_empty_partition_witness :
    get_partition_cbegin dataEx8 (Limits ex4mid hstEx) 0 = ⟨0, 0, 0⟩ ∧
    (get_partition_cbegin dataEx8 (Limits ex4mid hstEx) 0).at_end = true ∧
    get_partition_begin_reads dataEx8 (Limits ex4mid hstEx) 0 = [] :=
  ⟨by decide,
    (C10_empty_partition ex4mid hstEx dataEx8 0 (by decide) (Or.inr (by decide))).2.1,
    (C10_empty_partition ex4mid hstEx dataEx8 0 (by decide) (Or.inr (by decide))).2.2.2.2.2⟩

/-! ## C3: merging two sorted regions -/

theorem region_sorted_mono (data : List entry) (b b2 e : Nat) (h : region_sorted data b e)
    (hb : b ≤ b2) : region_sorted data b2 e :=
  fun x y hx hxy hy => h x y (by omega) hxy hy

/-- In a sorted region every entry after the bucket at `i` has a larger key. -/
theorem skip_lt (data : List entry) (i e : Nat) (hs : region_sorted data i e) (x : Nat)
    (hx : i + Iterator_base.count data i e ≤ x) (hxe : x < e) :
    key_at data i < key_at data x := by
  have hspec := (count_spec data i e).2
  have h1 : key_at data i ≤ key_at data (i + Iterator_base.count data i e) :=
    hs i _ (le_refl _) (by omega) (by omega)
  have h2 : key_at data (i + Iterator_base.count data i e) ≤ key_at data x :=
    hs _ x (by omega) hx hxe
  have h3 : key_at data (i + Iterator_base.count data i e) ≠ key_at data i := by
    intro heq
    exact hspec ⟨by omega, heq⟩
  omega

theorem has_key_skip (A B : List entry) (i eA j eB k : Nat) (hj : region_sorted B j eB)
    (hlt : key_at A i < key_at B j) (n : Nat)
    (hn : ∀ t, t < n → key_at A (i + t) = key_at A i) :
    (has_key A i eA k ∧ has_key B j eB k) ↔ (has_key A (i + n) eA k ∧ has_key B j eB k) := by
  constructor
  · rintro ⟨⟨x, hx1, hx2, hx3⟩, ⟨y, hy1, hy2, hy3⟩⟩
    refine ⟨⟨x, ?_, hx2, hx3⟩, ⟨y, hy1, hy2, hy3⟩⟩
    by_contra hcon
    have hxk := hn (x - i) (by omega)
    have e1 : i + (x - i) = x := by omega
    rw [e1] at hxk
    have := hj j y (le_refl _) hy1 hy2
    omega
  · rintro ⟨⟨x, hx1, hx2, hx3⟩, hB⟩
    exact ⟨⟨x, by omega, hx2, hx3⟩, hB⟩

theorem next_spec (A B : List entry) (eA eB : Nat) (fuel : Nat) (m : Merge_iterator)
    (hiE : m.i.end_ = eA) (hjE : m.j.end_ = eB)
    (hiN : m.i.n = Iterator_base.count A m.i.i eA)
    (hjN : m.j.n = Iterator_base.count B m.j.i eB)
    (hsA : region_sorted A m.i.i eA) (hsB : region_sorted B m.j.i eB)
    (hf : (eA - m.i.i) + (eB - m.j.i) < fuel) :
    ∃ b m1, Merge_iterator.next A B fuel m = some (b, m1) ∧
      m1.i.end_ = eA ∧ m1.j.end_ = eB ∧
      m1.i.n = Iterator_base.count A m1.i.i eA ∧ m1.j.n = Iterator_base.count B m1.j.i eB ∧
      m.i.i ≤ m1.i.i ∧ m.j.i ≤ m1.j.i ∧
      (∀ k, (has_key A m.i.i eA k ∧ has_key B m.j.i eB k)
          ↔ (has_key A m1.i.i eA k ∧ has_key B m1.j.i eB k)) ∧
      (b = true → m1.i.i < eA ∧ m1.j.i < eB ∧ key_at A m1.i.i = key_at B m1.j.i) ∧
      (b = false → eA ≤ m1.i.i ∨ eB ≤ m1.j.i) := by
  induction fuel generalizing m with
  | zero => omega
  | succ fuel ih =>
    unfold Merge_iterator.next
    by_cases hends : m.i.at_end = false ∧ m.j.at_end = false
    · rw [if_pos hends]
      have hi : m.i.i < eA := by
        have := hends.1; simp [Iterator_base.at_end, hiE] at this; exact this
      have hj : m.j.i < eB := by
        have := hends.2; simp [Iterator_base.at_end, hjE] at this; exact this
      have hposA := count_pos A m.i.i eA hi
      have hposB := count_pos B m.j.i eB hj
      by_cases h1 : m.i.key A < m.j.key B
      · rw [if_pos h1]
        obtain ⟨b, m1, hnext, g1, g2, g3, g4, g5, g6, g7, g8, g9⟩ :=
          ih { m with i := m.i.inc A } (by simp [Iterator_base.inc, hiE]) hjE
            (by simp [Iterator_base.inc, hiE]) hjN
            (region_sorted_mono A _ _ _ hsA (by simp [Iterator_base.inc]))
            hsB (by simp only [Iterator_base.inc]; omega)
        refine ⟨b, m1, hnext, g1, g2, g3, g4, ?_, g6, ?_, g8, g9⟩
        · simp only [Iterator_base.inc] at g5; omega
        · intro k
          rw [← g7 k]
          simp only [Iterator_base.inc]
          apply has_key_skip A B m.i.i eA m.j.i eB k hsB h1
          intro t ht
          rw [hiN] at ht
          exact ((count_spec A m.i.i eA).1 t ht).2
      · rw [if_neg h1]
        by_cases h2 : m.j.key B < m.i.key A
        · rw [if_pos h2]
          obtain ⟨b, m1, hnext, g1, g2, g3, g4, g5, g6, g7, g8, g9⟩ :=
            ih { m with j := m.j.inc B } hiE (by simp [Iterator_base.inc, hjE]) hiN
              (by simp [Iterator_base.inc, hjE]) hsA
              (region_sorted_mono B _ _ _ hsB (by simp [Iterator_base.inc]))
              (by simp only [Iterator_base.inc]; omega)
          refine ⟨b, m1, hnext, g1, g2, g3, g4, g5, ?_, ?_, g8, g9⟩
          · simp only [Iterator_base.inc] at g6; omega
          · intro k
            rw [← g7 k]
            simp only [Iterator_base.inc]
            rw [and_comm, @and_comm (has_key A m.i.i eA k)]
            apply has_key_skip B A m.j.i eB m.i.i eA k hsA h2
            intro t ht
            rw [hjN] at ht
            exact ((count_spec B m.j.i eB).1 t ht).2
        · rw [if_neg h2]
          refine ⟨true, m, rfl, hiE, hjE, hiN, hjN, le_refl _, le_refl _, fun k => Iff.rfl,
            ?_, ?_⟩
          · intro _
            simp only [Iterator_base.key] at h1 h2
            exact ⟨hi, hj, by omega⟩
          · intro h; cases h
    · rw [if_neg hends]
      refine ⟨false, m, rfl, hiE, hjE, hiN, hjN, le_refl _, le_refl _, fun k => Iff.rfl,
        ?_, ?_⟩
      · intro h; cases h
      · intro _
        by_contra hcon
        apply hends
        simp [Iterator_base.at_end, hiE, hjE]
        omega

theorem report_spec (A B : List entry) (eA eB : Nat) (fuel : Nat) (m : Merge_iterator)
    (hiE : m.i.end_ = eA) (hjE : m.j.end_ = eB)
    (hiN : m.i.n = Iterator_base.count A m.i.i eA)
    (hjN : m.j.n = Iterator_base.count B m.j.i eB)
    (hsA : region_sorted A m.i.i eA) (hsB : region_sorted B m.j.i eB)
    (hf : (eA - m.i.i) + (eB - m.j.i) < fuel) :
    ∃ ks, Merge_iterator.report A B fuel m = some ks ∧ ks.Sorted (fun a b => a < b) ∧
      ∀ k, k ∈ ks ↔ (has_key A m.i.i eA k ∧ has_key B m.j.i eB k) := by
  induction fuel generalizing m with
  | zero => omega
  | succ fuel ih =>
    obtain ⟨b, m1, hnext, g1, g2, g3, g4, g5, g6, g7, g8, g9⟩ :=
      next_spec A B eA eB (fuel + 1) m hiE hjE hiN hjN hsA hsB hf
    unfold Merge_iterator.report
    rw [hnext]
    cases b with
    | false =>
      refine ⟨[], rfl, List.sorted_nil, ?_⟩
      intro k
      rw [g7 k]
      constructor
      · intro h; cases h
      · rintro ⟨⟨x, hx1, hx2, _⟩, ⟨y, hy1, hy2, _⟩⟩
        rcases g9 rfl with h | h <;> omega
    | true =>
      obtain ⟨hi, hj, hkeq⟩ := g8 rfl
      have hposA := count_pos A m1.i.i eA hi
      have hposB := count_pos B m1.j.i eB hj
      have hsA1 := region_sorted_mono A _ _ _ hsA g5
      have hsB1 := region_sorted_mono B _ _ _ hsB g6
      obtain ⟨ks, hks, hsorted, hmem⟩ := ih (m1.inc A B)
        (by simp [Merge_iterator.inc, Iterator_base.inc, g1])
        (by simp [Merge_iterator.inc, Iterator_base.inc, g2])
        (by simp [Merge_iterator.inc, Iterator_base.inc, g1])
        (by simp [Merge_iterator.inc, Iterator_base.inc, g2])
        (region_sorted_mono A _ _ _ hsA1 (by simp [Merge_iterator.inc, Iterator_base.inc]))
        (region_sorted_mono B _ _ _ hsB1 (by simp [Merge_iterator.inc, Iterator_base.inc]))
        (by simp only [Merge_iterator.inc, Iterator_base.inc]; omega)
      simp only [Merge_iterator.inc, Iterator_base.inc] at hmem
      rw [g3] at hmem
      rw [g4] at hmem
      refine ⟨m1.i.key A :: ks, by simp only [hks]; rfl, ?_, ?_⟩
      · refine List.sorted_cons.mpr ⟨?_, hsorted⟩
        intro k hk
        obtain ⟨⟨x, hx1, hx2, hx3⟩, _⟩ := (hmem k).mp hk
        rw [← hx3]
        exact skip_lt A m1.i.i eA hsA1 x hx1 hx2
      · intro k
        rw [g7 k, List.mem_cons, hmem k]
        constructor
        · rintro (h | ⟨⟨x, hx1, hx2, hx3⟩, ⟨y, hy1, hy2, hy3⟩⟩)
          · subst h
            exact ⟨⟨m1.i.i, le_refl _, hi, rfl⟩, ⟨m1.j.i, le_refl _, hj, hkeq.symm⟩⟩
          · exact ⟨⟨x, by omega, hx2, hx3⟩, ⟨y, by omega, hy2, hy3⟩⟩
        · rintro ⟨⟨x, hx1, hx2, hx3⟩, ⟨y, hy1, hy2, hy3⟩⟩
          by_cases hxin : x < m1.i.i + Iterator_base.count A m1.i.i eA
          · left
            have := ((count_spec A m1.i.i eA).1 (x - m1.i.i) (by omega)).2
            have e1 : m1.i.i + (x - m1.i.i) = x := by omega
            rw [e1] at this
            simp only [Iterator_base.key]
            omega
          · by_cases hyin : y < m1.j.i + Iterator_base.count B m1.j.i eB
            · left
              have := ((count_spec B m1.j.i eB).1 (y - m1.j.i) (by omega)).2
              have e1 : m1.j.i + (y - m1.j.i) = y := by omega
              rw [e1] at this
              simp only [Iterator_base.key]
              omega
            · right
              exact ⟨⟨x, by omega, hx2, hx3⟩, ⟨y, by omega, hy2, hy3⟩⟩

/-- C3: let the keys of region `[bA, eA)` of buffer `A` and of region
`[bB, eB)` of buffer `B` be non-decreasing.  Driving the `Merge_iterator`
built from the grouped iterators over the two regions with the protocol "while
`next()` returns true: report `i.key()`, then `operator++`" terminates (any
step budget above the two region sizes together suffices) and reports a
strictly ascending list of keys, hence each key once, whose members are
exactly the keys that occur both in A and in B. -/
theorem C3_merge_correctness (A B : List entry) (bA eA bB eB : Nat)
    (hA : region_sorted A bA eA) (hB : region_sorted B bB eB) (fuel : Nat)
    (hf : (eA - bA) + (eB - bB) < fuel) :
    ∃ ks, Merge_iterator.report A B fuel
        ⟨Iterator_base.init A bA eA, Iterator_base.init B bB eB⟩ = some ks ∧
      ks.Sorted (fun a b => a < b) ∧ ks.Nodup ∧
      ∀ k, k ∈ ks ↔ (has_key A bA eA k ∧ has_key B bB eB k) := by
  obtain ⟨ks, h1, h2, h3⟩ := report_spec A B eA eB fuel
    ⟨Iterator_base.init A bA eA, Iterator_base.init B bB eB⟩ rfl rfl rfl rfl hA hB hf
  exact ⟨ks, h1, h2, h2.imp (fun h => Nat.ne_of_lt h), h3⟩

/-- C3, the example of the specification: A keys 1, 3, 3, 7 and B keys
2, 3, 7, 7 report 3 and then 7 and nothing else. -/
theorem C3_merge_correctness_witness :
    Merge_iterator.report mergeA mergeB 9
      ⟨Iterator_base.init mergeA 0 4, Iterator_base.init mergeB 0 4⟩ = some [3, 7] ∧
    region_sorted mergeA 0 4 ∧ region_sorted mergeB 0 4 ∧
    ∃ ks, Merge_iterator.report mergeA mergeB 9
        ⟨Iterator_base.init mergeA 0 4, Iterator_base.init mergeB 0 4⟩ = some ks ∧
      ks.Sorted (fun a b => a < b) ∧ ks.Nodup ∧
      ∀ k, k ∈ ks ↔ (has_key mergeA 0 4 k ∧ has_key mergeB 0 4 k) := by
  have hA : region_sorted mergeA 0 4 := by
    intro x y _ hxy hy
    interval_cases y <;> interval_cases x <;> decide
  have hB : region_sorted mergeB 0 4 := by
    intro x y _ hxy hy
    interval_cases y <;> interval_cases x <;> decide
  exact ⟨by decide, hA, hB, C3_merge_correctness mergeA mergeB 0 4 0 4 hA hB 9 (by decide)⟩

/-! ## Stores into the buffer -/

theorem region_length (data : List entry) (b e : Nat) (he : e ≤ data.length) :
    (region data b e).length = e - b := by
  simp only [region, List.length_drop, List.length_take]
  omega

theorem region_append (data : List entry) (a b c : Nat) (hab : a ≤ b) (hbc : b ≤ c) :
    region data a c = region data a b ++ region data b c := by
  unfold region
  have h1 : data.take b = (data.take c).take b := by
    rw [List.take_take, min_eq_left hbc]
  rw [h1]
  generalize data.take c = l
  have h2 : l.drop b = (l.drop a).drop (b - a) := by
    rw [List.drop_drop]; congr 1; omega
  have h3 : (l.take b).drop a = (l.drop a).take (b - a) := List.drop_take b a l
  rw [h2, h3, List.take_append_drop]

theorem splice_length (data mid : List entry) (b : Nat) (h : b + mid.length ≤ data.length) :
    (data.take b ++ mid ++ data.drop (b + mid.length)).length = data.length := by
  simp only [List.length_append, List.length_take, List.length_drop]
  omega

theorem splice_region_self (data mid : List entry) (b : Nat)
    (h : b + mid.length ≤ data.length) :
    region (data.take b ++ mid ++ data.drop (b + mid.length)) b (b + mid.length) = mid := by
  unfold region
  have h1 : (data.take b ++ mid).length = b + mid.length := by
    simp only [List.length_append, List.length_take]; omega
  rw [List.take_left' h1]
  have h2 : (data.take b).length = b := by simp only [List.length_take]; omega
  rw [List.drop_left' h2]

theorem splice_region_below (data mid : List entry) (b b2 e2 : Nat)
    (h : b + mid.length ≤ data.length) (h2 : e2 ≤ b) :
    region (data.take b ++ mid ++ data.drop (b + mid.length)) b2 e2 = region data b2 e2 := by
  unfold region
  have hl : e2 ≤ (data.take b).length := by simp only [List.length_take]; omega
  rw [List.append_assoc, List.take_append_of_le_length hl, List.take_take, min_eq_left h2]

theorem splice_region_above (data mid : List entry) (b b2 e2 : Nat)
    (h : b + mid.length ≤ data.length) (h2 : b + mid.length ≤ b2) :
    region (data.take b ++ mid ++ data.drop (b + mid.length)) b2 e2 = region data b2 e2 := by
  unfold region
  rw [List.drop_take, List.drop_take]
  congr 1
  have h1 : (data.take b ++ mid).length = b + mid.length := by
    simp only [List.length_append, List.length_take]; omega
  rw [List.drop_append_eq_append_drop, h1, List.drop_eq_nil_of_le (by omega), List.nil_append,
    List.drop_drop]
  congr 1
  omega

/-- The key read at index `x` of a region is the key of the entry of the region list. -/
theorem key_at_region (data : List entry) (b e x : Nat) (hb : b ≤ x) (hx : x < e) :
    key_at data x = ((region data b e).getD (x - b) default).key := by
  unfold key_at region
  congr 1
  simp only [List.getD_eq_getElem?_getD, List.getElem?_drop, List.getElem?_take]
  have e1 : b + (x - b) = x := by omega
  rw [e1, if_pos hx]

/-! ## C2: the sort phase -/

theorem std_sort_sorted (l : List entry) : (std_sort l).Sorted entry.le :=
  List.sorted_insertionSort entry.le l

theorem std_sort_perm (l : List entry) : (std_sort l).Perm l :=
  List.perm_insertionSort entry.le l

/-- A region whose entry list is ordered has non-decreasing keys. -/
theorem region_sorted_of_sorted (data : List entry) (b e : Nat) (he : e ≤ data.length)
    (h : (region data b e).Sorted entry.le) : region_sorted data b e := by
  intro x y hbx hxy hye
  rw [key_at_region data b e x hbx (by omega), key_at_region data b e y (by omega) hye]
  have hlen := region_length data b e he
  rcases Nat.eq_or_lt_of_le hxy with heq | hlt
  · subst heq; exact le_refl _
  · have hx' : x - b < (region data b e).length := by omega
    have hy' : y - b < (region data b e).length := by omega
    have hrel := (List.pairwise_iff_getElem.mp h) (x - b) (y - b) hx' hy' (by omega)
    rw [List.getD_eq_getElem?_getD, List.getD_eq_getElem?_getD,
      List.getElem?_eq_getElem hx', List.getElem?_eq_getElem hy']
    simp only [Option.getD_some]
    simp only [entry.le, entry.lt, decide_eq_false_iff_not] at hrel
    omega

theorem sort_call_spec (limits : List Nat) (data : List entry) (p : Nat)
    (hb : ptr_begin limits p ≤ ptr_end limits p) (he : ptr_end limits p ≤ data.length) :
    ∃ data1, Sort_context.call limits data p = some data1 ∧ data1.length = data.length ∧
      region data1 (ptr_begin limits p) (ptr_end limits p)
        = std_sort (region data (ptr_begin limits p) (ptr_end limits p)) ∧
      ∀ b2 e2, (e2 ≤ ptr_begin limits p ∨ ptr_end limits p ≤ b2) →
        region data1 b2 e2 = region data b2 e2 := by
  have hlen : (std_sort (region data (ptr_begin limits p) (ptr_end limits p))).length
      = ptr_end limits p - ptr_begin limits p := by
    rw [(std_sort_perm _).length_eq, region_length data _ _ he]
  have hsum : ptr_begin limits p
      + (std_sort (region data (ptr_begin limits p) (ptr_end limits p))).length
      = ptr_end limits p := by omega
  refine ⟨_, by unfold Sort_context.call; rw [if_pos ⟨hb, he⟩], ?_, ?_, ?_⟩
  · have := splice_length data (std_sort (region data (ptr_begin limits p) (ptr_end limits p)))
      (ptr_begin limits p) (by omega)
    rwa [hsum] at this
  · have := splice_region_self data
      (std_sort (region data (ptr_begin limits p) (ptr_end limits p)))
      (ptr_begin limits p) (by omega)
    rwa [hsum] at this
  · intro b2 e2 h
    rcases h with h | h
    · have := splice_region_below data
        (std_sort (region data (ptr_begin limits p) (ptr_end limits p)))
        (ptr_begin limits p) b2 e2 (by omega) h
      rwa [hsum] at this
    · have := splice_region_above data
        (std_sort (region data (ptr_begin limits p) (ptr_end limits p)))
        (ptr_begin limits p) b2 e2 (by omega) (by omega)
      rwa [hsum] at this

theorem sort_phase_spec (limits : List Nat) (seedp : Nat)
    (hmono : ∀ a b, a ≤ b → b ≤ seedp → limits.getD a 0 ≤ limits.getD b 0)
    (order : List Nat) (horder : ∀ q, q ∈ order → q < seedp) (data : List entry)
    (hcap : limits.getD seedp 0 ≤ data.length) :
    ∃ data1, sort_phase limits order data = some data1 ∧ data1.length = data.length ∧
      ∀ p, p < seedp →
        (region data1 (ptr_begin limits p) (ptr_end limits p)).Perm
          (region data (ptr_begin limits p) (ptr_end limits p)) ∧
        ((region data (ptr_begin limits p) (ptr_end limits p)).Sorted entry.le ∨ p ∈ order →
          (region data1 (ptr_begin limits p) (ptr_end limits p)).Sorted entry.le) := by
  induction order generalizing data with
  | nil =>
    refine ⟨data, rfl, rfl, fun p _ => ⟨List.Perm.refl _, ?_⟩⟩
    rintro (h | h)
    · exact h
    · cases h
  | cons q rest ih =>
    have hq : q < seedp := horder q (List.mem_cons_self _ _)
    have hbq : ptr_begin limits q ≤ ptr_end limits q := hmono q (q + 1) (by omega) (by omega)
    have heq : ptr_end limits q ≤ data.length :=
      le_trans (hmono (q + 1) seedp (by omega) (le_refl _)) hcap
    obtain ⟨d1, hcall, hlen1, hself, hframe⟩ := sort_call_spec limits data q hbq heq
    obtain ⟨d2, hphase, hlen2, hrest⟩ :=
      ih (fun x hx => horder x (List.mem_cons_of_mem _ hx)) d1 (by omega)
    refine ⟨d2, by simp only [sort_phase, hcall, Option.some_bind, hphase], by omega, ?_⟩
    intro p hp
    obtain ⟨hperm, hsorted⟩ := hrest p hp
    by_cases hpq : p = q
    · subst hpq
      refine ⟨hperm.trans (by rw [hself]; exact std_sort_perm _), fun _ => hsorted (Or.inl ?_)⟩
      rw [hself]
      exact std_sort_sorted _
    · have hdisj : ptr_end limits p ≤ ptr_begin limits q ∨
          ptr_end limits q ≤ ptr_begin limits p := by
        rcases Nat.lt_or_gt_of_ne hpq with h | h
        · exact Or.inl (hmono (p + 1) q (by omega) (by omega))
        · exact Or.inr (hmono (q + 1) p (by omega) (by omega))
      have hsame := hframe (ptr_begin limits p) (ptr_end limits p) hdisj
      rw [hsame] at hperm hsorted
      refine ⟨hperm, ?_⟩
      rintro (h | h)
      · exact hsorted (Or.inl h)
      · rcases List.mem_cons.mp h with h | h
        · exact absurd h hpq
        · exact hsorted (Or.inr h)

/-- C2: let the buffer hold at least `Limits[Const::seedp]` entries.  Running
the job of `Sort_context` once for every partition id `0 .. Const::seedp - 1`,
in any order, succeeds, and afterwards for every partition `p` the keys of the
region `[Limits[p], Limits[p+1])` are non-decreasing from first to last and the
region is a permutation of the entries it held before the sort. -/
theorem C2_sortedness (X : Ext) (hst : shape_histogram) (data : List entry) (order : List Nat)
    (hcap : (Limits X hst).getD X.seedp 0 ≤ data.length)
    (horder : order.Perm (List.range X.seedp)) :
    ∃ data1, sort_phase (Limits X hst) order data = some data1 ∧
      data1.length = data.length ∧
      ∀ p, p < X.seedp →
        region_sorted data1 (ptr_begin (Limits X hst) p) (ptr_end (Limits X hst) p) ∧
        (region data1 (ptr_begin (Limits X hst) p) (ptr_end (Limits X hst) p)).Perm
          (region data (ptr_begin (Limits X hst) p) (ptr_end (Limits X hst) p)) := by
  obtain ⟨d1, hphase, hlen, hall⟩ := sort_phase_spec (Limits X hst) X.seedp
    (Limits_mono X hst) order
    (fun q hq => List.mem_range.mp (horder.mem_iff.mp hq)) data hcap
  refine ⟨d1, hphase, hlen, ?_⟩
  intro p hp
  obtain ⟨hperm, hsorted⟩ := hall p hp
  refine ⟨?_, hperm⟩
  apply region_sorted_of_sorted
  · rw [hlen]
    exact le_trans (Limits_mono X hst (p + 1) X.seedp (by omega) (le_refl _)) hcap
  · exact hsorted (Or.inr (horder.mem_iff.mpr (List.mem_range.mpr hp)))

/-- C2 on the table `[0,3,4,5,8]`: sorting the four regions in the order
2, 0, 3, 1 turns `dataEx8u` into `dataEx8`. -/
theorem C2_sortedness_witness :
    sort_phase (Limits ex4 hstEx) [2, 0, 3, 1] dataEx8u = some dataEx8 ∧
    ∃ data1, sort_phase (Limits ex4 hstEx) [2, 0, 3, 1] dataEx8u = some data1 ∧
      data1.length = dataEx8u.length ∧
      ∀ p, p < ex4.seedp →
        region_sorted data1 (ptr_begin (Limits ex4 hstEx) p) (ptr_end (Limits ex4 hstEx) p) ∧
        (region data1 (ptr_begin (Limits ex4 hstEx) p) (ptr_end (Limits ex4 hstEx) p)).Perm
          (region dataEx8u (ptr_begin (Limits ex4 hstEx) p)
            (ptr_end (Limits ex4 hstEx) p)) :=
  ⟨by decide, C2_sortedness ex4 hstEx dataEx8u [2, 0, 3, 1] (by decide) (by decide)⟩

/-! ## The batched writer -/

theorem region_empty (data : List entry) (b : Nat) : region data b b = [] := by
  unfold region
  rw [List.drop_take]
  simp

theorem pending_length (it : buffered_iterator) (p : Nat) :
    (it.pending p).length = it.n p := by
  simp [buffered_iterator.pending]

theorem flush_p_eq (data : List entry) (it : buffered_iterator) (p : Nat)
    (hcap : it.ptr p + it.n p ≤ data.length) :
    buffered_iterator.flush_p (data, it) p
      = some (data.take (it.ptr p) ++ it.pending p ++ data.drop (it.ptr p + (it.pending p).length),
          it.flushed p) := by
  have hl := pending_length it p
  unfold buffered_iterator.flush_p store
  simp only [buffered_iterator.pending] at hl ⊢
  rw [if_pos (by omega)]

theorem flush_p_spec (data : List entry) (it : buffered_iterator) (p : Nat)
    (hcap : it.ptr p + it.n p ≤ data.length) :
    ∃ data1, buffered_iterator.flush_p (data, it) p = some (data1, it.flushed p) ∧
      data1.length = data.length ∧
      region data1 (it.ptr p) (it.ptr p + it.n p) = it.pending p ∧
      ∀ b2 e2, (e2 ≤ it.ptr p ∨ it.ptr p + it.n p ≤ b2) →
        region data1 b2 e2 = region data b2 e2 := by
  have hl := pending_length it p
  have hcap1 : it.ptr p + (it.pending p).length ≤ data.length := by omega
  refine ⟨_, flush_p_eq data it p hcap, splice_length data _ _ hcap1, ?_, ?_⟩
  · have := splice_region_self data (it.pending p) (it.ptr p) hcap1
    simp only [hl] at this ⊢
    exact this
  · intro b2 e2 h
    rcases h with h | h
    · exact splice_region_below data _ _ b2 e2 hcap1 h
    · exact splice_region_above data _ _ b2 e2 hcap1 (by omega)

theorem flushed_ptr_same (it : buffered_iterator) (p : Nat) :
    (it.flushed p).ptr p = it.ptr p + it.n p := by
  simp only [buffered_iterator.flushed, Function.update_same]

theorem flushed_ptr_other (it : buffered_iterator) (p q : Nat) (h : q ≠ p) :
    (it.flushed p).ptr q = it.ptr q := by
  simp only [buffered_iterator.flushed, Function.update_noteq h]

theorem flushed_n_same (it : buffered_iterator) (p : Nat) : (it.flushed p).n p = 0 := by
  simp only [buffered_iterator.flushed, Function.update_same]

theorem flushed_n_other (it : buffered_iterator) (p q : Nat) (h : q ≠ p) :
    (it.flushed p).n q = it.n q := by
  simp only [buffered_iterator.flushed, Function.update_noteq h]

theorem flushed_pending_same (it : buffered_iterator) (p : Nat) :
    (it.flushed p).pending p = [] := by
  simp only [buffered_iterator.pending, buffered_iterator.flushed, Function.update_same,
    List.range_zero, List.map_nil]

theorem flushed_pending_other (it : buffered_iterator) (p q : Nat) (h : q ≠ p) :
    (it.flushed p).pending q = it.pending q := by
  simp only [buffered_iterator.pending, buffered_iterator.flushed, Function.update_noteq h]

theorem flush_loop_spec (qs : List Nat) (hnd : qs.Nodup) (data : List entry)
    (it : buffered_iterator)
    (hdisj : ∀ p q, p ∈ qs → q ∈ qs → 0 < it.n p → 0 < it.n q → p ≠ q →
      it.ptr p + it.n p ≤ it.ptr q ∨ it.ptr q + it.n q ≤ it.ptr p)
    (hcap : ∀ p, p ∈ qs → 0 < it.n p → it.ptr p + it.n p ≤ data.length) :
    ∃ data1 it1, buffered_iterator.flush_loop qs (data, it) = some (data1, it1) ∧
      data1.length = data.length ∧
      (∀ p, p ∈ qs → region data1 (it.ptr p) (it.ptr p + it.n p) = it.pending p) ∧
      (∀ b2 e2, (∀ p, p ∈ qs → 0 < it.n p → e2 ≤ it.ptr p ∨ it.ptr p + it.n p ≤ b2) →
        region data1 b2 e2 = region data b2 e2) := by
  induction qs generalizing data it with
  | nil =>
    exact ⟨data, it, rfl, rfl, fun p hp => absurd hp (List.not_mem_nil p), fun _ _ _ => rfl⟩
  | cons q rest ih =>
    obtain ⟨hq, hnd'⟩ := List.nodup_cons.mp hnd
    have hne : ∀ p, p ∈ rest → p ≠ q := fun p hp h => hq (h ▸ hp)
    unfold buffered_iterator.flush_loop
    by_cases hpos : 0 < it.n q
    · simp only [hpos, if_true]
      have hcq := hcap q (List.mem_cons_self _ _) hpos
      have hl := pending_length it q
      rw [flush_p_eq data it q hcq, Option.some_bind]
      have hcq' : it.ptr q + (it.pending q).length ≤ data.length := by omega
      obtain ⟨d2, it2, hrun, hlen, hreg, hframe⟩ := ih hnd'
        (data.take (it.ptr q) ++ it.pending q ++ data.drop (it.ptr q + (it.pending q).length))
        (it.flushed q)
        (by
          intro p r hp hr hnp hnr hpr
          simp only [buffered_iterator.flushed, Function.update_noteq (hne p hp),
            Function.update_noteq (hne r hr)] at hnp hnr ⊢
          exact hdisj p r (List.mem_cons_of_mem _ hp) (List.mem_cons_of_mem _ hr) hnp hnr hpr)
        (by
          intro p hp hnp
          simp only [buffered_iterator.flushed, Function.update_noteq (hne p hp)] at hnp ⊢
          rw [splice_length data _ _ hcq']
          exact hcap p (List.mem_cons_of_mem _ hp) hnp)
      have hframe2 : ∀ b2 e2,
          (∀ p, p ∈ rest → 0 < it.n p → e2 ≤ it.ptr p ∨ it.ptr p + it.n p ≤ b2) →
          region d2 b2 e2 = region (data.take (it.ptr q) ++ it.pending q
            ++ data.drop (it.ptr q + (it.pending q).length)) b2 e2 := by
        intro b2 e2 h
        apply hframe
        intro p hp hnp
        simp only [buffered_iterator.flushed, Function.update_noteq (hne p hp)] at hnp ⊢
        exact h p hp hnp
      refine ⟨d2, it2, hrun, by rw [hlen, splice_length data _ _ hcq'], ?_, ?_⟩
      · intro p hp
        rcases List.mem_cons.mp hp with heq | hmem
        · subst heq
          rw [hframe2]
          · have := splice_region_self data (it.pending p) (it.ptr p) hcq'
            simp only [hl] at this ⊢
            exact this
          · intro r hr hnr
            have := hdisj p r (List.mem_cons_self _ _) (List.mem_cons_of_mem _ hr) hpos hnr
              (fun h => hne r hr h.symm)
            omega
        · have := hreg p hmem
          simp only [buffered_iterator.flushed, Function.update_noteq (hne p hmem),
            buffered_iterator.pending] at this
          exact this
      · intro b2 e2 h
        rw [hframe2 b2 e2 (fun p hp hnp => h p (List.mem_cons_of_mem _ hp) hnp)]
        rcases h q (List.mem_cons_self _ _) hpos with h1 | h1
        · exact splice_region_below data _ _ b2 e2 hcq' h1
        · exact splice_region_above data _ _ b2 e2 hcq' (by omega)
    · simp only [hpos, if_false]
      obtain ⟨d2, it2, hrun, hlen, hreg, hframe⟩ := ih hnd' data it
        (fun p r hp hr => hdisj p r (List.mem_cons_of_mem _ hp) (List.mem_cons_of_mem _ hr))
        (fun p hp => hcap p (List.mem_cons_of_mem _ hp))
      refine ⟨d2, it2, hrun, hlen, ?_, ?_⟩
      · intro p hp
        rcases List.mem_cons.mp hp with heq | hmem
        · subst heq
          have h0 : it.n p = 0 := by omega
          simp only [h0, Nat.add_zero, region_empty, buffered_iterator.pending, List.range_zero,
            List.map_nil]
        · exact hreg p hmem
      · intro b2 e2 h
        exact hframe b2 e2 (fun p hp hnp => h p (List.mem_cons_of_mem _ hp) hnp)

theorem put_n_same (it : buffered_iterator) (p : Nat) (e : entry) (h : it.n p < BUFFER_SIZE) :
    (it.put p e).n p = it.n p + 1 := by
  simp only [buffered_iterator.put, Function.update_same]
  unfold BUFFER_SIZE at h
  omega

theorem put_n_other (it : buffered_iterator) (p q : Nat) (e : entry) (h : q ≠ p) :
    (it.put p e).n q = it.n q := by
  simp only [buffered_iterator.put, Function.update_noteq h]

theorem put_pending_same (it : buffered_iterator) (p : Nat) (e : entry)
    (h : it.n p < BUFFER_SIZE) : (it.put p e).pending p = it.pending p ++ [e] := by
  have hn := put_n_same it p e h
  unfold buffered_iterator.pending
  rw [hn, List.range_succ, List.map_append]
  simp only [buffered_iterator.put, Function.update_same, List.map_cons, List.map_nil]
  congr 1
  apply List.map_congr_left
  intro k hk
  have : k ≠ it.n p := Nat.ne_of_lt (List.mem_range.mp hk)
  rw [Function.update_noteq this]

theorem put_pending_other (it : buffered_iterator) (p q : Nat) (e : entry) (h : q ≠ p) :
    (it.put p e).pending q = it.pending q := by
  simp only [buffered_iterator.pending, buffered_iterator.put, Function.update_noteq h]

theorem partition_entries_cons (X : Ext) (kv : Nat × Nat) (ps : List (Nat × Nat)) (p : Nat) :
    partition_entries X (kv :: ps) p
      = if X.seed_partition kv.1 = p then seed_entry X kv :: partition_entries X ps p
        else partition_entries X ps p := by
  unfold partition_entries
  by_cases h : X.seed_partition kv.1 = p
  · simp [h]
  · simp [h]

theorem partition_entries_append (X : Ext) (l1 l2 : List (Nat × Nat)) (p : Nat) :
    partition_entries X (l1 ++ l2) p = partition_entries X l1 p ++ partition_entries X l2 p := by
  simp [partition_entries]

theorem partition_entries_single (X : Ext) (kv : Nat × Nat) (p : Nat) :
    partition_entries X [kv] p = if X.seed_partition kv.1 = p then [seed_entry X kv] else [] := by
  rw [partition_entries_cons]
  rfl

/-- One `push`: it succeeds when the write buffers are not full and the cells
up to the cursor plus the buffered entries plus one fit into the buffer. -/
theorem push_step (X : Ext) (hrange : ∀ p, X.contains p = true → p < X.seedp)
    (kv : Nat × Nat) (data : List entry) (it : buffered_iterator)
    (hn : ∀ p, it.n p < BUFFER_SIZE)
    (hin : ∀ p, X.contains p = false → it.n p = 0)
    (hcap : X.contains (X.seed_partition kv.1) = true →
      it.ptr (X.seed_partition kv.1) + it.n (X.seed_partition kv.1) + 1 ≤ data.length) :
    ∃ data2 it2, buffered_iterator.push X (data, it) kv.1 kv.2 = some (data2, it2) ∧
      data2.length = data.length ∧
      (∀ p, it2.n p < BUFFER_SIZE) ∧
      (∀ p, X.contains p = false → it2.n p = 0) ∧
      (∀ p, it.ptr p ≤ it2.ptr p) ∧
      (∀ p, X.contains p = true →
        it2.ptr p + it2.n p = it.ptr p + it.n p + (partition_entries X [kv] p).length) ∧
      (∀ p, X.contains p = true →
        region data2 (it.ptr p) (it2.ptr p) ++ it2.pending p
          = it.pending p ++ partition_entries X [kv] p) ∧
      (∀ b2 e2, (∀ p, X.contains p = true → it.ptr p < it2.ptr p →
          e2 ≤ it.ptr p ∨ it2.ptr p ≤ b2) →
        region data2 b2 e2 = region data b2 e2) := by
  by_cases hc : X.contains (X.seed_partition kv.1) = true
  · have hlt := hrange _ hc
    have hn0 := hn (X.seed_partition kv.1)
    have hput := put_n_same it (X.seed_partition kv.1) (seed_entry X kv) hn0
    have hpend := put_pending_same it (X.seed_partition kv.1) (seed_entry X kv) hn0
    have hcap0 := hcap hc
    by_cases hfull : it.n (X.seed_partition kv.1) + 1 = BUFFER_SIZE
    · -- the write buffer of the partition becomes full and is flushed
      have hpush : buffered_iterator.push X (data, it) kv.1 kv.2
          = buffered_iterator.flush_p (data, it.put (X.seed_partition kv.1) (seed_entry X kv))
              (X.seed_partition kv.1) := by
        unfold buffered_iterator.push
        rw [if_pos hc, if_pos ⟨hlt, hn0⟩]
        have : (it.put (X.seed_partition kv.1) (seed_entry X kv)).n (X.seed_partition kv.1)
            = BUFFER_SIZE := by rw [hput]; exact hfull
        exact if_pos this
      have hptr : ∀ p, (it.put (X.seed_partition kv.1) (seed_entry X kv)).ptr p = it.ptr p :=
        fun _ => rfl
      obtain ⟨d2, hfl, hlen, hself, hfr⟩ := flush_p_spec data
        (it.put (X.seed_partition kv.1) (seed_entry X kv)) (X.seed_partition kv.1)
        (by rw [hput, hptr]; exact hcap0)
      rw [hptr, hput, hpend] at hself
      rw [hptr, hput] at hfr
      refine ⟨d2, _, hpush.trans hfl, hlen, ?_, ?_, ?_, ?_, ?_, ?_⟩
      · intro p
        by_cases hp : p = X.seed_partition kv.1
        · subst hp
          rw [flushed_n_same]
          decide
        · rw [flushed_n_other _ _ _ hp, put_n_other it _ p _ hp]
          exact hn p
      · intro p hp
        have hne : p ≠ X.seed_partition kv.1 := by
          intro h; rw [h] at hp; rw [hp] at hc; cases hc
        rw [flushed_n_other _ _ _ hne, put_n_other it _ p _ hne]
        exact hin p hp
      · intro p
        by_cases hp : p = X.seed_partition kv.1
        · subst hp
          rw [flushed_ptr_same, hptr]
          omega
        · rw [flushed_ptr_other _ _ _ hp, hptr]
      · intro p _
        rw [partition_entries_single]
        by_cases hp : p = X.seed_partition kv.1
        · subst hp
          rw [flushed_ptr_same, flushed_n_same, hptr, hput, if_pos rfl]
          simp only [List.length_singleton]
          omega
        · have hp' : ¬ X.seed_partition kv.1 = p := fun h => hp h.symm
          rw [flushed_ptr_other _ _ _ hp, flushed_n_other _ _ _ hp, hptr,
            put_n_other it _ p _ hp, if_neg hp']
          simp
      · intro p _
        rw [partition_entries_single]
        by_cases hp : p = X.seed_partition kv.1
        · subst hp
          rw [flushed_ptr_same, flushed_pending_same, hptr, hput, hself, if_pos rfl,
            List.append_nil]
        · have hp' : ¬ X.seed_partition kv.1 = p := fun h => hp h.symm
          rw [flushed_ptr_other _ _ _ hp, flushed_pending_other _ _ _ hp, hptr,
            put_pending_other it _ p _ hp, if_neg hp', region_empty, List.nil_append,
            List.append_nil]
      · intro b2 e2 h
        have h0 := h _ hc (by rw [flushed_ptr_same, hptr, hput]; omega)
        rw [flushed_ptr_same, hptr, hput] at h0
        exact hfr b2 e2 h0
    · -- the entry stays in the write buffer
      have hpush : buffered_iterator.push X (data, it) kv.1 kv.2
          = some (data, it.put (X.seed_partition kv.1) (seed_entry X kv)) := by
        unfold buffered_iterator.push
        rw [if_pos hc, if_pos ⟨hlt, hn0⟩]
        have : ¬ (it.put (X.seed_partition kv.1) (seed_entry X kv)).n (X.seed_partition kv.1)
            = BUFFER_SIZE := by rw [hput]; exact hfull
        exact if_neg this
      have hptr : (it.put (X.seed_partition kv.1) (seed_entry X kv)).ptr = it.ptr := rfl
      refine ⟨_, _, hpush, rfl, ?_, ?_, ?_, ?_, ?_, fun _ _ _ => rfl⟩
      · intro p
        by_cases hp : p = X.seed_partition kv.1
        · subst hp
          rw [hput]
          unfold BUFFER_SIZE at hn0 hfull ⊢
          omega
        · rw [put_n_other it _ p _ hp]
          exact hn p
      · intro p hp
        have hne : p ≠ X.seed_partition kv.1 := by
          intro h; rw [h] at hp; rw [hp] at hc; cases hc
        rw [put_n_other it _ p _ hne]
        exact hin p hp
      · intro p
        rw [hptr]
      · intro p _
        rw [partition_entries_single, hptr]
        by_cases hp : p = X.seed_partition kv.1
        · subst hp
          rw [hput, if_pos rfl]
          simp only [List.length_singleton]
          omega
        · have hp' : ¬ X.seed_partition kv.1 = p := fun h => hp h.symm
          simp [hp', put_n_other it _ p _ hp]
      · intro p _
        rw [partition_entries_single, hptr, region_empty, List.nil_append]
        by_cases hp : p = X.seed_partition kv.1
        · subst hp
          simp [hpend]
        · have hp' : ¬ X.seed_partition kv.1 = p := fun h => hp h.symm
          simp [hp', put_pending_other it _ p _ hp]
  · have hc' : X.contains (X.seed_partition kv.1) = false := by simpa using hc
    have hpush : buffered_iterator.push X (data, it) kv.1 kv.2 = some (data, it) := by
      unfold buffered_iterator.push
      rw [if_neg hc]
    refine ⟨data, it, hpush, rfl, hn, hin, fun _ => le_refl _, ?_, ?_, fun _ _ _ => rfl⟩
    · intro p hp
      have hne : ¬ X.seed_partition kv.1 = p := by
        intro h; rw [h] at hc; exact hc hp
      simp [partition_entries_single, hne]
    · intro p hp
      have hne : ¬ X.seed_partition kv.1 = p := by
        intro h; rw [h] at hc; exact hc hp
      simp [partition_entries_single, hne, region_empty]

/-- The batched writer: a sequence of `push` calls followed by `flush()`
leaves, for every active partition, the entries already waiting and the
entries pushed, in push order, in the cells from the cursor on, and changes no
region that lies outside the target ranges that are not empty.  Only the
target ranges that are not empty have to be apart and inside the buffer: the
writer never reads the cursor of a partition that receives no entry. -/
theorem writer_spec (X : Ext) (hrange : ∀ p, X.contains p = true → p < X.seedp)
    (ps : List (Nat × Nat)) (data : List entry) (it : buffered_iterator)
    (hn : ∀ p, it.n p < BUFFER_SIZE)
    (hin : ∀ p, X.contains p = false → it.n p = 0)
    (hdisj : ∀ p q, X.contains p = true → X.contains q = true → p ≠ q →
      0 < it.n p + (partition_entries X ps p).length →
      0 < it.n q + (partition_entries X ps q).length →
      it.ptr p + it.n p + (partition_entries X ps p).length ≤ it.ptr q ∨
      it.ptr q + it.n q + (partition_entries X ps q).length ≤ it.ptr p)
    (hcap : ∀ p, X.contains p = true →
      0 < it.n p + (partition_entries X ps p).length →
      it.ptr p + it.n p + (partition_entries X ps p).length ≤ data.length) :
    ∃ data1 it1, (push_list X ps (data, it)).bind (buffered_iterator.flush X)
        = some (data1, it1) ∧
      data1.length = data.length ∧
      (∀ p, X.contains p = true →
        region data1 (it.ptr p) (it.ptr p + it.n p + (partition_entries X ps p).length)
          = it.pending p ++ partition_entries X ps p) ∧
      (∀ b2 e2, (∀ p, X.contains p = true →
          0 < it.n p + (partition_entries X ps p).length →
          e2 ≤ it.ptr p ∨
          it.ptr p + it.n p + (partition_entries X ps p).length ≤ b2) →
        region data1 b2 e2 = region data b2 e2) := by
  induction ps generalizing data it with
  | nil =>
    have hact : ∀ p, 0 < it.n p → X.contains p = true := by
      intro p hp
      by_contra hc
      have := hin p (by simpa using hc)
      omega
    obtain ⟨d1, it1, hrun, hlen, hreg, hframe⟩ := flush_loop_spec (List.range X.seedp)
      (List.nodup_range X.seedp) data it
      (by
        intro p q _ _ hp hq hpq
        have := hdisj p q (hact p hp) (hact q hq) hpq (by omega) (by omega)
        simpa [partition_entries] using this)
      (by
        intro p _ hp
        have := hcap p (hact p hp) (by omega)
        simpa [partition_entries] using this)
    refine ⟨d1, it1, by simpa [push_list, buffered_iterator.flush] using hrun, hlen, ?_, ?_⟩
    · intro p hp
      have := hreg p (List.mem_range.mpr (hrange p hp))
      simpa [partition_entries] using this
    · intro b2 e2 h
      apply hframe
      intro p _ hp
      have := h p (hact p hp) (by omega)
      simpa [partition_entries] using this
  | cons kv ps ih =>
    simp only [push_list]
    have hpe : ∀ p, (partition_entries X (kv :: ps) p)
        = partition_entries X [kv] p ++ partition_entries X ps p := by
      intro p
      rw [← partition_entries_append]
      rfl
    have hpel : ∀ p, (partition_entries X (kv :: ps) p).length
        = (partition_entries X [kv] p).length + (partition_entries X ps p).length := by
      intro p
      rw [hpe p, List.length_append]
    obtain ⟨d2, it2, hpush, hlen2, hn2, hin2, hptr2, hsum2, hwr2, hframe2⟩ :=
      push_step X hrange kv data it hn hin (by
        intro hc
        have := hcap _ hc
        rw [hpel, partition_entries_single, if_pos rfl] at this
        simp only [List.length_singleton] at this
        omega)
    rw [hpush, Option.some_bind]
    have hhi : ∀ p, X.contains p = true →
        it2.ptr p + it2.n p + (partition_entries X ps p).length
          = it.ptr p + it.n p + (partition_entries X (kv :: ps) p).length := by
      intro p hp
      have := hsum2 p hp
      rw [hpel]
      omega
    obtain ⟨d1, it1, hrun, hlen, hreg, hframe⟩ := ih d2 it2 hn2 hin2
      (by
        intro p q hp hq hpq hp0 hq0
        rw [hhi p hp, hhi q hq]
        have h1 := hptr2 p
        have h2 := hptr2 q
        have h3 := hhi p hp
        have h4 := hhi q hq
        have := hdisj p q hp hq hpq (by omega) (by omega)
        omega)
      (by
        intro p hp hp0
        rw [hhi p hp, hlen2]
        have h1 := hptr2 p
        have h3 := hhi p hp
        exact hcap p hp (by omega))
    refine ⟨d1, it1, hrun, by omega, ?_, ?_⟩
    · intro p hp
      have h1 := hptr2 p
      have h2 := hhi p hp
      rw [region_append d1 (it.ptr p) (it2.ptr p) _ h1 (by omega), ← h2, hreg p hp]
      have hfr : region d1 (it.ptr p) (it2.ptr p) = region d2 (it.ptr p) (it2.ptr p) := by
        by_cases hmv : it.ptr p = it2.ptr p
        · rw [← hmv, region_empty, region_empty]
        · apply hframe
          intro q hq hq0
          by_cases hpq : p = q
          · subst hpq; exact Or.inl (le_refl _)
          · have h3 := hptr2 q
            have h4 := hhi q hq
            have := hdisj p q hp hq hpq (by omega) (by omega)
            omega
      rw [hfr, ← List.append_assoc, hwr2 p hp, hpe p, List.append_assoc]
    · intro b2 e2 h
      have hd2 : region d2 b2 e2 = region data b2 e2 := by
        apply hframe2
        intro p hp hmv
        have h2 := hhi p hp
        have := h p hp (by omega)
        omega
      rw [← hd2]
      apply hframe
      intro p hp hp0
      have h1 := hptr2 p
      have h2 := hhi p hp
      have := h p hp (by omega)
      omega

/-! ## The loops of `build_seqp` -/

theorem push_list_append (X : Ext) (l1 l2 : List (Nat × Nat)) (st : build_state) :
    push_list X (l1 ++ l2) st = (push_list X l1 st).bind (push_list X l2) := by
  induction l1 generalizing st with
  | nil => rfl
  | cons kv l1 ih =>
    rw [List.cons_append]
    simp only [push_list]
    cases buffered_iterator.push X st kv.1 kv.2 with
    | none => rfl
    | some st1 => simp only [Option.some_bind]; exact ih st1

theorem window_loop_eq (X : Ext) (i : Nat) (js : List Nat) (st : build_state) :
    build_seqp.window_loop X i js st
      = push_list X (js.filterMap
          (fun j => (X.set_seed (X.seqs i) j).map (fun key => (key, X.position i j)))) st := by
  induction js generalizing st with
  | nil => rfl
  | cons j js ih =>
    unfold build_seqp.window_loop
    cases h : X.set_seed (X.seqs i) j with
    | none => simp only [List.filterMap_cons, h, Option.map_none']; exact ih st
    | some key =>
      simp only [List.filterMap_cons, h, Option.map_some', push_list]
      cases buffered_iterator.push X st key (X.position i j) with
      | none => rfl
      | some st1 => simp only [Option.some_bind, ih]

theorem seq_loop_eq (X : Ext) (is : List Nat) (st : build_state) :
    build_seqp.seq_loop X is st = push_list X (is.flatMap (window_seeds X)) st := by
  induction is generalizing st with
  | nil => rfl
  | cons i is ih =>
    unfold build_seqp.seq_loop
    rw [List.flatMap_cons, push_list_append]
    by_cases h : (X.seqs i).length < X.length_
    · rw [if_pos h]
      simp only [window_seeds, if_pos h, push_list, Option.some_bind]
      exact ih st
    · rw [if_neg h]
      simp only [window_seeds, if_neg h, window_loop_eq]
      cases push_list X _ st with
      | none => rfl
      | some st1 => simp only [Option.some_bind, ih]

/-- One job: `build_seqp` stores, for every active partition, the entries of
the seeds of its sequences in push order from the job's cursor on, and leaves
every region outside these target ranges as it was. -/
theorem build_seqp_spec (X : Ext) (hrange : ∀ p, X.contains p = true → p < X.seedp)
    (begin_ end_ : Nat) (ptr : Nat → Nat) (data : List entry)
    (hdisj : ∀ p q, X.contains p = true → X.contains q = true → p ≠ q →
      ptr p + (partition_entries X (range_seeds X begin_ end_) p).length ≤ ptr q ∨
      ptr q + (partition_entries X (range_seeds X begin_ end_) q).length ≤ ptr p)
    (hcap : ∀ p, X.contains p = true →
      ptr p + (partition_entries X (range_seeds X begin_ end_) p).length ≤ data.length) :
    ∃ data1, build_seqp X begin_ end_ ptr data = some data1 ∧
      data1.length = data.length ∧
      (∀ p, X.contains p = true →
        region data1 (ptr p) (ptr p + (partition_entries X (range_seeds X begin_ end_) p).length)
          = partition_entries X (range_seeds X begin_ end_) p) ∧
      (∀ b2 e2, (∀ p, X.contains p = true → e2 ≤ ptr p ∨
          ptr p + (partition_entries X (range_seeds X begin_ end_) p).length ≤ b2) →
        region data1 b2 e2 = region data b2 e2) := by
  obtain ⟨d1, it1, hrun, hlen, hreg, hframe⟩ := writer_spec X hrange
    (range_seeds X begin_ end_) data (buffered_iterator.init ptr)
    (fun _ => by simp [buffered_iterator.init, BUFFER_SIZE])
    (fun _ _ => rfl)
    (fun p q hp hq hpq _ _ => by simpa [buffered_iterator.init] using hdisj p q hp hq hpq)
    (fun p hp _ => by simpa [buffered_iterator.init] using hcap p hp)
  refine ⟨d1, ?_, hlen, ?_, ?_⟩
  · unfold build_seqp
    rw [seq_loop_eq]
    unfold range_seeds at hrun
    rw [hrun]
    rfl
  · intro p hp
    have := hreg p hp
    simpa [buffered_iterator.init, buffered_iterator.pending] using this
  · intro b2 e2 h
    apply hframe
    intro p hp _
    simpa [buffered_iterator.init] using h p hp

/-! ## The build phase -/

/-- The jobs of the build phase, in any order: when the target ranges of all
jobs and partitions are pairwise disjoint and inside the buffer, every job
that has run leaves its entries in its target ranges. -/
theorem build_jobs_spec (X : Ext) (hrange : ∀ p, X.contains p = true → p < X.seedp)
    (sp : List Nat) (its : List (List Nat)) (N : Nat)
    (hdisj : ∀ c c2 p q, c < N → c2 < N → X.contains p = true → X.contains q = true →
      (c ≠ c2 ∨ p ≠ q) →
      cursor_at its c p + (chunk_entries X sp c p).length ≤ cursor_at its c2 q ∨
      cursor_at its c2 q + (chunk_entries X sp c2 q).length ≤ cursor_at its c p)
    (order : List Nat) (horder : ∀ c, c ∈ order → c < N) (data : List entry)
    (hcap : ∀ c p, c < N → X.contains p = true →
      cursor_at its c p + (chunk_entries X sp c p).length ≤ data.length) :
    ∃ data1, build_jobs X sp its order data = some data1 ∧ data1.length = data.length ∧
      ∀ c p, c < N → X.contains p = true →
        (c ∈ order ∨ region data (cursor_at its c p)
            (cursor_at its c p + (chunk_entries X sp c p).length) = chunk_entries X sp c p) →
        region data1 (cursor_at its c p) (cursor_at its c p + (chunk_entries X sp c p).length)
          = chunk_entries X sp c p := by
  induction order generalizing data with
  | nil =>
    refine ⟨data, rfl, rfl, ?_⟩
    intro c p _ _ h
    rcases h with h | h
    · cases h
    · exact h
  | cons c0 rest ih =>
    have hc0 : c0 < N := horder c0 (List.mem_cons_self _ _)
    obtain ⟨d2, hjob, hlen2, hreg2, hframe2⟩ := build_seqp_spec X hrange
      (sp.getD c0 0) (sp.getD (c0 + 1) 0) (fun p => cursor_at its c0 p) data
      (fun p q hp hq hpq => hdisj c0 c0 p q hc0 hc0 hp hq (Or.inr hpq))
      (fun p hp => hcap c0 p hc0 hp)
    obtain ⟨d1, hrun, hlen1, hreg1⟩ := ih
      (fun c hc => horder c (List.mem_cons_of_mem _ hc)) d2
      (fun c p hc hp => by rw [hlen2]; exact hcap c p hc hp)
    refine ⟨d1, ?_, by omega, ?_⟩
    · simp only [build_jobs, Build_context.call, hjob, Option.some_bind, hrun]
    · intro c p hc hp h
      apply hreg1 c p hc hp
      by_cases hcc : c = c0
      · subst hcc
        exact Or.inr (hreg2 p hp)
      · rcases h with h | h
        · rcases List.mem_cons.mp h with h | h
          · exact absurd h hcc
          · exact Or.inl h
        · right
          refine (hframe2 _ _ ?_).trans h
          intro q hq
          have := hdisj c c0 p q hc hc0 hp hq (Or.inl hcc)
          rcases this with h1 | h1
          · exact Or.inl h1
          · exact Or.inr h1

theorem hst_sum_mono (hst : shape_histogram) (p a b : Nat) (hab : a ≤ b) :
    ∑ k in Finset.range a, hst_at hst k p ≤ ∑ k in Finset.range b, hst_at hst k p :=
  Finset.sum_le_sum_of_subset (Finset.range_mono hab)

/-- C1: let `hst` have one row per chunk, let `hst[c][p]` be, for every chunk
`c` and active partition `p`, the number of valid seeds of chunk `c` whose
partition is `p`, and let the buffer hold at least `Limits[Const::seedp]`
entries; the active range is a set of partition ids.  With at least one chunk
`build_iterators` returns its cursors, and with the cursors from
`build_iterators` running `build_seqp` once per chunk, the jobs in any
sequential order, succeeds, keeps the buffer length, and leaves in the region
`[Limits[p], Limits[p+1])` of every active partition `p` exactly the entries
`(seed_partition_offset(key), seqs.position(i, j))` of the valid seeds of all
chunks whose partition is `p`, each seed once: the entries of chunk 0 in window
order, then those of chunk 1, and so on; hence the region equals this
collection as a multiset. -/
theorem C1_build_completeness (X : Ext) (hst : shape_histogram) (seq_partition : List Nat)
    (order : List Nat) (data : List entry)
    (hrange : ∀ p, X.contains p = true → p < X.seedp)
    (hrows : hst.length = seq_partition.length - 1)
    (hcount : ∀ c p, c < hst.length → X.contains p = true →
      hst_at hst c p = (chunk_entries X seq_partition c p).length)
    (hcap : (Limits X hst).getD X.seedp 0 ≤ data.length)
    (horder : order.Perm (List.range (seq_partition.length - 1))) :
    (0 < hst.length → (build_iterators X (Limits X hst) hst).isSome = true) ∧
    ∀ its, build_iterators X (Limits X hst) hst = some its →
      ∃ data1, build_jobs X seq_partition its order data = some data1 ∧
        build_phase X hst seq_partition order data = some data1 ∧
        data1.length = data.length ∧
        ∀ p, X.contains p = true →
          region data1 (ptr_begin (Limits X hst) p) (ptr_end (Limits X hst) p)
            = all_entries X seq_partition p ∧
          (region data1 (ptr_begin (Limits X hst) p) (ptr_end (Limits X hst) p)).Perm
            (all_entries X seq_partition p) := by
  refine ⟨fun h => by rw [build_iterators_eq X (Limits X hst) hst h]; rfl, ?_⟩
  intro its0 hits0
  have hne : 0 < hst.length := by
    by_contra h0
    have h0' : hst.length = 0 := by omega
    simp [build_iterators, h0'] at hits0
  -- the cursors
  have hits := build_iterators_eq X (Limits X hst) hst hne
  have hcur : ∀ c p, c < hst.length → p < X.seedp →
      cursor_at ((List.range hst.length).map (fun c => (List.range X.seedp).map
          (fun p => ptr_begin (Limits X hst) p + ∑ k in Finset.range c, hst_at hst k p))) c p
        = ptr_begin (Limits X hst) p + ∑ k in Finset.range c, hst_at hst k p :=
    fun c p hc hp => cursor_at_map X
      (fun c p => ptr_begin (Limits X hst) p + ∑ k in Finset.range c, hst_at hst k p)
      hst.length c p hc hp
  generalize (List.range hst.length).map (fun c => (List.range X.seedp).map
      (fun p => ptr_begin (Limits X hst) p + ∑ k in Finset.range c, hst_at hst k p)) = its
    at hits hcur
  have hsame : its = its0 := by
    rw [hits0] at hits
    exact (Option.some.inj hits).symm
  subst hsame
  -- the layout of the target ranges
  have hend : ∀ c p, c < hst.length → X.contains p = true →
      cursor_at its c p + (chunk_entries X seq_partition c p).length
        = ptr_begin (Limits X hst) p + ∑ k in Finset.range (c + 1), hst_at hst k p := by
    intro c p hc hp
    rw [hcur c p hc (hrange p hp), ← hcount c p hc hp, Finset.sum_range_succ]
    omega
  have hwidth : ∀ p, X.contains p = true →
      ptr_end (Limits X hst) p
        = ptr_begin (Limits X hst) p + ∑ k in Finset.range hst.length, hst_at hst k p := by
    intro p hp
    have := Limits_succ X hst p (hrange p hp)
    rw [this]
    unfold Limits.width
    rw [if_pos hp, partition_size_eq_sum]
  have hbelow : ∀ c p, c < hst.length → X.contains p = true →
      cursor_at its c p + (chunk_entries X seq_partition c p).length
        ≤ ptr_end (Limits X hst) p := by
    intro c p hc hp
    rw [hend c p hc hp, hwidth p hp]
    have := hst_sum_mono hst p (c + 1) hst.length (by omega)
    omega
  have habove : ∀ c p, c < hst.length → X.contains p = true →
      ptr_begin (Limits X hst) p ≤ cursor_at its c p := by
    intro c p hc hp
    rw [hcur c p hc (hrange p hp)]
    omega
  have hdisj : ∀ c c2 p q, c < hst.length → c2 < hst.length → X.contains p = true →
      X.contains q = true → (c ≠ c2 ∨ p ≠ q) →
      cursor_at its c p + (chunk_entries X seq_partition c p).length ≤ cursor_at its c2 q ∨
      cursor_at its c2 q + (chunk_entries X seq_partition c2 q).length ≤ cursor_at its c p := by
    intro c c2 p q hc hc2 hp hq hne2
    rcases Nat.lt_trichotomy p q with hpq | hpq | hpq
    · left
      have h1 := hbelow c p hc hp
      have h2 := habove c2 q hc2 hq
      have h3 : ptr_end (Limits X hst) p ≤ ptr_begin (Limits X hst) q :=
        Limits_mono X hst (p + 1) q (by omega) (by have := hrange q hq; omega)
      omega
    · subst hpq
      have hcc : c ≠ c2 := by
        rcases hne2 with h | h
        · exact h
        · exact absurd rfl h
      rcases Nat.lt_or_gt_of_ne hcc with h | h
      · left
        rw [hend c p hc hp, hcur c2 p hc2 (hrange p hp)]
        have := hst_sum_mono hst p (c + 1) c2 (by omega)
        omega
      · right
        rw [hend c2 p hc2 hp, hcur c p hc (hrange p hp)]
        have := hst_sum_mono hst p (c2 + 1) c (by omega)
        omega
    · right
      have h1 := hbelow c2 q hc2 hq
      have h2 := habove c p hc hp
      have h3 : ptr_end (Limits X hst) q ≤ ptr_begin (Limits X hst) p :=
        Limits_mono X hst (q + 1) p (by omega) (by have := hrange p hp; omega)
      omega
  have hcapj : ∀ c p, c < hst.length → X.contains p = true →
      cursor_at its c p + (chunk_entries X seq_partition c p).length ≤ data.length := by
    intro c p hc hp
    have h1 := hbelow c p hc hp
    have h2 : ptr_end (Limits X hst) p ≤ (Limits X hst).getD X.seedp 0 :=
      Limits_mono X hst (p + 1) X.seedp (by have := hrange p hp; omega) (le_refl _)
    omega
  -- the jobs
  have hord : ∀ c, c ∈ order → c < hst.length := by
    intro c hc
    have := List.mem_range.mp (horder.mem_iff.mp hc)
    omega
  obtain ⟨d1, hrun, hlen, hreg⟩ := build_jobs_spec X hrange seq_partition its hst.length
    hdisj order hord data hcapj
  have hall : ∀ p, X.contains p = true →
      region d1 (ptr_begin (Limits X hst) p) (ptr_end (Limits X hst) p)
        = all_entries X seq_partition p := by
    intro p hp
    have hk : ∀ k, k ≤ hst.length →
        region d1 (ptr_begin (Limits X hst) p)
            (ptr_begin (Limits X hst) p + ∑ j in Finset.range k, hst_at hst j p)
          = (List.range k).flatMap (fun c => chunk_entries X seq_partition c p) := by
      intro k
      induction k with
      | zero =>
        intro _
        simp [region_empty]
      | succ k ihk =>
        intro hk1
        have hc : k < hst.length := by omega
        have hmem : k ∈ order := horder.mem_iff.mpr (List.mem_range.mpr (by omega))
        have hr := hreg k p hc hp (Or.inl hmem)
        rw [hend k p hc hp, hcur k p hc (hrange p hp)] at hr
        rw [region_append d1 _ (ptr_begin (Limits X hst) p + ∑ j in Finset.range k, hst_at hst j p)
          _ (by omega) (by have := hst_sum_mono hst p k (k + 1) (by omega); omega),
          ihk (by omega), hr, List.range_succ, List.flatMap_append]
        simp
    have := hk hst.length (le_refl _)
    rw [← hwidth p hp] at this
    rw [this, all_entries, hrows]
  refine ⟨d1, hrun, ?_, hlen, fun p hp => ⟨hall p hp, by rw [hall p hp]⟩⟩
  unfold build_phase
  rw [hits0, Option.some_bind, hrun]

/-- A job with twenty seeds in one partition: the write buffer is flushed once
when it holds 16 entries and once at the end of the job. -/
theorem build_seqp_flush_example :
    build_seqp exLong 0 1 (fun _ => 2) (List.replicate 23 default)
      = some (List.replicate 2 default ++ (List.range 20).map (fun j => ⟨1, j⟩)
          ++ List.replicate 1 default) ∧
    ((build_seqp.seq_loop exLong [0] (List.replicate 23 default,
        buffered_iterator.init (fun _ => 2))).map (fun st => (st.2.ptr 0, st.2.n 0)))
      = some (18, 4) := by
  decide

theorem ex4_range (p : Nat) (h : ex4.contains p = true) : p < ex4.seedp := by
  simpa [ex4] using h

theorem ex4_count (c p : Nat) (hc : c < hstEx.length) (hp : ex4.contains p = true) :
    hst_at hstEx c p = (chunk_entries ex4 seqPartEx c p).length := by
  have hp4 : p < 4 := ex4_range p hp
  have hc2 : c < 2 := hc
  interval_cases c <;> interval_cases p <;> decide

/-- C1 on the example of the specification: two chunks with the counts
`[2,0,1,0]` and `[1,1,0,3]`, the second job run first; the region `[0, 3)` of
partition 0 receives two entries of chunk 0 and one of chunk 1. -/
theorem C1_build_completeness_witness :
    build_phase ex4 hstEx seqPartEx [1, 0] (List.replicate 8 default)
      = some [⟨1, 0⟩, ⟨4, 100⟩, ⟨4, 200⟩, ⟨3, 201⟩, ⟨0, 1⟩, ⟨0, 202⟩, ⟨6, 300⟩, ⟨3, 301⟩] ∧
    all_entries ex4 seqPartEx 0 = [⟨1, 0⟩, ⟨4, 100⟩, ⟨4, 200⟩] ∧
    ∀ its, build_iterators ex4 (Limits ex4 hstEx) hstEx = some its →
      ∃ data1, build_jobs ex4 seqPartEx its [1, 0] (List.replicate 8 default) = some data1 ∧
        build_phase ex4 hstEx seqPartEx [1, 0] (List.replicate 8 default) = some data1 ∧
        data1.length = (List.replicate 8 (default : entry)).length ∧
        ∀ p, ex4.contains p = true →
          region data1 (ptr_begin (Limits ex4 hstEx) p) (ptr_end (Limits ex4 hstEx) p)
            = all_entries ex4 seqPartEx p ∧
          (region data1 (ptr_begin (Limits ex4 hstEx) p) (ptr_end (Limits ex4 hstEx) p)).Perm
            (all_entries ex4 seqPartEx p) :=
  ⟨by decide, by decide,
    (C1_build_completeness ex4 hstEx seqPartEx [1, 0] (List.replicate 8 default)
      ex4_range (by decide) ex4_count (by decide) (by decide)).2⟩

/-! ## C11: the bucket size -/

/-- C11: for every region `[.., e)` and every position `i ≤ e`, the size
`count()` cached by `Iterator_base(i, e)` is the least `m` with `i + m = e` or
`key(i + m) ≠ key(i)`; it is 0 when `i = e` and at least 1 otherwise, and every
position `i + k` with `k < count()` is inside the region and holds `key()`. -/
theorem C11_bucket_size (data : List entry) (i e : Nat) (h : i ≤ e) :
    (Iterator_base.init data i e).n = Iterator_base.count data i e ∧
    (i + Iterator_base.count data i e = e ∨
      key_at data (i + Iterator_base.count data i e) ≠ key_at data i) ∧
    (∀ m, m < Iterator_base.count data i e →
      ¬ (i + m = e ∨ key_at data (i + m) ≠ key_at data i)) ∧
    (i = e → Iterator_base.count data i e = 0) ∧
    (i < e → 1 ≤ Iterator_base.count data i e) ∧
    (∀ k, k < Iterator_base.count data i e →
      i ≤ i + k ∧ i + k < e ∧
        key_at data (i + k) = (Iterator_base.init data i e).key data) := by
  have hspec := count_spec data i e
  have hle := count_le data i e
  rw [max_eq_right h] at hle
  refine ⟨rfl, ?_, ?_, ?_, ?_, ?_⟩
  · by_contra hcon
    push_neg at hcon
    exact hspec.2 ⟨by omega, hcon.2⟩
  · intro m hm hcon
    obtain ⟨h1, h2⟩ := hspec.1 m hm
    rcases hcon with hcon | hcon
    · omega
    · exact hcon h2
  · intro hie
    exact count_eq_zero data i e (by omega)
  · intro hlt
    exact count_pos data i e hlt
  · intro k hk
    obtain ⟨h1, h2⟩ := hspec.1 k hk
    exact ⟨by omega, h1, h2⟩

/-- C11 on the keys 5, 5, 2, 9, 2: the run at position 0 has length 2, the run
at position 2 has length 1, and at the end of the region the size is 0. -/
theorem C11_bucket_size_witness :
    Iterator_base.count dataEx 0 5 = 2 ∧ Iterator_base.count dataEx 2 5 = 1 ∧
    Iterator_base.count dataEx 5 5 = 0 ∧
    (0 + Iterator_base.count dataEx 0 5 = 5 ∨
      key_at dataEx (0 + Iterator_base.count dataEx 0 5) ≠ key_at dataEx 0) :=
  ⟨by decide, by decide, by decide, (C11_bucket_size dataEx 0 5 (by decide)).2.1⟩

/-! ## C12: the write ranges of the jobs -/

theorem hst_sum_locate (hst : shape_histogram) (p N x : Nat)
    (hx : x < ∑ k in Finset.range N, hst_at hst k p) :
    ∃ c, c < N ∧ ∑ k in Finset.range c, hst_at hst k p ≤ x ∧
      x < ∑ k in Finset.range (c + 1), hst_at hst k p := by
  induction N with
  | zero => simp at hx
  | succ N ih =>
    by_cases hlt : x < ∑ k in Finset.range N, hst_at hst k p
    · obtain ⟨c, hc, h1, h2⟩ := ih hlt
      exact ⟨c, by omega, h1, h2⟩
    · exact ⟨N, by omega, by omega, hx⟩

/-- C12: let `its` be the cursors returned by `build_iterators(hst)` (they
exist when there is at least one chunk) and `p` an active partition.  The
ranges `[its[c][p], its[c][p] + hst[c][p])` of the chunks `c` lie inside
`[Limits[p], Limits[p+1])`, the first starts at `Limits[p]`, each next one
starts where the previous ended, the last ends at `Limits[p+1]`; so they are
pairwise disjoint and every index of the region lies in exactly one of them. -/
theorem C12_disjoint_write_ranges (X : Ext) (hst : shape_histogram) (p : Nat)
    (hp : p < X.seedp) (hact : X.contains p = true) :
    (0 < hst.length → (build_iterators X (Limits X hst) hst).isSome = true) ∧
    ∀ its, build_iterators X (Limits X hst) hst = some its →
      (∀ c, c < hst.length →
        ptr_begin (Limits X hst) p ≤ cursor_at its c p ∧
        cursor_at its c p + hst_at hst c p ≤ ptr_end (Limits X hst) p) ∧
      cursor_at its 0 p = ptr_begin (Limits X hst) p ∧
      (∀ c, c + 1 < hst.length → cursor_at its (c + 1) p = cursor_at its c p + hst_at hst c p) ∧
      cursor_at its (hst.length - 1) p + hst_at hst (hst.length - 1) p
        = ptr_end (Limits X hst) p ∧
      (∀ c c2, c < c2 → c2 < hst.length →
        cursor_at its c p + hst_at hst c p ≤ cursor_at its c2 p) ∧
      (∀ c c2, c < hst.length → c2 < hst.length → c ≠ c2 → ∀ a,
        ¬ ((cursor_at its c p ≤ a ∧ a < cursor_at its c p + hst_at hst c p) ∧
           (cursor_at its c2 p ≤ a ∧ a < cursor_at its c2 p + hst_at hst c2 p))) ∧
      (∀ a, ptr_begin (Limits X hst) p ≤ a → a < ptr_end (Limits X hst) p →
        ∃! c, c < hst.length ∧ cursor_at its c p ≤ a ∧
          a < cursor_at its c p + hst_at hst c p) := by
  refine ⟨fun h => by rw [build_iterators_eq X (Limits X hst) hst h]; rfl, ?_⟩
  intro its hits
  have hne : 0 < hst.length := by
    by_contra h0
    have h0' : hst.length = 0 := by omega
    simp [build_iterators, h0'] at hits
  have hcur : ∀ c, c < hst.length →
      cursor_at its c p
        = ptr_begin (Limits X hst) p + ∑ k in Finset.range c, hst_at hst k p := by
    intro c hc
    rw [build_iterators_eq X (Limits X hst) hst hne] at hits
    rw [← Option.some.inj hits]
    exact cursor_at_map X
      (fun c p => ptr_begin (Limits X hst) p + ∑ k in Finset.range c, hst_at hst k p)
      hst.length c p hc hp
  have hwidth : ptr_end (Limits X hst) p
      = ptr_begin (Limits X hst) p + ∑ k in Finset.range hst.length, hst_at hst k p := by
    rw [Limits_succ X hst p hp]
    unfold Limits.width
    rw [if_pos hact, partition_size_eq_sum]
  have hend : ∀ c, c < hst.length →
      cursor_at its c p + hst_at hst c p
        = ptr_begin (Limits X hst) p + ∑ k in Finset.range (c + 1), hst_at hst k p := by
    intro c hc
    rw [hcur c hc, Finset.sum_range_succ]
    omega
  have hord : ∀ c c2, c < c2 → c2 < hst.length →
      cursor_at its c p + hst_at hst c p ≤ cursor_at its c2 p := by
    intro c c2 hcc hc2
    rw [hend c (by omega), hcur c2 hc2]
    have := hst_sum_mono hst p (c + 1) c2 (by omega)
    omega
  refine ⟨?_, ?_, ?_, ?_, hord, ?_, ?_⟩
  · intro c hc
    rw [hend c hc, hcur c hc, hwidth]
    have := hst_sum_mono hst p (c + 1) hst.length (by omega)
    omega
  · rw [hcur 0 hne]
    simp
  · intro c hc
    rw [hcur (c + 1) hc, hcur c (by omega), Finset.sum_range_succ]
    omega
  · rw [hend (hst.length - 1) (by omega), hwidth]
    have : hst.length - 1 + 1 = hst.length := by omega
    rw [this]
  · intro c c2 hc hc2 hcc a h
    rcases Nat.lt_or_gt_of_ne hcc with hlt | hlt
    · have := hord c c2 hlt hc2
      omega
    · have := hord c2 c hlt hc
      omega
  · intro a ha1 ha2
    rw [hwidth] at ha2
    obtain ⟨c, hc, h1, h2⟩ := hst_sum_locate hst p hst.length
      (a - ptr_begin (Limits X hst) p) (by omega)
    refine ⟨c, ⟨hc, ?_, ?_⟩, ?_⟩
    · rw [hcur c hc]; omega
    · rw [hend c hc]; omega
    · rintro c2 ⟨hc2, h3, h4⟩
      by_contra hne2
      rcases Nat.lt_or_gt_of_ne hne2 with hlt | hlt
      · have := hord c2 c hlt hc
        rw [hcur c hc] at this
        omega
      · have := hord c c2 hlt hc2
        rw [hend c hc] at this
        omega

/-- C12 on the example histogram: in partition 0 the job of chunk 0 writes to
`[0, 2)` and the job of chunk 1 to `[2, 3)`, which together are the region
`[0, 3)`. -/
theorem C12_disjoint_write_ranges_witness :
    build_iterators ex4 (Limits ex4 hstEx) hstEx = some [[0, 3, 4, 5], [2, 3, 5, 5]] ∧
    (∀ c c2, c < c2 → c2 < hstEx.length →
      cursor_at [[0, 3, 4, 5], [2, 3, 5, 5]] c 0 + hst_at hstEx c 0
        ≤ cursor_at [[0, 3, 4, 5], [2, 3, 5, 5]] c2 0) ∧
    cursor_at [[0, 3, 4, 5], [2, 3, 5, 5]] (hstEx.length - 1) 0
        + hst_at hstEx (hstEx.length - 1) 0
      = ptr_end (Limits ex4 hstEx) 0 :=
  ⟨by decide,
    ((C12_disjoint_write_ranges ex4 hstEx 0 (by decide) (by decide)).2 _ (by decide)).2.2.2.2.1,
    ((C12_disjoint_write_ranges ex4 hstEx 0 (by decide) (by decide)).2 _ (by decide)).2.2.2.1⟩

/-! ## C14: the buckets of a sorted region -/

theorem key_count_split (data : List entry) (b m e k : Nat) (h1 : b ≤ m) (h2 : m ≤ e) :
    key_count data b e k = key_count data b m k + key_count data m e k := by
  unfold key_count
  have hr : List.range' b (e - b) = List.range' b (m - b) ++ List.range' m (e - m) := by
    have := List.range'_append_1 b (m - b) (e - m)
    have e1 : b + (m - b) = m := by omega
    have e2 : e - m + (m - b) = e - b := by omega
    rw [e1, e2] at this
    exact this.symm
  rw [hr, List.filter_append, List.length_append]

theorem key_count_all (data : List entry) (b e k : Nat)
    (h : ∀ x, b ≤ x → x < e → key_at data x = k) : key_count data b e k = e - b := by
  unfold key_count
  rw [List.filter_eq_self.mpr, List.length_range']
  intro x hx
  rw [List.mem_range'_1] at hx
  simp only [decide_eq_true_eq]
  exact h x hx.1 (by omega)

theorem key_count_none (data : List entry) (b e k : Nat)
    (h : ∀ x, b ≤ x → x < e → key_at data x ≠ k) : key_count data b e k = 0 := by
  unfold key_count
  rw [List.length_eq_zero, List.filter_eq_nil_iff]
  intro x hx
  rw [List.mem_range'_1] at hx
  simp only [decide_eq_true_eq]
  exact h x hx.1 (by omega)

/-- In a sorted region the bucket at `i` holds all entries that carry its key. -/
theorem count_eq_key_count (data : List entry) (i e : Nat) (hs : region_sorted data i e)
    (hi : i < e) :
    Iterator_base.count data i e = key_count data i e (key_at data i) := by
  have hle := count_le data i e
  rw [max_eq_right (Nat.le_of_lt hi)] at hle
  rw [key_count_split data i (i + Iterator_base.count data i e) e _ (by omega) hle,
    key_count_all data i (i + Iterator_base.count data i e), key_count_none]
  · omega
  · intro x hx1 hx2
    exact Nat.ne_of_gt (skip_lt data i e hs x hx1 hx2)
  · intro x hx1 hx2
    have := ((count_spec data i e).1 (x - i) (by omega)).2
    have e1 : i + (x - i) = x := by omega
    rwa [e1] at this

theorem Bucketing_sorted (data : List entry) (e b : Nat) (bs : List Iterator_base)
    (h : Bucketing data e b bs) (hs : region_sorted data b e) :
    (bs.map (fun it => it.key data)).Sorted (fun a c => a < c) ∧
    (∀ it, it ∈ bs → it.n = key_count data b e (it.key data)) ∧
    (∀ k, has_key data b e k → ∃ it, it ∈ bs ∧ it.key data = k) := by
  induction bs generalizing b with
  | nil =>
    simp only [Bucketing] at h
    refine ⟨List.sorted_nil, fun it hit => absurd hit (List.not_mem_nil it), ?_⟩
    rintro k ⟨x, hx1, hx2, _⟩
    omega
  | cons hd rest ih =>
    have hall := h
    obtain ⟨hlt, hi, he, hn, hrest⟩ := h
    have hle := count_le data b e
    rw [max_eq_right (Nat.le_of_lt hlt)] at hle
    have hs2 : region_sorted data (b + hd.n) e := region_sorted_mono data b _ e hs (by omega)
    obtain ⟨ih1, ih2, ih3⟩ := ih (b + hd.n) hrest hs2
    have hkey : hd.key data = key_at data b := by simp only [Iterator_base.key, hi]
    have hgt : ∀ it, it ∈ rest → key_at data b < it.key data := by
      intro it hit
      obtain ⟨h1, h2, _⟩ := Bucketing_mem data e _ rest hrest it hit
      rw [hn] at h1
      exact skip_lt data b e hs it.i h1 h2
    refine ⟨?_, ?_, ?_⟩
    · rw [List.map_cons]
      refine List.sorted_cons.mpr ⟨?_, ih1⟩
      intro k hk
      obtain ⟨it, hit, rfl⟩ := List.mem_map.mp hk
      rw [hkey]
      exact hgt it hit
    · intro it hit
      rcases List.mem_cons.mp hit with heq | hmem
      · subst heq
        rw [hkey, hn]
        exact count_eq_key_count data b e hs hlt
      · rw [ih2 it hmem, key_count_split data b (b + hd.n) e _ (by omega) (by rw [hn]; exact hle),
          key_count_none data b (b + hd.n)]
        · omega
        · intro x hx1 hx2
          have := ((count_spec data b e).1 (x - b) (by rw [← hn]; omega)).2
          have e1 : b + (x - b) = x := by omega
          rw [e1] at this
          have := hgt it hmem
          omega
    · rintro k ⟨x, hx1, hx2, hx3⟩
      by_cases hin : x < b + hd.n
      · refine ⟨hd, List.mem_cons_self _ _, ?_⟩
        have := ((count_spec data b e).1 (x - b) (by rw [← hn]; omega)).2
        have e1 : b + (x - b) = x := by omega
        rw [e1] at this
        rw [hkey, ← this, hx3]
      · obtain ⟨it, hit, hk⟩ := ih3 k ⟨x, by omega, hx2, hx3⟩
        exact ⟨it, List.mem_cons_of_mem _ hit, hk⟩

/-- C14: for a region `[b, e)` with non-decreasing keys, iterating with
`Iterator_base` terminates; the successive values of `key()` are strictly
increasing, every key that occurs in the region is the key of exactly one
bucket, and the size `n` of every bucket is the number of entries of the region
that carry its key. -/
theorem C14_sorted_region_buckets (data : List entry) (b e : Nat)
    (hs : region_sorted data b e) :
    ∃ bs, (∀ fuel, e - b < fuel →
        Iterator_base.visit data fuel (Iterator_base.init data b e) = some bs) ∧
      (bs.map (fun it => it.key data)).Sorted (fun a c => a < c) ∧
      (∀ k, has_key data b e k → ∃! it, it ∈ bs ∧ it.key data = k) ∧
      (∀ it, it ∈ bs → has_key data b e (it.key data) ∧
        it.n = key_count data b e (it.key data)) := by
  obtain ⟨bs, hbs, hB⟩ := visit_spec data (e - b + 1) (Iterator_base.init data b e) rfl
    (by simp only [Iterator_base.init]; omega)
  have hB' : Bucketing data e b bs := hB
  obtain ⟨h1, h2, h3⟩ := Bucketing_sorted data e b bs hB' hs
  refine ⟨bs, ?_, h1, ?_, ?_⟩
  · intro fuel hf
    rw [← hbs]
    exact visit_fuel data fuel (e - b + 1) (Iterator_base.init data b e) rfl
      (by simp only [Iterator_base.init]; omega) (by simp only [Iterator_base.init]; omega)
  · intro k hk
    obtain ⟨it, hit, hkey⟩ := h3 k hk
    refine ⟨it, ⟨hit, hkey⟩, ?_⟩
    rintro it2 ⟨hit2, hkey2⟩
    by_contra hne
    have hpw : bs.Pairwise (fun x y : Iterator_base => x.key data ≠ y.key data) := by
      have := List.pairwise_map.mp h1
      exact this.imp (fun h => Nat.ne_of_lt h)
    have := hpw.forall (fun x y h => fun h2 => h h2.symm) hit2 hit hne
    exact this (hkey2.trans hkey.symm)
  · intro it hit
    obtain ⟨hb1, hb2, _⟩ := Bucketing_mem data e b bs hB' it hit
    exact ⟨⟨it.i, hb1, hb2, rfl⟩, h2 it hit⟩

/-- C14, the example of the specification: the keys 5, 5, 2, 9, 2 sorted to
2, 2, 5, 5, 9 yield the buckets (key 2, size 2), (key 5, size 2), (key 9, size 1). -/
theorem C14_sorted_region_buckets_witness :
    std_sort dataEx = dataExSorted ∧
    (Iterator_base.visit dataExSorted 6 (Iterator_base.init dataExSorted 0 5)).map
        (fun bs => bs.map (fun it => (it.key dataExSorted, it.n)))
      = some [(2, 2), (5, 2), (9, 1)] ∧
    region_sorted dataExSorted 0 5 ∧
    ∃ bs, (∀ fuel, 5 - 0 < fuel →
        Iterator_base.visit dataExSorted fuel (Iterator_base.init dataExSorted 0 5) = some bs) ∧
      (bs.map (fun it => it.key dataExSorted)).Sorted (fun a c => a < c) ∧
      (∀ k, has_key dataExSorted 0 5 k → ∃! it, it ∈ bs ∧ it.key dataExSorted = k) ∧
      (∀ it, it ∈ bs → has_key dataExSorted 0 5 (it.key dataExSorted) ∧
        it.n = key_count dataExSorted 0 5 (it.key dataExSorted)) := by
  have hs : region_sorted dataExSorted 0 5 := by
    intro x y _ hxy hy
    interval_cases y <;> interval_cases x <;> decide
  exact ⟨by decide, by decide, hs, C14_sorted_region_buckets dataExSorted 0 5 hs⟩

/-! ## C16: termination of the merge scan -/

theorem next_trace_spec (A B : List entry) (fuel : Nat) (m : Merge_iterator)
    (hiN : m.i.n = Iterator_base.count A m.i.i m.i.end_)
    (hjN : m.j.n = Iterator_base.count B m.j.i m.j.end_)
    (hf : (m.i.end_ - m.i.i) + (m.j.end_ - m.j.i) < fuel) :
    ∃ b m1 tr, Merge_iterator.next A B fuel m = some (b, m1) ∧
      Merge_iterator.next_trace A B fuel m = some tr ∧
      tr.head? = some m ∧ tr.getLast? = some m1 ∧
      List.Chain' (Merge_iterator.advances A B) tr ∧
      (b = false ↔ (m1.i.at_end = true ∨ m1.j.at_end = true)) := by
  induction fuel generalizing m with
  | zero => omega
  | succ fuel ih =>
    unfold Merge_iterator.next Merge_iterator.next_trace
    by_cases hends : m.i.at_end = false ∧ m.j.at_end = false
    · rw [if_pos hends, if_pos hends]
      have hi : m.i.i < m.i.end_ := by
        have := hends.1; simp [Iterator_base.at_end] at this; exact this
      have hj : m.j.i < m.j.end_ := by
        have := hends.2; simp [Iterator_base.at_end] at this; exact this
      have hposA := count_pos A m.i.i m.i.end_ hi
      have hposB := count_pos B m.j.i m.j.end_ hj
      by_cases h1 : m.i.key A < m.j.key B
      · rw [if_pos h1, if_pos h1]
        obtain ⟨b, m1, tr, hnext, htr, hhead, hlast, hchain, hflag⟩ :=
          ih { m with i := m.i.inc A } rfl hjN
            (by simp only [Iterator_base.inc]; omega)
        refine ⟨b, m1, m :: tr, hnext, by rw [htr]; rfl, rfl, ?_, ?_, hflag⟩
        · cases tr with
          | nil => cases hhead
          | cons t ts => rw [List.getLast?_cons_cons]; exact hlast
        · refine List.chain'_cons'.mpr ⟨?_, hchain⟩
          intro y hy
          rw [hhead] at hy
          have hy' : y = { m with i := m.i.inc A } := (Option.some.inj hy).symm
          subst hy'
          exact Or.inl ⟨h1, rfl, rfl, hiN, by omega, rfl⟩
      · rw [if_neg h1, if_neg h1]
        by_cases h2 : m.j.key B < m.i.key A
        · rw [if_pos h2, if_pos h2]
          obtain ⟨b, m1, tr, hnext, htr, hhead, hlast, hchain, hflag⟩ :=
            ih { m with j := m.j.inc B } hiN rfl
              (by simp only [Iterator_base.inc]; omega)
          refine ⟨b, m1, m :: tr, hnext, by rw [htr]; rfl, rfl, ?_, ?_, hflag⟩
          · cases tr with
            | nil => cases hhead
            | cons t ts => rw [List.getLast?_cons_cons]; exact hlast
          · refine List.chain'_cons'.mpr ⟨?_, hchain⟩
            intro y hy
            rw [hhead] at hy
            have hy' : y = { m with j := m.j.inc B } := (Option.some.inj hy).symm
            subst hy'
            exact Or.inr ⟨h2, rfl, rfl, hjN, by omega, rfl⟩
        · rw [if_neg h2, if_neg h2]
          refine ⟨true, m, [m], rfl, rfl, rfl, rfl, List.chain'_singleton _, ?_⟩
          constructor
          · intro h; cases h
          · intro h
            rcases h with h | h
            · rw [hends.1] at h; cases h
            · rw [hends.2] at h; cases h
    · rw [if_neg hends, if_neg hends]
      refine ⟨false, m, [m], rfl, rfl, rfl, rfl, List.chain'_singleton _, ?_⟩
      constructor
      · intro _
        by_contra hcon
        apply hends
        push_neg at hcon
        exact ⟨by simpa using hcon.1, by simpa using hcon.2⟩
      · intro _; rfl

/-- C16: for two iterators with a consistent bucket size over any two regions
(sorted or not), `next()` returns within as many loop steps as entries remain
in the two regions.  Each loop step advances exactly one iterator, the one with
the smaller key, past its whole current bucket; the flag returned is false
exactly when at least one iterator is at its end on return; and a call with an
iterator already at its end returns false at once and moves neither iterator. -/
theorem C16_merge_scan_termination (A B : List entry) (m : Merge_iterator) (fuel : Nat)
    (hiN : m.i.n = Iterator_base.count A m.i.i m.i.end_)
    (hjN : m.j.n = Iterator_base.count B m.j.i m.j.end_)
    (hf : (m.i.end_ - m.i.i) + (m.j.end_ - m.j.i) < fuel) :
    ∃ b m1 tr, Merge_iterator.next A B fuel m = some (b, m1) ∧
      Merge_iterator.next_trace A B fuel m = some tr ∧
      tr.head? = some m ∧ tr.getLast? = some m1 ∧
      List.Chain' (Merge_iterator.advances A B) tr ∧
      (b = false ↔ (m1.i.at_end = true ∨ m1.j.at_end = true)) ∧
      ((m.i.at_end = true ∨ m.j.at_end = true) → b = false ∧ m1 = m ∧ tr = [m]) := by
  obtain ⟨b, m1, tr, hnext, htr, hhead, hlast, hchain, hflag⟩ :=
    next_trace_spec A B fuel m hiN hjN hf
  refine ⟨b, m1, tr, hnext, htr, hhead, hlast, hchain, hflag, ?_⟩
  intro hend
  have hne : ¬ (m.i.at_end = false ∧ m.j.at_end = false) := by
    rintro ⟨h1, h2⟩
    rcases hend with h | h
    · rw [h1] at h; cases h
    · rw [h2] at h; cases h
  cases fuel with
  | zero => omega
  | succ fuel =>
    unfold Merge_iterator.next at hnext
    unfold Merge_iterator.next_trace at htr
    rw [if_neg hne] at hnext htr
    have h1 := Option.some.inj hnext
    have h2 := Option.some.inj htr
    exact ⟨(congrArg Prod.fst h1).symm, (congrArg Prod.snd h1).symm, h2.symm⟩

/-- C16 on two unsorted regions: the scan over the keys 5, 5, 2, 9, 2 and
2, 3, 7, 7 moves `j` past the key 2, `j` past the key 3, `i` past the bucket
5, 5, `i` past the key 2, then `j` past the bucket 7, 7, which ends the scan. -/
theorem C16_merge_scan_termination_witness :
    Merge_iterator.next_trace dataEx mergeB 10
        ⟨Iterator_base.init dataEx 0 5, Iterator_base.init mergeB 0 4⟩
      = some [⟨⟨0, 5, 2⟩, ⟨0, 4, 1⟩⟩, ⟨⟨0, 5, 2⟩, ⟨1, 4, 1⟩⟩, ⟨⟨0, 5, 2⟩, ⟨2, 4, 2⟩⟩,
          ⟨⟨2, 5, 1⟩, ⟨2, 4, 2⟩⟩, ⟨⟨3, 5, 1⟩, ⟨2, 4, 2⟩⟩, ⟨⟨3, 5, 1⟩, ⟨4, 4, 0⟩⟩] ∧
    ∃ b m1 tr, Merge_iterator.next dataEx mergeB 10
        ⟨Iterator_base.init dataEx 0 5, Iterator_base.init mergeB 0 4⟩ = some (b, m1) ∧
      Merge_iterator.next_trace dataEx mergeB 10
        ⟨Iterator_base.init dataEx 0 5, Iterator_base.init mergeB 0 4⟩ = some tr ∧
      List.Chain' (Merge_iterator.advances dataEx mergeB) tr ∧
      (b = false ↔ (m1.i.at_end = true ∨ m1.j.at_end = true)) :=
  ⟨by decide,
    (C16_merge_scan_termination dataEx mergeB
      ⟨Iterator_base.init dataEx 0 5, Iterator_base.init mergeB 0 4⟩ 10 rfl rfl
      (by decide)).imp (fun _ h => h.imp (fun _ h => h.imp (fun _ h =>
        ⟨h.1, h.2.1, h.2.2.2.2.1, h.2.2.2.2.2.1⟩)))⟩

/-! ## C15: the buckets exposed at a match -/

theorem boundary_start (data : List entry) (b e : Nat) : bucket_boundary data b e b :=
  ⟨le_refl _, fun x y h1 h2 _ _ => by omega⟩

theorem inc_boundary (data : List entry) (b e i : Nat) (hs : region_sorted data b e)
    (hb : bucket_boundary data b e i) :
    bucket_boundary data b e (i + Iterator_base.count data i e) := by
  obtain ⟨hbi, hlt⟩ := hb
  refine ⟨by omega, ?_⟩
  intro x y hx1 hx2 hy1 hy2
  by_cases hxi : x < i
  · exact hlt x y hx1 hxi (by omega) hy2
  · have hk := ((count_spec data i e).1 (x - i) (by omega)).2
    have e1 : i + (x - i) = x := by omega
    rw [e1] at hk
    rw [hk]
    exact skip_lt data i e (region_sorted_mono data b i e hs hbi) y hy1 hy2

/-- At a bucket boundary of a sorted region the bucket size is the number of
entries of the whole region that carry the key. -/
theorem boundary_count (data : List entry) (b e i : Nat) (hs : region_sorted data b e)
    (hb : bucket_boundary data b e i) (hi : i < e) :
    Iterator_base.count data i e = key_count data b e (key_at data i) := by
  obtain ⟨hbi, hlt⟩ := hb
  rw [key_count_split data b i e _ hbi (Nat.le_of_lt hi), key_count_none data b i,
    count_eq_key_count data i e (region_sorted_mono data b i e hs hbi) hi]
  · omega
  · intro x hx1 hx2
    exact Nat.ne_of_lt (hlt x i hx1 hx2 (le_refl _) hi)

theorem next_boundary (A B : List entry) (bA eA bB eB : Nat)
    (hsA : region_sorted A bA eA) (hsB : region_sorted B bB eB)
    (fuel : Nat) (m : Merge_iterator)
    (hiE : m.i.end_ = eA) (hjE : m.j.end_ = eB)
    (hiN : m.i.n = Iterator_base.count A m.i.i eA)
    (hjN : m.j.n = Iterator_base.count B m.j.i eB)
    (hbi : bucket_boundary A bA eA m.i.i) (hbj : bucket_boundary B bB eB m.j.i)
    (b : Bool) (m1 : Merge_iterator) (hr : Merge_iterator.next A B fuel m = some (b, m1)) :
    m1.i.end_ = eA ∧ m1.j.end_ = eB ∧
    m1.i.n = Iterator_base.count A m1.i.i eA ∧ m1.j.n = Iterator_base.count B m1.j.i eB ∧
    bucket_boundary A bA eA m1.i.i ∧ bucket_boundary B bB eB m1.j.i ∧
    (b = true → m1.i.i < eA ∧ m1.j.i < eB ∧ m1.i.key A = m1.j.key B) := by
  induction fuel generalizing m with
  | zero => simp [Merge_iterator.next] at hr
  | succ fuel ih =>
    unfold Merge_iterator.next at hr
    by_cases hends : m.i.at_end = false ∧ m.j.at_end = false
    · rw [if_pos hends] at hr
      have hi : m.i.i < eA := by
        have := hends.1; simp [Iterator_base.at_end, hiE] at this; exact this
      have hj : m.j.i < eB := by
        have := hends.2; simp [Iterator_base.at_end, hjE] at this; exact this
      by_cases h1 : m.i.key A < m.j.key B
      · rw [if_pos h1] at hr
        refine ih { m with i := m.i.inc A } (by simp [Iterator_base.inc, hiE]) hjE
          (by simp [Iterator_base.inc, hiE]) hjN ?_ hbj hr
        simp only [Iterator_base.inc, hiN]
        exact inc_boundary A bA eA m.i.i hsA hbi
      · rw [if_neg h1] at hr
        by_cases h2 : m.j.key B < m.i.key A
        · rw [if_pos h2] at hr
          refine ih { m with j := m.j.inc B } hiE (by simp [Iterator_base.inc, hjE]) hiN
            (by simp [Iterator_base.inc, hjE]) hbi ?_ hr
          simp only [Iterator_base.inc, hjN]
          exact inc_boundary B bB eB m.j.i hsB hbj
        · rw [if_neg h2] at hr
          have h := Option.some.inj hr
          have hb : true = b := congrArg Prod.fst h
          have hm : m = m1 := congrArg Prod.snd h
          subst hm
          refine ⟨hiE, hjE, hiN, hjN, hbi, hbj, fun _ => ⟨hi, hj, by omega⟩⟩
    · rw [if_neg hends] at hr
      have h := Option.some.inj hr
      have hb : false = b := congrArg Prod.fst h
      have hm : m = m1 := congrArg Prod.snd h
      subst hm
      subst hb
      exact ⟨hiE, hjE, hiN, hjN, hbi, hbj, fun h => by cases h⟩

theorem matches_spec (A B : List entry) (bA eA bB eB : Nat)
    (hsA : region_sorted A bA eA) (hsB : region_sorted B bB eB)
    (fuel : Nat) (m : Merge_iterator)
    (hiE : m.i.end_ = eA) (hjE : m.j.end_ = eB)
    (hiN : m.i.n = Iterator_base.count A m.i.i eA)
    (hjN : m.j.n = Iterator_base.count B m.j.i eB)
    (hbi : bucket_boundary A bA eA m.i.i) (hbj : bucket_boundary B bB eB m.j.i)
    (hf : (eA - m.i.i) + (eB - m.j.i) < fuel) :
    ∃ ms, Merge_iterator.matches A B fuel m = some ms ∧
      Merge_iterator.report A B fuel m = some (ms.map (fun m1 => m1.i.key A)) ∧
      ∀ m1, m1 ∈ ms →
        m1.i.at_end = false ∧ m1.j.at_end = false ∧ m1.i.key A = m1.j.key B ∧
        m1.i.n = key_count A bA eA (m1.i.key A) ∧
        m1.j.n = key_count B bB eB (m1.j.key B) := by
  induction fuel generalizing m with
  | zero => omega
  | succ fuel ih =>
    obtain ⟨b, m1, tr, hnext, _, _, _, _, _⟩ := next_trace_spec A B (fuel + 1) m
      (by rw [hiE]; exact hiN) (by rw [hjE]; exact hjN) (by rw [hiE, hjE]; exact hf)
    obtain ⟨g1, g2, g3, g4, g5, g6, g7⟩ := next_boundary A B bA eA bB eB hsA hsB (fuel + 1) m
      hiE hjE hiN hjN hbi hbj b m1 hnext
    have hmono := next_spec A B eA eB (fuel + 1) m hiE hjE hiN hjN
      (region_sorted_mono A bA _ eA hsA hbi.1) (region_sorted_mono B bB _ eB hsB hbj.1) hf
    unfold Merge_iterator.matches Merge_iterator.report
    rw [hnext]
    cases b with
    | false => exact ⟨[], rfl, rfl, fun m1 h => absurd h (List.not_mem_nil m1)⟩
    | true =>
      obtain ⟨hi, hj, hkeq⟩ := g7 rfl
      have hposA := count_pos A m1.i.i eA hi
      have hposB := count_pos B m1.j.i eB hj
      obtain ⟨b2, m2, hnext2, _, _, _, _, k5, k6, _⟩ := hmono
      rw [hnext] at hnext2
      have hm2 : m1 = m2 := congrArg Prod.snd (Option.some.inj hnext2)
      subst hm2
      obtain ⟨ms, hms, hrep, hall⟩ := ih (m1.inc A B)
        (by simp [Merge_iterator.inc, Iterator_base.inc, g1])
        (by simp [Merge_iterator.inc, Iterator_base.inc, g2])
        (by simp [Merge_iterator.inc, Iterator_base.inc, g1])
        (by simp [Merge_iterator.inc, Iterator_base.inc, g2])
        (by
          simp only [Merge_iterator.inc, Iterator_base.inc, g3]
          exact inc_boundary A bA eA m1.i.i hsA g5)
        (by
          simp only [Merge_iterator.inc, Iterator_base.inc, g4]
          exact inc_boundary B bB eB m1.j.i hsB g6)
        (by simp only [Merge_iterator.inc, Iterator_base.inc]; omega)
      refine ⟨m1 :: ms, by simp only [hms]; rfl, by simp only [hrep]; rfl, ?_⟩
      intro x hx
      rcases List.mem_cons.mp hx with heq | hmem
      · subst heq
        refine ⟨by simp [Iterator_base.at_end, g1, hi], by simp [Iterator_base.at_end, g2, hj],
          hkeq, ?_, ?_⟩
        · rw [g3]
          exact boundary_count A bA eA x.i.i hsA g5 hi
        · rw [g4]
          exact boundary_count B bB eB x.j.i hsB g6 hj
      · exact hall x hmem

/-- C15: let the keys of the regions `[bA, eA)` of `A` and `[bB, eB)` of `B` be
non-decreasing and run the protocol "while `next()` returns true: use the
match, then `operator++`" from the two grouped iterators.  In every state in
which `next()` returned true neither iterator is at its end, `i.key()` equals
`j.key()`, `i.n` is the number of entries of A that carry this key and `j.n`
the number of entries of B that carry it; the keys of these states are the
keys reported. -/
theorem C15_exposed_buckets (A B : List entry) (bA eA bB eB : Nat)
    (hA : region_sorted A bA eA) (hB : region_sorted B bB eB) (fuel : Nat)
    (hf : (eA - bA) + (eB - bB) < fuel) :
    ∃ ms, Merge_iterator.matches A B fuel
        ⟨Iterator_base.init A bA eA, Iterator_base.init B bB eB⟩ = some ms ∧
      Merge_iterator.report A B fuel
        ⟨Iterator_base.init A bA eA, Iterator_base.init B bB eB⟩
        = some (ms.map (fun m1 => m1.i.key A)) ∧
      ∀ m1, m1 ∈ ms →
        m1.i.at_end = false ∧ m1.j.at_end = false ∧ m1.i.key A = m1.j.key B ∧
        m1.i.n = key_count A bA eA (m1.i.key A) ∧
        m1.j.n = key_count B bB eB (m1.j.key B) :=
  matches_spec A B bA eA bB eB hA hB fuel
    ⟨Iterator_base.init A bA eA, Iterator_base.init B bB eB⟩ rfl rfl rfl rfl
    (boundary_start A bA eA) (boundary_start B bB eB) hf

/-- C15, the example of the specification: A keys 1, 3, 3, 7 and B keys
2, 3, 7, 7 give the bucket sizes (2, 1) at key 3 and (1, 2) at key 7. -/
theorem C15_exposed_buckets_witness :
    (Merge_iterator.matches mergeA mergeB 9
        ⟨Iterator_base.init mergeA 0 4, Iterator_base.init mergeB 0 4⟩).map
        (fun ms => ms.map (fun m1 => (m1.i.key mergeA, m1.i.n, m1.j.n)))
      = some [(3, 2, 1), (7, 1, 2)] ∧
    ∃ ms, Merge_iterator.matches mergeA mergeB 9
        ⟨Iterator_base.init mergeA 0 4, Iterator_base.init mergeB 0 4⟩ = some ms ∧
      ∀ m1, m1 ∈ ms →
        m1.i.at_end = false ∧ m1.j.at_end = false ∧ m1.i.key mergeA = m1.j.key mergeB ∧
        m1.i.n = key_count mergeA 0 4 (m1.i.key mergeA) ∧
        m1.j.n = key_count mergeB 0 4 (m1.j.key mergeB) := by
  have hA : region_sorted mergeA 0 4 := by
    intro x y _ hxy hy
    interval_cases y <;> interval_cases x <;> decide
  have hB : region_sorted mergeB 0 4 := by
    intro x y _ hxy hy
    interval_cases y <;> interval_cases x <;> decide
  exact ⟨by decide,
    (C15_exposed_buckets mergeA mergeB 0 4 0 4 hA hB 9 (by decide)).imp
      (fun _ h => ⟨h.1, h.2.2⟩)⟩

/-! ## C17: the windows enumerated by `build_seqp` -/

theorem window_events_eq (X : Ext) (i : Nat) (js : List Nat) :
    build_seqp.window_events X i js
      = js.flatMap (fun j => build_event.call i j ::
          ((X.set_seed (X.seqs i) j).map
            (fun key => build_event.push key (X.position i j))).toList) := by
  induction js with
  | nil => rfl
  | cons j js ih =>
    unfold build_seqp.window_events
    rw [List.flatMap_cons, ← ih]
    cases X.set_seed (X.seqs i) j <;> rfl

theorem window_events_pushes (X : Ext) (i : Nat) (js : List Nat) :
    pushes_of (build_seqp.window_events X i js)
      = js.filterMap (fun j =>
          (X.set_seed (X.seqs i) j).map (fun key => (key, X.position i j))) := by
  induction js with
  | nil => rfl
  | cons j js ih =>
    unfold build_seqp.window_events
    cases h : X.set_seed (X.seqs i) j with
    | none =>
      simp only [List.filterMap_cons, h, Option.map_none', pushes_of] at ih ⊢
      exact ih
    | some key =>
      simp only [List.filterMap_cons, h, Option.map_some', pushes_of] at ih ⊢
      rw [ih]

theorem window_events_calls (X : Ext) (i : Nat) (js : List Nat) :
    calls_of (build_seqp.window_events X i js) = js.map (fun j => (i, j)) := by
  induction js with
  | nil => rfl
  | cons j js ih =>
    unfold build_seqp.window_events
    cases h : X.set_seed (X.seqs i) j with
    | none =>
      simp only [List.filterMap_cons, calls_of, List.map_cons] at ih ⊢
      rw [ih]
    | some key =>
      simp only [List.filterMap_cons, calls_of, List.map_cons] at ih ⊢
      rw [ih]

theorem pushes_of_append (l1 l2 : List build_event) :
    pushes_of (l1 ++ l2) = pushes_of l1 ++ pushes_of l2 := by
  simp [pushes_of]

theorem seq_events_pushes (X : Ext) (is : List Nat) :
    pushes_of (build_seqp.seq_events X is) = is.flatMap (window_seeds X) := by
  induction is with
  | nil => rfl
  | cons i is ih =>
    unfold build_seqp.seq_events
    rw [List.flatMap_cons]
    by_cases h : (X.seqs i).length < X.length_
    · rw [if_pos h, ih]
      simp [window_seeds, h]
    · rw [if_neg h, pushes_of_append, ih, window_events_pushes]
      simp [window_seeds, h]

theorem seq_events_cons (X : Ext) (i : Nat) (is : List Nat) :
    build_seqp.seq_events X (i :: is)
      = build_seqp.seq_events X [i] ++ build_seqp.seq_events X is := by
  by_cases h : (X.seqs i).length < X.length_
  · simp [h, build_seqp.seq_events]
  · simp [h, build_seqp.seq_events]

theorem seq_events_flatMap (X : Ext) (is : List Nat) :
    build_seqp.seq_events X is = is.flatMap (fun i => build_seqp.seq_events X [i]) := by
  induction is with
  | nil => rfl
  | cons i is ih =>
    rw [List.flatMap_cons, ← ih, seq_events_cons]

/-- C17: for every chunk `[begin, end)` the `push` calls executed by the loops
of `build_seqp` are those of its event trace, and the trace is made up
sequence by sequence in the order `begin, ..., end - 1`.  A sequence of length
`L < k = sh.length_` contributes no event, so no window of it is examined and
`L - k + 1` is only computed when `k ≤ L`.  A sequence of length `L ≥ k` has
`set_seed` called on the positions `0, 1, ..., L - k`, each once and in that
order, and each call that succeeds is followed at once by the push of
`(key, seqs.position(i, j))`; there is no other push. -/
theorem C17_window_enumeration (X : Ext) (begin_ end_ : Nat) :
    (∀ st, build_seqp.seq_loop X (List.range' begin_ (end_ - begin_)) st
      = push_list X (pushes_of (build_seqp.events X begin_ end_)) st) ∧
    build_seqp.events X begin_ end_
      = (List.range' begin_ (end_ - begin_)).flatMap
          (fun i => build_seqp.seq_events X [i]) ∧
    ∀ i,
      ((X.seqs i).length < X.length_ → build_seqp.seq_events X [i] = []) ∧
      (X.length_ ≤ (X.seqs i).length →
        ((X.seqs i).length - X.length_) + X.length_ = (X.seqs i).length ∧
        build_seqp.seq_events X [i]
          = (List.range ((X.seqs i).length - X.length_ + 1)).flatMap
              (fun j => build_event.call i j ::
                ((X.set_seed (X.seqs i) j).map
                  (fun key => build_event.push key (X.position i j))).toList) ∧
        calls_of (build_seqp.seq_events X [i])
          = (List.range ((X.seqs i).length - X.length_ + 1)).map (fun j => (i, j)) ∧
        pushes_of (build_seqp.seq_events X [i])
          = (List.range ((X.seqs i).length - X.length_ + 1)).filterMap
              (fun j => (X.set_seed (X.seqs i) j).map (fun key => (key, X.position i j)))) := by
  refine ⟨?_, seq_events_flatMap X _, ?_⟩
  · intro st
    rw [seq_loop_eq, build_seqp.events, seq_events_pushes]
  · intro i
    constructor
    · intro h
      simp [build_seqp.seq_events, h]
    · intro h
      have hn : ¬ (X.seqs i).length < X.length_ := by omega
      have he : build_seqp.seq_events X [i]
          = build_seqp.window_events X i (List.range ((X.seqs i).length - X.length_ + 1)) := by
        simp [build_seqp.seq_events, hn]
      refine ⟨by omega, ?_, ?_, ?_⟩
      · rw [he, window_events_eq]
      · rw [he, window_events_calls]
      · rw [he, window_events_pushes]

/-- C17 on the build example, with a shape of length 3: the sequences 0, 1 and
3 are shorter than the shape and skipped; sequence 2 of length 3 has the single
window position 0. -/
theorem C17_window_enumeration_witness :
    build_seqp.events { ex4 with length_ := 3, set_seed := fun seq j => seq.get? (j + 2) } 0 4
      = [build_event.call 2 0, build_event.push 3 200] ∧
    build_seqp.events ex4 2 4
      = [build_event.call 2 0, build_event.push 16 200, build_event.call 2 1,
          build_event.push 13 201, build_event.call 2 2, build_event.push 3 202,
          build_event.call 3 0, build_event.push 27 300, build_event.call 3 1,
          build_event.push 15 301] ∧
    calls_of (build_seqp.seq_events ex4 [2]) = [(2, 0), (2, 1), (2, 2)] :=
  ⟨by decide, by decide,
    by
      have h := ((C17_window_enumeration ex4 2 4).2.2 2).2 (by decide)
      rw [h.2.2.1]
      decide⟩

/-! ## C19: the fill counters of the write buffers -/

theorem flush_p_some (st st2 : build_state) (p : Nat)
    (h : buffered_iterator.flush_p st p = some st2) : st2.2 = st.2.flushed p := by
  unfold buffered_iterator.flush_p at h
  cases hs : store st.1 (st.2.ptr p) ((List.range (st.2.n p)).map (st.2.buf p)) with
  | none => rw [hs] at h; cases h
  | some d =>
    rw [hs] at h
    rw [← Option.some.inj h]

theorem flushed_n_lt (it : buffered_iterator) (p : Nat) (h : ∀ q, it.n q < BUFFER_SIZE) :
    ∀ q, (it.flushed p).n q < BUFFER_SIZE := by
  intro q
  by_cases hq : q = p
  · subst hq
    rw [flushed_n_same]
    decide
  · rw [flushed_n_other it p q hq]
    exact h q

/-- What a successful `push` does to the counters and cursors. -/
theorem push_cursor (X : Ext) (st st2 : build_state) (kv : Nat × Nat)
    (hn : ∀ p, st.2.n p < BUFFER_SIZE)
    (h : buffered_iterator.push X st kv.1 kv.2 = some st2) :
    (∀ p, st2.2.n p < BUFFER_SIZE) ∧
    (∀ p, X.contains p = false → st2.2.n p = st.2.n p) ∧
    (∀ p, X.contains p = true →
      st2.2.ptr p + st2.2.n p = st.2.ptr p + st.2.n p + (partition_entries X [kv] p).length) ∧
    (∀ p, X.contains p = false → st2.2.ptr p = st.2.ptr p) ∧
    (X.contains (X.seed_partition kv.1) = true →
      X.seed_partition kv.1 < X.seedp ∧
      (st.2.put (X.seed_partition kv.1) (seed_entry X kv)).n (X.seed_partition kv.1)
        = st.2.n (X.seed_partition kv.1) + 1) := by
  unfold buffered_iterator.push at h
  by_cases hc : X.contains (X.seed_partition kv.1) = true
  · rw [if_pos hc] at h
    by_cases hb : X.seed_partition kv.1 < X.seedp ∧ st.2.n (X.seed_partition kv.1) < BUFFER_SIZE
    · rw [if_pos hb] at h
      have hput := put_n_same st.2 (X.seed_partition kv.1) (seed_entry X kv) hb.2
      have hptr : ∀ p, (st.2.put (X.seed_partition kv.1) (seed_entry X kv)).ptr p = st.2.ptr p :=
        fun _ => rfl
      have hinact : ∀ p, X.contains p = false → p ≠ X.seed_partition kv.1 := by
        intro p hp hpe
        rw [hpe] at hp
        rw [hp] at hc
        cases hc
      change (if (st.2.put (X.seed_partition kv.1) (seed_entry X kv)).n (X.seed_partition kv.1)
          = BUFFER_SIZE then
        buffered_iterator.flush_p (st.1, st.2.put (X.seed_partition kv.1) (seed_entry X kv))
          (X.seed_partition kv.1)
        else some (st.1, st.2.put (X.seed_partition kv.1) (seed_entry X kv))) = some st2 at h
      by_cases hfull : (st.2.put (X.seed_partition kv.1) (seed_entry X kv)).n
          (X.seed_partition kv.1) = BUFFER_SIZE
      · rw [if_pos hfull] at h
        have hst2 := flush_p_some _ _ _ h
        simp only at hst2
        rw [hst2]
        refine ⟨?_, ?_, ?_, ?_, fun _ => ⟨hb.1, hput⟩⟩
        · intro q
          by_cases hq : q = X.seed_partition kv.1
          · subst hq
            rw [flushed_n_same]
            decide
          · rw [flushed_n_other _ _ _ hq, put_n_other st.2 _ q _ hq]
            exact hn q
        · intro p hp
          have hne := hinact p hp
          rw [flushed_n_other _ _ _ hne, put_n_other st.2 _ p _ hne]
        · intro p _
          rw [partition_entries_single]
          by_cases hp : p = X.seed_partition kv.1
          · subst hp
            rw [flushed_ptr_same, flushed_n_same, hptr, hput, if_pos rfl]
            simp only [List.length_singleton]
            omega
          · have hp' : ¬ X.seed_partition kv.1 = p := fun h => hp h.symm
            rw [flushed_ptr_other _ _ _ hp, flushed_n_other _ _ _ hp, hptr,
              put_n_other st.2 _ p _ hp, if_neg hp']
            simp
        · intro p hp
          rw [flushed_ptr_other _ _ _ (hinact p hp), hptr]
      · rw [if_neg hfull] at h
        have hst2 : st2.2 = st.2.put (X.seed_partition kv.1) (seed_entry X kv) := by
          rw [← Option.some.inj h]
        rw [hst2]
        refine ⟨?_, ?_, ?_, ?_, fun _ => ⟨hb.1, hput⟩⟩
        · intro p
          by_cases hp : p = X.seed_partition kv.1
          · subst hp
            rw [hput] at hfull ⊢
            have := hb.2
            unfold BUFFER_SIZE at *
            omega
          · rw [put_n_other st.2 _ p _ hp]
            exact hn p
        · intro p hp
          rw [put_n_other st.2 _ p _ (hinact p hp)]
        · intro p _
          rw [partition_entries_single, hptr]
          by_cases hp : p = X.seed_partition kv.1
          · subst hp
            rw [hput, if_pos rfl]
            simp only [List.length_singleton]
            omega
          · have hp' : ¬ X.seed_partition kv.1 = p := fun h => hp h.symm
            simp [hp', put_n_other st.2 _ p _ hp]
        · intro p _
          rw [hptr]
    · rw [if_neg hb] at h
      cases h
  · rw [if_neg hc] at h
    have hst2 : st2 = st := (Option.some.inj h).symm
    subst hst2
    have hc' : X.contains (X.seed_partition kv.1) = false := by simpa using hc
    refine ⟨hn, fun _ _ => rfl, ?_, fun _ _ => rfl, fun h => absurd h hc⟩
    intro p hp
    have hne : ¬ X.seed_partition kv.1 = p := by
      intro h; rw [h] at hc; exact hc hp
    simp [partition_entries_single, hne]

theorem flush_loop_n_lt (qs : List Nat) (st st2 : build_state)
    (hn : ∀ p, st.2.n p < BUFFER_SIZE)
    (h : buffered_iterator.flush_loop qs st = some st2) : ∀ p, st2.2.n p < BUFFER_SIZE := by
  induction qs generalizing st with
  | nil =>
    simp only [buffered_iterator.flush_loop] at h
    rw [← Option.some.inj h]
    exact hn
  | cons q rest ih =>
    unfold buffered_iterator.flush_loop at h
    by_cases hpos : 0 < st.2.n q
    · rw [if_pos hpos] at h
      cases hf : buffered_iterator.flush_p st q with
      | none => rw [hf] at h; cases h
      | some st1 =>
        rw [hf, Option.some_bind] at h
        refine ih st1 ?_ h
        rw [flush_p_some st st1 q hf]
        exact flushed_n_lt st.2 q hn
    · rw [if_neg hpos] at h
      exact ih st hn h

theorem push_list_n_lt (X : Ext) (ps : List (Nat × Nat)) (st st2 : build_state)
    (hn : ∀ p, st.2.n p < BUFFER_SIZE) (h : push_list X ps st = some st2) :
    ∀ p, st2.2.n p < BUFFER_SIZE := by
  induction ps generalizing st with
  | nil =>
    simp only [push_list] at h
    rw [← Option.some.inj h]
    exact hn
  | cons kv ps ih =>
    simp only [push_list] at h
    cases hp : buffered_iterator.push X st kv.1 kv.2 with
    | none => rw [hp] at h; cases h
    | some st1 =>
      rw [hp, Option.some_bind] at h
      exact ih st1 (push_cursor X st st1 kv hn hp).1 h

/-- C19: `n[p] < BUFFER_SIZE` holds for every partition after construction and
is kept by every `push`, every `flush(p)` and `flush()`, hence after any
sequence of pushes on a fresh `buffered_iterator`.  Under it the assertion of
`push` holds, the store index `n[p]` is below 16, and the 8-bit counter is
incremented without wrapping; a `push` can then only fail because the
partition is no index of the arrays or because the flush of the full write
buffer would run past the end of the shared buffer. -/
theorem C19_fill_invariant (X : Ext) :
    (∀ ptr p, (buffered_iterator.init ptr).n p < BUFFER_SIZE) ∧
    (∀ st key value st2, (∀ p, st.2.n p < BUFFER_SIZE) →
      buffered_iterator.push X st key value = some st2 → ∀ p, st2.2.n p < BUFFER_SIZE) ∧
    (∀ st q st2, (∀ p, st.2.n p < BUFFER_SIZE) →
      buffered_iterator.flush_p st q = some st2 → ∀ p, st2.2.n p < BUFFER_SIZE) ∧
    (∀ st st2, (∀ p, st.2.n p < BUFFER_SIZE) →
      buffered_iterator.flush X st = some st2 → ∀ p, st2.2.n p < BUFFER_SIZE) ∧
    (∀ ps ptr data st, push_list X ps (data, buffered_iterator.init ptr) = some st →
      ∀ p, st.2.n p < BUFFER_SIZE) ∧
    (∀ (st : build_state) p e, (∀ q, st.2.n q < BUFFER_SIZE) →
      st.2.n p < BUFFER_SIZE ∧ st.2.n p + 1 < 256 ∧ (st.2.put p e).n p = st.2.n p + 1 ∧
      (st.2.put p e).n p ≤ BUFFER_SIZE) ∧
    (∀ st key value, (∀ p, st.2.n p < BUFFER_SIZE) →
      buffered_iterator.push X st key value = none →
      X.contains (X.seed_partition key) = true ∧
      (¬ X.seed_partition key < X.seedp ∨
        (st.2.n (X.seed_partition key) + 1 = BUFFER_SIZE ∧
          st.1.length < st.2.ptr (X.seed_partition key) + BUFFER_SIZE))) := by
  refine ⟨?_, ?_, ?_, ?_, ?_, ?_, ?_⟩
  · intro ptr p
    simp [buffered_iterator.init, BUFFER_SIZE]
  · intro st key value st2 hn h
    exact (push_cursor X st st2 (key, value) hn h).1
  · intro st q st2 hn h
    rw [flush_p_some st st2 q h]
    exact flushed_n_lt st.2 q hn
  · intro st st2 hn h
    exact flush_loop_n_lt (List.range X.seedp) st st2 hn h
  · intro ps ptr data st h
    exact push_list_n_lt X ps _ st (fun _ => by simp [buffered_iterator.init, BUFFER_SIZE]) h
  · intro st p e hn
    have h := hn p
    have hput := put_n_same st.2 p e h
    refine ⟨h, ?_, hput, ?_⟩
    · unfold BUFFER_SIZE at h; omega
    · rw [hput]; omega
  · intro st key value hn h
    unfold buffered_iterator.push at h
    by_cases hc : X.contains (X.seed_partition key) = true
    · refine ⟨hc, ?_⟩
      rw [if_pos hc] at h
      by_cases hlt : X.seed_partition key < X.seedp
      · right
        rw [if_pos ⟨hlt, hn _⟩] at h
        have hput := put_n_same st.2 (X.seed_partition key)
          ⟨X.seed_partition_offset key, value⟩ (hn _)
        by_cases hfull : (st.2.put (X.seed_partition key)
            ⟨X.seed_partition_offset key, value⟩).n (X.seed_partition key) = BUFFER_SIZE
        · rw [if_pos hfull] at h
          rw [hput] at hfull
          refine ⟨hfull, ?_⟩
          by_contra hcap
          have hcap' : (st.2.put (X.seed_partition key)
                ⟨X.seed_partition_offset key, value⟩).ptr (X.seed_partition key)
              + (st.2.put (X.seed_partition key)
                ⟨X.seed_partition_offset key, value⟩).n (X.seed_partition key)
              ≤ st.1.length := by
            rw [hput, hfull]
            have : (st.2.put (X.seed_partition key)
                ⟨X.seed_partition_offset key, value⟩).ptr (X.seed_partition key)
                = st.2.ptr (X.seed_partition key) := rfl
            rw [this]
            omega
          rw [flush_p_eq _ _ _ hcap'] at h
          cases h
        · rw [if_neg hfull] at h
          cases h
      · exact Or.inl hlt
    · rw [if_neg hc] at h
      cases h

/-- C19 on a job with twenty seeds in one partition: after sixteen pushes the
counter is back at 0, after twenty it is 4. -/
theorem C19_fill_invariant_witness :
    ((push_list exLong ((List.range 16).map (fun j => (4, j)))
        (List.replicate 23 default, buffered_iterator.init (fun _ => 2))).map
        (fun st => (st.2.ptr 0, st.2.n 0))) = some (18, 0) ∧
    ((push_list exLong ((List.range 20).map (fun j => (4, j)))
        (List.replicate 23 default, buffered_iterator.init (fun _ => 2))).map
        (fun st => (st.2.ptr 0, st.2.n 0))) = some (18, 4) ∧
    ∀ st, push_list exLong ((List.range 20).map (fun j => (4, j)))
        (List.replicate 23 default, buffered_iterator.init (fun _ => 2)) = some st →
      ∀ p, st.2.n p < BUFFER_SIZE :=
  ⟨by decide, by decide, (C19_fill_invariant exLong).2.2.2.2.1 _ _ _⟩

/-! ## C13: the batched writer -/

theorem flush_loop_cursor (qs : List Nat) (hnd : qs.Nodup) (st st2 : build_state)
    (h : buffered_iterator.flush_loop qs st = some st2) :
    (∀ p, p ∈ qs → st2.2.ptr p = st.2.ptr p + st.2.n p ∧ st2.2.n p = 0) ∧
    (∀ p, p ∉ qs → st2.2.ptr p = st.2.ptr p ∧ st2.2.n p = st.2.n p) := by
  induction qs generalizing st with
  | nil =>
    simp only [buffered_iterator.flush_loop] at h
    rw [← Option.some.inj h]
    exact ⟨fun p hp => absurd hp (List.not_mem_nil p), fun _ _ => ⟨rfl, rfl⟩⟩
  | cons q rest ih =>
    obtain ⟨hq, hnd'⟩ := List.nodup_cons.mp hnd
    unfold buffered_iterator.flush_loop at h
    by_cases hpos : 0 < st.2.n q
    · rw [if_pos hpos] at h
      cases hf : buffered_iterator.flush_p st q with
      | none => rw [hf] at h; cases h
      | some st1 =>
        rw [hf, Option.some_bind] at h
        obtain ⟨h1, h2⟩ := ih hnd' st1 h
        have hst1 := flush_p_some st st1 q hf
        constructor
        · intro p hp
          rcases List.mem_cons.mp hp with heq | hmem
          · subst heq
            obtain ⟨h3, h4⟩ := h2 p hq
            rw [h3, h4, hst1, flushed_ptr_same, flushed_n_same]
            exact ⟨rfl, rfl⟩
          · have hne : p ≠ q := fun h => hq (h ▸ hmem)
            obtain ⟨h3, h4⟩ := h1 p hmem
            rw [h3, h4, hst1, flushed_ptr_other _ _ _ hne, flushed_n_other _ _ _ hne]
            exact ⟨rfl, rfl⟩
        · intro p hp
          have hne : p ≠ q := fun h => hp (h ▸ List.mem_cons_self _ _)
          obtain ⟨h3, h4⟩ := h2 p (fun h => hp (List.mem_cons_of_mem _ h))
          rw [h3, h4, hst1, flushed_ptr_other _ _ _ hne, flushed_n_other _ _ _ hne]
          exact ⟨rfl, rfl⟩
    · rw [if_neg hpos] at h
      obtain ⟨h1, h2⟩ := ih hnd' st h
      constructor
      · intro p hp
        rcases List.mem_cons.mp hp with heq | hmem
        · subst heq
          obtain ⟨h3, h4⟩ := h2 p hq
          rw [h3, h4]
          omega
        · exact h1 p hmem
      · intro p hp
        exact h2 p (fun h => hp (List.mem_cons_of_mem _ h))

/-- The cursors after a sequence of pushes and the final `flush()`. -/
theorem writer_cursor (X : Ext) (hrange : ∀ p, X.contains p = true → p < X.seedp)
    (ps : List (Nat × Nat)) (st st1 : build_state)
    (hn : ∀ p, st.2.n p < BUFFER_SIZE)
    (hin : ∀ p, X.contains p = false → st.2.n p = 0)
    (h : (push_list X ps st).bind (buffered_iterator.flush X) = some st1) :
    (∀ p, X.contains p = true →
      st1.2.ptr p = st.2.ptr p + st.2.n p + (partition_entries X ps p).length) ∧
    (∀ p, X.contains p = false → st1.2.ptr p = st.2.ptr p) := by
  induction ps generalizing st with
  | nil =>
    simp only [push_list, Option.some_bind, buffered_iterator.flush] at h
    obtain ⟨h1, h2⟩ := flush_loop_cursor (List.range X.seedp) (List.nodup_range X.seedp) st st1 h
    constructor
    · intro p hp
      have := (h1 p (List.mem_range.mpr (hrange p hp))).1
      simpa [partition_entries] using this
    · intro p hp
      by_cases hmem : p ∈ List.range X.seedp
      · have := (h1 p hmem).1
        rw [this, hin p hp]
        rfl
      · exact (h2 p hmem).1
  | cons kv ps ih =>
    simp only [push_list] at h
    cases hp : buffered_iterator.push X st kv.1 kv.2 with
    | none => rw [hp] at h; cases h
    | some st2 =>
      rw [hp, Option.some_bind] at h
      obtain ⟨g1, g2, g3, g4, _⟩ := push_cursor X st st2 kv hn hp
      obtain ⟨k1, k2⟩ := ih st2 g1 (fun p hp => by rw [g2 p hp]; exact hin p hp) h
      constructor
      · intro p hpc
        have hpe : partition_entries X (kv :: ps) p
            = partition_entries X [kv] p ++ partition_entries X ps p := by
          rw [← partition_entries_append]
          rfl
        rw [k1 p hpc, g3 p hpc, hpe, List.length_append]
        omega
      · intro p hpc
        rw [k2 p hpc, g4 p hpc]

theorem entry_at_region (data : List entry) (b e x : Nat) (hb : b ≤ x) (hx : x < e) :
    data.getD x default = (region data b e).getD (x - b) default := by
  unfold region
  simp only [List.getD_eq_getElem?_getD, List.getElem?_drop, List.getElem?_take]
  have e1 : b + (x - b) = x := by omega
  rw [e1, if_pos hx]

/-- C13 as amended: let the target ranges `[ptr0[p], ptr0[p] + m_p)` of the
partitions in the range be pairwise disjoint (no cell lies in two of them) and
inside the buffer (each of their cells is a cell of the buffer), where `m_p`
is the number of pushes whose partition is `p`, and let the range hold
partition ids only.  A partition without a push has the empty target range,
which is disjoint from every range and inside every buffer wherever its cursor
stands.  Then the pushes on a fresh `buffered_iterator` followed by `flush()`
succeed; the cells of the target range of every partition in the range hold
the entries `(seed_partition_offset(key), value)` of its pushes in push order
and its final cursor is `ptr0[p] + m_p`; every cell outside the target ranges
holds what it held before; the cursor of a partition outside the range has not
moved. -/
theorem C13_batched_writer (X : Ext) (hrange : ∀ p, X.contains p = true → p < X.seedp)
    (ptr0 : Nat → Nat) (ps : List (Nat × Nat)) (data : List entry)
    (hdisj : ∀ p q, X.contains p = true → X.contains q = true → p ≠ q →
      ∀ a, ¬ ((ptr0 p ≤ a ∧ a < ptr0 p + (partition_entries X ps p).length) ∧
        (ptr0 q ≤ a ∧ a < ptr0 q + (partition_entries X ps q).length)))
    (hcap : ∀ p, X.contains p = true →
      ∀ a, ptr0 p ≤ a → a < ptr0 p + (partition_entries X ps p).length → a < data.length) :
    ∃ data1 it1, (push_list X ps (data, buffered_iterator.init ptr0)).bind
        (buffered_iterator.flush X) = some (data1, it1) ∧
      data1.length = data.length ∧
      (∀ p, X.contains p = true →
        region data1 (ptr0 p) (ptr0 p + (partition_entries X ps p).length)
          = partition_entries X ps p ∧
        it1.ptr p = ptr0 p + (partition_entries X ps p).length) ∧
      (∀ a, (∀ p, X.contains p = true →
          ¬ (ptr0 p ≤ a ∧ a < ptr0 p + (partition_entries X ps p).length)) →
        data1.getD a default = data.getD a default) ∧
      (∀ p, X.contains p = false → it1.ptr p = ptr0 p) := by
  obtain ⟨d1, it1, hrun, hlen, hreg, hframe⟩ := writer_spec X hrange ps data
    (buffered_iterator.init ptr0)
    (fun _ => by simp [buffered_iterator.init, BUFFER_SIZE])
    (fun _ _ => rfl)
    (by
      intro p q hp hq hpq hp0 hq0
      simp only [buffered_iterator.init, Nat.add_zero] at hp0 hq0 ⊢
      by_cases hle : ptr0 p ≤ ptr0 q
      · have := hdisj p q hp hq hpq (ptr0 q)
        omega
      · have := hdisj p q hp hq hpq (ptr0 p)
        omega)
    (by
      intro p hp hp0
      simp only [buffered_iterator.init, Nat.add_zero] at hp0 ⊢
      have := hcap p hp (ptr0 p + (partition_entries X ps p).length - 1) (by omega) (by omega)
      omega)
  obtain ⟨hc1, hc2⟩ := writer_cursor X hrange ps (data, buffered_iterator.init ptr0) (d1, it1)
    (fun _ => by simp [buffered_iterator.init, BUFFER_SIZE]) (fun _ _ => rfl) hrun
  refine ⟨d1, it1, hrun, hlen, ?_, ?_, ?_⟩
  · intro p hp
    constructor
    · have := hreg p hp
      simpa [buffered_iterator.init, buffered_iterator.pending] using this
    · have := hc1 p hp
      simpa [buffered_iterator.init] using this
  · intro a ha
    have hr : region d1 a (a + 1) = region data a (a + 1) := by
      apply hframe
      intro p hp _
      have := ha p hp
      simp only [buffered_iterator.init, Nat.add_zero]
      omega
    rw [entry_at_region d1 a (a + 1) a (le_refl _) (by omega),
      entry_at_region data a (a + 1) a (le_refl _) (by omega), hr]
  · intro p hp
    exact hc2 p hp

/-- C13 on three pushes with the cursors 0, 1, 4, 5: partition 0 receives two
entries and partition 3 one, the partitions 1 and 2 none.  The target ranges
are `[0, 2)`, `[1, 1)`, `[4, 4)` and `[5, 6)`; the empty range of partition 1
starts inside the range of partition 0 and shares no cell with it.  The buffer
receives the entries of partition 0 in the cells 0 and 1 and that of
partition 3 in cell 5; the other cells keep their content and the cursors end
at 2, 1, 4 and 6. -/
theorem C13_batched_writer_witness :
    (∀ p, p < 4 → (partition_entries ex4 [(4, 7), (16, 9), (3, 10)] p).length
      = [2, 0, 0, 1].getD p 0) ∧
    ((push_list ex4 [(4, 7), (16, 9), (3, 10)]
        (dataEx8, buffered_iterator.init (fun p => [0, 1, 4, 5].getD p 0))).bind
        (buffered_iterator.flush ex4)).map
        (fun st => (st.1, (List.range 4).map st.2.ptr))
      = some (([⟨1, 7⟩, ⟨4, 9⟩] ++ (dataEx8.drop 2).take 3 ++ [⟨0, 10⟩] ++ dataEx8.drop 6),
          [2, 1, 4, 6]) ∧
    ∃ data1 it1, (push_list ex4 [(4, 7), (16, 9), (3, 10)]
        (dataEx8, buffered_iterator.init (fun p => [0, 1, 4, 5].getD p 0))).bind
        (buffered_iterator.flush ex4) = some (data1, it1) ∧
      data1.length = dataEx8.length ∧
      (∀ p, ex4.contains p = true →
        region data1 ([0, 1, 4, 5].getD p 0)
            ([0, 1, 4, 5].getD p 0
              + (partition_entries ex4 [(4, 7), (16, 9), (3, 10)] p).length)
          = partition_entries ex4 [(4, 7), (16, 9), (3, 10)] p ∧
        it1.ptr p = [0, 1, 4, 5].getD p 0
          + (partition_entries ex4 [(4, 7), (16, 9), (3, 10)] p).length) ∧
      (∀ a, (∀ p, ex4.contains p = true →
          ¬ ([0, 1, 4, 5].getD p 0 ≤ a ∧ a < [0, 1, 4, 5].getD p 0
            + (partition_entries ex4 [(4, 7), (16, 9), (3, 10)] p).length)) →
        data1.getD a default = dataEx8.getD a default) ∧
      (∀ p, ex4.contains p = false → it1.ptr p = [0, 1, 4, 5].getD p 0) := by
  have hm : ∀ p, p < 4 → (partition_entries ex4 [(4, 7), (16, 9), (3, 10)] p).length
      = [2, 0, 0, 1].getD p 0 := by
    intro p hp
    interval_cases p <;> decide
  refine ⟨hm, by decide, ?_⟩
  exact C13_batched_writer ex4 ex4_range (fun p => [0, 1, 4, 5].getD p 0)
    [(4, 7), (16, 9), (3, 10)] dataEx8
    (by
      intro p q hp hq hpq a
      have hp4 : p < 4 := ex4_range p hp
      have hq4 : q < 4 := ex4_range q hq
      rw [hm p hp4, hm q hq4]
      interval_cases p <;> interval_cases q <;>
        first
          | exact absurd rfl hpq
          | (simp only [List.getD_cons_zero, List.getD_cons_succ]; omega))
    (by
      intro p hp a
      have hp4 : p < 4 := ex4_range p hp
      rw [hm p hp4]
      have hl : dataEx8.length = 8 := by decide
      rw [hl]
      interval_cases p <;> simp only [List.getD_cons_zero, List.getD_cons_succ] <;> omega)

/-- C13 as stated fails for cursors whose target ranges overlap: with the
cursors of the partitions 0 and 1 both at cell 0, one push to partition 0 and
one to partition 1, `flush()` copies the entry of partition 0 to cell 0 and
then the entry of partition 1 over it, so cell 0 does not hold the entry
pushed to partition 0. -/
theorem C13_batched_writer_counterexample :
    partition_entries ex4 [(4, 7), (5, 8)] 0 = [⟨1, 7⟩] ∧
    ((push_list ex4 [(4, 7), (5, 8)]
        (List.replicate 4 default, buffered_iterator.init (fun _ => 0))).bind
        (buffered_iterator.flush ex4)).map (fun st => (st.1, st.2.ptr 0, st.2.ptr 1))
      = some ([⟨1, 8⟩, ⟨0, 0⟩, ⟨0, 0⟩, ⟨0, 0⟩], 1, 1) ∧
    ¬ ∃ st, (push_list ex4 [(4, 7), (5, 8)]
        (List.replicate 4 default, buffered_iterator.init (fun _ => 0))).bind
        (buffered_iterator.flush ex4) = some st ∧
      region st.1 0 (0 + (partition_entries ex4 [(4, 7), (5, 8)] 0).length)
        = partition_entries ex4 [(4, 7), (5, 8)] 0 := by
  refine ⟨by decide, by decide, ?_⟩
  rintro ⟨st, hst, hreg⟩
  have hd : ((push_list ex4 [(4, 7), (5, 8)]
        (List.replicate 4 default, buffered_iterator.init (fun _ => 0))).bind
        (buffered_iterator.flush ex4)).map (fun st => region st.1 0 1)
      = some [⟨1, 8⟩] := by decide
  rw [hst] at hd
  have h1 : region st.1 0 1 = [⟨1, 8⟩] := Option.some.inj hd
  have h2 : partition_entries ex4 [(4, 7), (5, 8)] 0 = [⟨1, 7⟩] := by decide
  rw [h2] at hreg
  simp only [List.length_singleton, Nat.zero_add] at hreg
  rw [h1] at hreg
  exact absurd hreg (by decide)

/-! ## C18: the key read by `random_access` -/

/-- The constructor reads the key at `Limits[p] + offset`; this index is inside
the region exactly when the offset is smaller than the width. -/
theorem random_access_reads_spec (limits : List Nat) (p offset : Nat) :
    random_access_reads limits p offset = [ptr_begin limits p + offset] ∧
    ((ptr_begin limits p ≤ ptr_begin limits p + offset ∧
        ptr_begin limits p + offset < ptr_end limits p)
      ↔ offset < ptr_end limits p - ptr_begin limits p) :=
  ⟨rfl, by omega⟩

/-- C18 evaluated on the buffer `dataEx8` of eight entries with the table
`[0,3,4,5,8]`: the grouped iterator of partition 3 is at its end after two
steps and its offset is 3, the width of the region `[5, 8)`;
`random_access(3, 3)` reads the key at index 8, which is outside the region and
past the last entry of the buffer, and `good()` is false.  For the zero-width
partition 0 of the table `[0,0,1,2,2]`, `random_access(0, 0)` reads the key at
index 0 although the region `[0, 0)` is empty. -/
theorem C18_random_access_reads_end :
    ((Iterator_base.inc dataEx8)^[2]
        (get_partition_cbegin dataEx8 (Limits ex4 hstEx) 3)).at_end = true ∧
    iterator_offset (Limits ex4 hstEx)
        ((Iterator_base.inc dataEx8)^[2]
          (get_partition_cbegin dataEx8 (Limits ex4 hstEx) 3)) 3 = 3 ∧
    ptr_begin (Limits ex4 hstEx) 3 = 5 ∧ ptr_end (Limits ex4 hstEx) 3 = 8 ∧
    dataEx8.length = 8 ∧
    random_access_reads (Limits ex4 hstEx) 3 3 = [8] ∧
    (random_access dataEx8 (Limits ex4 hstEx) 3 3).good dataEx8 = false ∧
    Limits ex4mid hstEx = [0, 0, 1, 2, 2] ∧
    random_access_reads (Limits ex4mid hstEx) 0 0 = [0] ∧
    (random_access dataEx8 (Limits ex4mid hstEx) 0 0).good dataEx8 = false := by
  decide

/-! ## C20: the length of a buffered read -/

theorem fetch_remaining (s : BufferedSource) (h : s.buf = []) :
    s.fetch.remaining = s.remaining := by
  unfold BufferedSource.fetch BufferedSource.remaining
  cases hs : s.src with
  | nil => simp [h]
  | cons c cs => simp [h]

theorem refill_remaining (s : BufferedSource) : s.refill.remaining = s.remaining := by
  unfold BufferedSource.refill
  by_cases h0 : s.avail_ = 0
  · rw [if_pos h0]
    exact fetch_remaining s (by simpa [BufferedSource.avail_] using h0)
  · rw [if_neg h0]

theorem refill_src (s : BufferedSource) (hpos : ∀ c, c ∈ s.src → c ≠ []) :
    ∀ c, c ∈ s.refill.src → c ≠ [] := by
  intro c hc
  unfold BufferedSource.refill at hc
  by_cases h0 : s.avail_ = 0
  · rw [if_pos h0] at hc
    unfold BufferedSource.fetch at hc
    cases hs : s.src with
    | nil => rw [hs] at hc; cases hc
    | cons c0 cs =>
      rw [hs] at hc
      exact hpos c (by rw [hs]; exact List.mem_cons_of_mem _ hc)
  · rw [if_neg h0] at hc
    exact hpos c hc

theorem read_loop_spec (fuel : Nat) (s : BufferedSource) (count : Nat) (out : List Nat)
    (total : Nat) (hpos : ∀ c, c ∈ s.src → c ≠ []) (hf : s.src.length < fuel) :
    ∃ s1, BufferedSource.read_loop fuel s count out total
        = some (total + min count s.remaining.length, out ++ s.remaining.take count, s1) ∧
      s1.remaining = s.remaining.drop count ∧ (∀ c, c ∈ s1.src → c ≠ []) := by
  induction fuel generalizing s count out total with
  | zero => omega
  | succ fuel ih =>
    unfold BufferedSource.read_loop
    by_cases hle : count ≤ s.buf.length
    · -- the buffered bytes suffice: the loop ends
      have hmin : min count s.avail_ = count := by
        unfold BufferedSource.avail_; omega
      rw [hmin]
      have hc0 : ¬ (0 < count - count ∧ 0 < (s.pop count).2.refill.avail_) := by
        rintro ⟨h, _⟩; omega
      rw [if_neg hc0]
      have hrem : s.remaining.length = s.buf.length + s.src.flatten.length := by
        simp [BufferedSource.remaining]
      have htake : s.remaining.take count = s.buf.take count := by
        unfold BufferedSource.remaining
        rw [List.take_append_of_le_length hle]
      have hdrop : s.remaining.drop count = s.buf.drop count ++ s.src.flatten := by
        unfold BufferedSource.remaining
        rw [List.drop_append_of_le_length hle]
      refine ⟨(s.pop count).2.refill, ?_, ?_, ?_⟩
      · rw [htake]
        have : min count s.remaining.length = count := by omega
        rw [this]
        rfl
      · rw [hdrop, refill_remaining]
        rfl
      · exact refill_src _ hpos
    · -- all buffered bytes are delivered and the buffer is refilled
      have hlt : s.buf.length < count := by omega
      have hmin : min count s.avail_ = s.buf.length := by
        unfold BufferedSource.avail_; omega
      rw [hmin]
      have hpop1 : (s.pop s.buf.length).1 = s.buf := by
        simp [BufferedSource.pop]
      have hpop2 : (s.pop s.buf.length).2 = { buf := [], src := s.src } := by
        simp [BufferedSource.pop]
      have hre : ({ buf := [], src := s.src } : BufferedSource).refill
          = ({ buf := [], src := s.src } : BufferedSource).fetch := by
        unfold BufferedSource.refill
        exact if_pos rfl
      rw [hpop1, hpop2, hre]
      cases hs : s.src with
      | nil =>
        have hfe : BufferedSource.fetch { buf := [], src := [] } = { buf := [], src := [] } :=
          rfl
        rw [hfe]
        have hc0 : ¬ (0 < count - s.buf.length ∧
            0 < ({ buf := [], src := [] } : BufferedSource).avail_) := by
          rintro ⟨_, h⟩
          exact absurd h (by decide)
        rw [if_neg hc0]
        have hrem : s.remaining = s.buf := by
          simp [BufferedSource.remaining, hs]
        refine ⟨{ buf := [], src := [] }, ?_, ?_, ?_⟩
        · rw [hrem, List.take_of_length_le (Nat.le_of_lt hlt)]
          have : min count s.buf.length = s.buf.length := by omega
          rw [this]
        · rw [hrem, List.drop_of_length_le (Nat.le_of_lt hlt)]
          rfl
        · intro c hc
          cases hc
      | cons c0 cs =>
        have hfe : BufferedSource.fetch { buf := [], src := c0 :: cs }
            = { buf := c0, src := cs } := rfl
        rw [hfe]
        have hc0ne : c0 ≠ [] := hpos c0 (by rw [hs]; exact List.mem_cons_self _ _)
        have hc0pos : 0 < c0.length := List.length_pos.mpr hc0ne
        have hcont : 0 < count - s.buf.length ∧
            0 < ({ buf := c0, src := cs } : BufferedSource).avail_ := by
          exact ⟨by omega, hc0pos⟩
        rw [if_pos hcont]
        obtain ⟨s1, hrun, hrem1, hpos1⟩ := ih { buf := c0, src := cs }
          (count - s.buf.length) (out ++ s.buf) (total + s.buf.length)
          (fun c hc => hpos c (by rw [hs]; exact List.mem_cons_of_mem _ hc))
          (by rw [hs] at hf; simp only [List.length_cons] at hf ⊢; omega)
        have hrem : s.remaining
            = s.buf ++ ({ buf := c0, src := cs } : BufferedSource).remaining := by
          simp [BufferedSource.remaining, hs]
        refine ⟨s1, ?_, ?_, hpos1⟩
        · rw [hrun, hrem, List.take_append_eq_append_take, List.length_append,
            List.take_of_length_le (Nat.le_of_lt hlt)]
          have hm : total + s.buf.length
                + min (count - s.buf.length)
                  ({ buf := c0, src := cs } : BufferedSource).remaining.length
              = total + min count
                (s.buf.length
                  + ({ buf := c0, src := cs } : BufferedSource).remaining.length) := by
            omega
          rw [hm, List.append_assoc]
        · rw [hrem1, hrem, List.drop_append_eq_append_drop,
            List.drop_of_length_le (Nat.le_of_lt hlt), List.nil_append]

/-- C20: let every block that `fetch()` obtains from the source be non-empty.
Then `read(ptr, count)` returns within one loop iteration per block left in the
source plus one; the value returned is the minimum of `count` and the number of
bytes remaining in the stream, so it is `count` whenever that many bytes
remain, never more than `count`, and less than `count` only when the stream is
exhausted afterwards; the bytes written to `ptr` are the next bytes of the
stream in order, and the stream continues after them. -/
theorem C20_buffered_read_length (s : BufferedSource) (count fuel : Nat)
    (hpos : ∀ c, c ∈ s.src → c ≠ []) (hf : s.src.length < fuel) :
    ∃ total out s1, BufferedSource.read fuel s count = some (total, out, s1) ∧
      total = min count s.remaining.length ∧
      (count ≤ s.remaining.length → total = count) ∧
      total ≤ count ∧
      (total < count → s1.remaining = []) ∧
      out = s.remaining.take count ∧ out.length = total ∧
      s1.remaining = s.remaining.drop count := by
  have hfacts : ∀ (total : Nat) (out : List Nat) (s1 : BufferedSource),
      total = min count s.remaining.length → out = s.remaining.take count →
      s1.remaining = s.remaining.drop count →
      total = min count s.remaining.length ∧
      (count ≤ s.remaining.length → total = count) ∧
      total ≤ count ∧
      (total < count → s1.remaining = []) ∧
      out = s.remaining.take count ∧ out.length = total ∧
      s1.remaining = s.remaining.drop count := by
    intro total out s1 h1 h2 h3
    refine ⟨h1, fun h => by omega, by omega, ?_, h2, ?_, h3⟩
    · intro hlt
      rw [h3]
      exact List.drop_of_length_le (by omega)
    · rw [h2, List.length_take, h1]
  unfold BufferedSource.read
  by_cases hle : count ≤ s.avail_
  · rw [if_pos hle]
    have hle' : count ≤ s.buf.length := hle
    refine ⟨count, (s.pop count).1, (s.pop count).2, rfl, ?_⟩
    apply hfacts
    · have : s.remaining.length = s.buf.length + s.src.flatten.length := by
        simp [BufferedSource.remaining]
      omega
    · unfold BufferedSource.remaining
      rw [List.take_append_of_le_length hle']
      rfl
    · unfold BufferedSource.remaining
      rw [List.drop_append_of_le_length hle']
      rfl
  · rw [if_neg hle]
    obtain ⟨s1, hrun, hrem, _⟩ := read_loop_spec fuel s count [] 0 hpos hf
    refine ⟨_, _, s1, hrun, ?_⟩
    apply hfacts
    · omega
    · simp
    · exact hrem

/-- C20 on a stream of nine bytes, three of them buffered: a read of 2 is
served from the buffer, a read of 6 crosses two blocks, a read of 20 returns
the 9 bytes that remain. -/
theorem C20_buffered_read_length_witness :
    BufferedSource.read 3 sourceEx 2 = some (2, [1, 2], ⟨[3], [[4, 5], [6, 7, 8, 9]]⟩) ∧
    BufferedSource.read 3 sourceEx 6 = some (6, [1, 2, 3, 4, 5, 6], ⟨[7, 8, 9], []⟩) ∧
    BufferedSource.read 3 sourceEx 20
      = some (9, [1, 2, 3, 4, 5, 6, 7, 8, 9], ⟨[], []⟩) ∧
    ∃ total out s1, BufferedSource.read 3 sourceEx 20 = some (total, out, s1) ∧
      total = min 20 sourceEx.remaining.length ∧
      out = sourceEx.remaining.take 20 :=
  ⟨by decide, by decide, by decide,
    (C20_buffered_read_length sourceEx 20 3 (by decide) (by decide)).imp
      (fun _ h => h.imp (fun _ h => h.imp (fun _ h => ⟨h.1, h.2.1, h.2.2.2.2.2.1⟩)))⟩

end Diamond
